import Mathlib

/-! savefile: timestamped backup copies

A shallow embedding of `savefile.go` and the properties of its naming scheme and of its
recursive copy.

Conventions of the embedding.

* A Go `string` is the list of its characters (`Str`).  Positions in a string are positions
  in that list; the only position the program computes is that of a `'.'`, which is a
  one-byte character, so cutting the list there is cutting the Go string at the same place.
* The platform is Unix: `os.PathSeparator` is `'/'`, there are no volume names.  The
  functions of `path/filepath` are modelled on the elements of a path; `filepath_examples`
  evaluates them on inputs of the library's test tables.
* The filesystem is an explicit value (`FS`): a finite table from locations to entries.  A
  location (`Key`) is the list of names from the entry up to the root, innermost name first,
  so the root is `[]` and the child `n` of the directory `d` is `n :: d`.  There are no links.
  A path string is resolved element by element (`walk`), as the operating system does it:
  every element but the last must name an existing directory.
  System calls fail for structural reasons (a missing or non-directory path component, an
  entry that already exists, a directory where a file is wanted), when the path or one of
  its names is longer than the system allows (`pathMax`, `nameMax`), when an entry is to be
  created in a directory that takes no new entry (`sealed`: no write access, a read-only or
  a full filesystem) and, for `chtimes` and `chmod`, when the calling user may not change
  the attributes of the entry (`owned`).  Access rights given by the mode bits are not
  checked otherwise.  Creating an entry stamps the modification time of its directory with
  the clock of the filesystem.
* A `panic` is the outcome `Outcome.panic`, carrying the state reached when the run is
  aborted (deferred calls included).  Logging is not modelled.
* The recursion of `processEntry` is bounded by a fuel argument; `Outcome.fuelOut` stands
  for a run that has not finished within that bound.  The outcome of a run that has
  finished does not depend on the fuel (`processEntry_fuel_mono`).
-/

namespace Savefile

/-! ## Strings and formatting -/

/-- Go strings, as lists of characters. -/
abbrev Str := List Char

/-- The constant `os.PathSeparator` on Unix. -/
def pathSeparator : Char := '/'

/-- The decimal digit of a number below ten. -/
def digitChar (d : Nat) : Char := Char.ofNat (48 + d)

/-- Decimal digits of `n`, most significant first; `fuel` bounds the number of digits. -/
def decDigitsFuel : Nat → Nat → Str
  | 0, _ => []
  | fuel + 1, n =>
    if n < 10 then [digitChar n] else decDigitsFuel fuel (n / 10) ++ [digitChar (n % 10)]

/-- Decimal representation of a natural number. -/
def decDigits (n : Nat) : Str := decDigitsFuel (n + 1) n

/-- The verb `%0<width>d` of `fmt.Sprintf`: the sign, if any, then the digits, padded with
zeros on the left up to `width` characters in all. -/
def fmtZeroPad (width : Nat) (n : Int) : Str :=
  let ds := decDigits n.natAbs
  if n < 0 then '-' :: (List.replicate (width - 1 - ds.length) '0' ++ ds)
  else List.replicate (width - ds.length) '0' ++ ds

/-- The fields of a `time.Time` that the program reads. -/
structure Time where
  year : Int
  month : Int
  day : Int
  hour : Int
  minute : Int
  second : Int
deriving DecidableEq

/-- The call `fmt.Sprintf("%04d%02d%02d%02d%02d%02d", now.Year(), ..., now.Second())`. -/
def formatNow (now : Time) : Str :=
  fmtZeroPad 4 now.year ++ fmtZeroPad 2 now.month ++ fmtZeroPad 2 now.day ++
    fmtZeroPad 2 now.hour ++ fmtZeroPad 2 now.minute ++ fmtZeroPad 2 now.second

/-- Reads a natural number from decimal digits. -/
def readNat (s : Str) : Nat := s.foldl (fun acc c => 10 * acc + (c.toNat - 48)) 0

/-! ## Lexical path functions (`path/filepath`, Unix) -/

/-- The elements of a path: the text between separators. -/
def splitSep : Str → List Str
  | [] => [[]]
  | c :: cs =>
    if c = pathSeparator then [] :: splitSep cs
    else match splitSep cs with
      | [] => [[c]]
      | x :: xs => (c :: x) :: xs

/-- Elements joined with the separator. -/
def joinSep : List Str → Str
  | [] => []
  | [x] => x
  | x :: y :: r => x ++ pathSeparator :: joinSep (y :: r)

/-- One element processed by `filepath.Clean`; `out` holds the elements written so far,
last written first.  Empty and `.` elements are dropped, `..` removes the element before it
when there is one, is dropped at the root, and is kept otherwise. -/
def cleanStep (rooted : Bool) (out : List Str) (el : Str) : List Str :=
  if el = [] ∨ el = ['.'] then out
  else if el = ['.', '.'] then
    match out with
    | top :: rest => if top = ['.', '.'] then el :: out else rest
    | [] => if rooted then [] else [el]
  else el :: out

/-- The function `filepath.IsAbs` on Unix: the path starts with the separator. -/
def IsAbs : Str → Bool
  | c :: _ => decide (c = pathSeparator)
  | [] => false

/-- The function `filepath.Clean` on Unix. -/
def Clean (path : Str) : Str :=
  if path = [] then ['.']
  else
    let rooted := IsAbs path
    let out := (splitSep path).foldl (cleanStep rooted) []
    let s := (if rooted then [pathSeparator] else []) ++ joinSep out.reverse
    if s = [] then ['.'] else s

/-- The function `filepath.Base` on Unix: the last element of the path, trailing separators
removed first; `.` for the empty path and the separator for a path of separators only. -/
def Base (path : Str) : Str :=
  if path = [] then ['.']
  else
    let p1 := (path.reverse.dropWhile (fun c => c = pathSeparator)).reverse
    let p2 := (p1.reverse.takeWhile (fun c => c ≠ pathSeparator)).reverse
    if p2 = [] then [pathSeparator] else p2

/-- The function `filepath.Dir` on Unix: all but the last element of the path, cleaned. -/
def Dir (path : Str) : Str :=
  Clean (path.reverse.dropWhile (fun c => c ≠ pathSeparator)).reverse

/-- The last element of a path: the text after its last separator. -/
def lastElement (path : Str) : Str :=
  (path.reverse.takeWhile (fun c => c ≠ pathSeparator)).reverse

/-- A name an entry can have: not empty, without separator, neither `.` nor `..`. -/
def validName (n : Str) : Bool :=
  decide (n ≠ []) && decide (pathSeparator ∉ n) && decide (n ≠ ['.']) &&
    decide (n ≠ ['.', '.'])

/-- Shape of the elements written by `filepath.Clean`, last written first: names over `..`
elements, and no `..` element in a rooted path. -/
def NormOut (rooted : Bool) (out : List Str) : Prop :=
  ∃ (names : List Str) (k : Nat), out = names ++ List.replicate k ['.', '.'] ∧
    (∀ x ∈ names, validName x = true) ∧ (rooted = true → k = 0)

/-! ## The naming context -/

/-- The type `tContext`. -/
structure tContext where
  sNow : Str
  sMe : Str
deriving DecidableEq

/-- The fields of a `user.User` that the program reads. -/
structure User where
  Name : Str
  Username : Str
deriving DecidableEq

/-- What the process finds outside the filesystem at the moment of a call: the wall clock
(`time.Now()`) and the answer of `user.Current()`, `none` when that lookup fails. -/
structure Env where
  now : Time
  currentUser : Option User
deriving DecidableEq

/-- Reasons for which the program panics. -/
inductive Err where
  | cannotGetUser
  | cannotAbs
  | cannotOpen
  | cannotStat
  | cannotReadDir
  | cannotCreate
  | cannotCopy
deriving DecidableEq

/-- The function `getContextSingleton`; the package variable `contextSingleton` is passed in
and returned.  An error is the panic after a failed user lookup. -/
def getContextSingleton (env : Env) (contextSingleton : Option tContext) :
    Except Err (tContext × Option tContext) :=
  match contextSingleton with
  | none =>
    let sNow := formatNow env.now
    match env.currentUser with
    | none => .error .cannotGetUser
    | some me =>
      let sMe := if me.Name.length = 0 then me.Username else me.Name
      .ok (⟨sNow, sMe⟩, some ⟨sNow, sMe⟩)
  | some c => .ok (c, some c)

/-- The loop of `computeTopLevelTargetPath` over the base name: the position of the last
`'.'`, or `-1`. -/
def lastDotPosn (base : Str) : Int :=
  base.enum.foldl
    (fun (posn : Int) (ic : Nat × Char) => if ic.2 = '.' then (ic.1 : Int) else posn) (-1)

/-- The stem and the extension computed by `computeTopLevelTargetPath`. -/
def splitStemExt (base : Str) : Str × Str :=
  let posn := lastDotPosn base
  if posn > 0 then (base.take posn.toNat, base.drop posn.toNat) else (base, [])

/-- The function `computeTopLevelTargetPath`, with `contextSingleton` passed in and
returned. -/
def computeTopLevelTargetPath (env : Env) (contextSingleton : Option tContext)
    (sourcePath : Str) : Except Err (Str × Option tContext) :=
  let base := Base sourcePath
  let dir := Dir sourcePath
  let (stem, ext) := splitStemExt base
  match getContextSingleton env contextSingleton with
  | .error e => .error e
  | .ok (tmp, singleton) =>
    .ok (dir ++ [pathSeparator] ++ stem ++ ".bak_".toList ++ tmp.sNow ++ "_".toList ++
      tmp.sMe ++ ext, singleton)

/-- The split of a base name in the words of the specification: the position of the last
occurrence of `'.'`, if any. -/
def specLastDot (base : Str) : Option Nat :=
  ((List.range base.length).filter (fun i => base[i]? = some '.')).getLast?

/-- The split of a base name in the words of the specification: at the last `'.'` when it
stands at a position greater than zero, no extension otherwise. -/
def specSplit (base : Str) : Str × Str :=
  match specLastDot base with
  | some i => if 0 < i then (base.take i, base.drop i) else (base, [])
  | none => (base, [])

/-! ## The filesystem -/

/-- A byte of file content. -/
abbrev Byte := Fin 256

/-- Location of an entry: its name, then the names of its ancestors up to the root. -/
abbrev Key := List Str

/-- An entry of the filesystem: a directory or a regular file.  The field `owned` tells
whether the calling user may change the times and the mode of the entry. -/
structure Entry where
  isDir : Bool
  data : List Byte
  mtime : Nat
  mode : Nat
  owned : Bool
deriving DecidableEq, Inhabited

/-- The entry stored at a location, in a table of entries. -/
def lookupE : List (Key × Entry) → Key → Option Entry
  | [], _ => none
  | (k', e) :: r, k => if k' = k then some e else lookupE r k

/-- The table with the entry at location `k` replaced, or added when there is none. -/
def setE : List (Key × Entry) → Key → Entry → List (Key × Entry)
  | [], k, e => [(k, e)]
  | (k', e') :: r, k, e => if k' = k then (k, e) :: r else (k', e') :: setE r k e

/-- The names of the entries stored directly under the directory `d`, in table order. -/
def childNames : List (Key × Entry) → Key → List Str
  | [], _ => []
  | (k, _) :: r, d =>
    match k with
    | n :: d' => if d' = d then n :: childNames r d else childNames r d
    | [] => childNames r d

/-- State of the filesystem: the entries, the clock that stamps modifications, the umask of
the process, its working directory (`none` when it cannot be determined), the greatest
length of a name and of a path that a system call accepts, and the directories in which no
entry can be created. -/
structure FS where
  entries : List (Key × Entry)
  clock : Nat
  umask : Nat
  cwd : Option Key
  nameMax : Nat
  pathMax : Nat
  sealed : List Key
deriving DecidableEq

/-- The entry at a location. -/
def FS.lookup (fs : FS) (k : Key) : Option Entry := lookupE fs.entries k

/-- Whether a location holds a directory. -/
def FS.isDirAt (fs : FS) (k : Key) : Bool :=
  match fs.lookup k with
  | some e => e.isDir
  | none => false

/-- The state with the entry at location `k` replaced or added. -/
def FS.set (fs : FS) (k : Key) (e : Entry) : FS := { fs with entries := setE fs.entries k e }

/-- The state after the clock has advanced. -/
def FS.tick (fs : FS) : FS := { fs with clock := fs.clock + 1 }

/-- Path resolution, element by element, from the location `cur`.  Every element is looked
up in a directory; the location of the last element need not exist.  A name longer than
`nameMax` is refused. -/
def walk (fs : FS) : Key → List Str → Option Key
  | cur, [] => some cur
  | cur, el :: rest =>
    if fs.isDirAt cur = false then none
    else if el = [] ∨ el = ['.'] then walk fs cur rest
    else if el = ['.', '.'] then walk fs cur.tail rest
    else if fs.nameMax < el.length then none
    else walk fs (el :: cur) rest

/-- Where the resolution of a path starts: at the root for an absolute path, at the working
directory otherwise. -/
def startKey (fs : FS) (path : Str) : Option Key :=
  if IsAbs path then some [] else fs.cwd

/-- The location a path string designates: from the root for an absolute path, from the
working directory otherwise.  The empty path designates nothing, and a path longer than
`pathMax` is refused. -/
def resolve (fs : FS) (path : Str) : Option Key :=
  if path = [] then none
  else if fs.pathMax < path.length then none
  else match startKey fs path with
    | none => none
    | some d => walk fs d (splitSep path)

/-- An open file (`*os.File`): the name it was opened with and the entry it refers to. -/
structure File where
  name : Str
  key : Key
deriving DecidableEq

/-- The part of `os.FileInfo` that the program reads. -/
structure FileInfo where
  isDir : Bool
  modTime : Nat
  mode : Nat
deriving DecidableEq

/-- The call `os.Open`: the path must designate an existing entry. -/
def osOpen (fs : FS) (path : Str) : Option File :=
  match resolve fs path with
  | none => none
  | some k => if (fs.lookup k).isSome then some ⟨path, k⟩ else none

/-- The method `File.Stat`. -/
def fileStat (fs : FS) (f : File) : Option FileInfo :=
  match fs.lookup f.key with
  | none => none
  | some e => some ⟨e.isDir, e.mtime, e.mode⟩

/-- The method `File.ReadDir(-1)`: the names of all children of an open directory. -/
def fileReadDir (fs : FS) (f : File) : Option (List Str) :=
  if fs.isDirAt f.key then some (childNames fs.entries f.key) else none

/-- Permission bits of a new entry: the requested bits without those of the umask. -/
def applyUmask (perm umask : Nat) : Nat := perm - (perm &&& umask)

/-- A new entry is added under its parent directory, whose modification time is stamped. -/
def addEntry (fs : FS) (n : Str) (d : Key) (pe : Entry) (e : Entry) : FS :=
  ((fs.set d { pe with mtime := fs.clock }).set (n :: d) e).tick

/-- The call `os.Mkdir`: fails when the path designates nothing, when the entry exists,
when the parent is not a directory, and when the parent takes no new entry. -/
def osMkdir (fs : FS) (path : Str) (perm : Nat) : Option FS :=
  match resolve fs path with
  | none => none
  | some [] => none
  | some (n :: d) =>
    match fs.lookup (n :: d), fs.lookup d with
    | none, some pe =>
      if pe.isDir = true ∧ d ∉ fs.sealed then
        some (addEntry fs n d pe ⟨true, [], fs.clock, applyUmask perm fs.umask, true⟩)
      else none
    | _, _ => none

/-- The call `os.Create`: an existing regular file is truncated, a missing one is created
with mode `0666` before umask; fails on a directory, when the parent is not a directory,
and when a missing file is to be created in a directory that takes no new entry. -/
def osCreate (fs : FS) (path : Str) : Option (FS × File) :=
  match resolve fs path with
  | none => none
  | some k =>
    match fs.lookup k with
    | some e =>
      if e.isDir then none
      else some ((fs.set k { e with data := [], mtime := fs.clock }).tick, ⟨path, k⟩)
    | none =>
      match k with
      | [] => none
      | n :: d =>
        match fs.lookup d with
        | some pe =>
          if pe.isDir = true ∧ d ∉ fs.sealed then
            some (addEntry fs n d pe ⟨false, [], fs.clock, applyUmask 0o666 fs.umask, true⟩,
              ⟨path, k⟩)
          else none
        | none => none

/-- The call `io.Copy(dst, src)` on two freshly opened files: all bytes of the source are
written to the target from its start.  Fails when either is not a regular file. -/
def ioCopy (fs : FS) (dst src : File) : Option FS :=
  match fs.lookup src.key, fs.lookup dst.key with
  | some s, some d =>
    if s.isDir ∨ d.isDir then none
    else if s.data = [] then some fs
    else some (fs.set dst.key
      { d with data := s.data ++ d.data.drop s.data.length, mtime := fs.clock }).tick
  | _, _ => none

/-- The call `os.Chtimes(path, time.Time{}, mtime)`: sets the modification time of an
existing entry whose attributes the user may change. -/
def osChtimes (fs : FS) (path : Str) (mtime : Nat) : Option FS :=
  match resolve fs path with
  | none => none
  | some k =>
    match fs.lookup k with
    | some e =>
      if e.owned then some (fs.set k { e with mtime := mtime }) else none
    | none => none

/-- The call `os.Chmod`: sets the mode of an existing entry whose attributes the user may
change. -/
def osChmod (fs : FS) (path : Str) (mode : Nat) : Option FS :=
  match resolve fs path with
  | none => none
  | some k =>
    match fs.lookup k with
    | some e =>
      if e.owned then some (fs.set k { e with mode := mode }) else none
    | none => none

/-- The call `os.Getwd`. -/
def osGetwd (fs : FS) : Option Str :=
  match fs.cwd with
  | none => none
  | some d => some (pathSeparator :: joinSep d.reverse)

/-- The function `filepath.Abs` on Unix. -/
def Abs (fs : FS) (path : Str) : Option Str :=
  if IsAbs path then some (Clean path)
  else match osGetwd fs with
    | none => none
    | some wd => some (Clean (wd ++ pathSeparator :: path))

/-! ## The copy -/

/-- How a call ends: normally, by a panic, or not within the fuel given. -/
inductive Outcome (σ : Type) where
  | ok (s : σ)
  | panic (s : σ) (e : Err)
  | fuelOut
deriving DecidableEq

/-- Whether a call returned normally. -/
def Outcome.isOk {σ : Type} : Outcome σ → Bool
  | .ok _ => true
  | _ => false

/-- The state in which a call ended, or `dflt` when it did not end. -/
def Outcome.get {σ : Type} (o : Outcome σ) (dflt : σ) : σ :=
  match o with
  | .ok s => s
  | .panic s _ => s
  | .fuelOut => dflt

/-- The state in which a call ended, normally or by a panic; `none` when it did not end. -/
def Outcome.final {σ : Type} : Outcome σ → Option σ
  | .ok s => some s
  | .panic s _ => some s
  | .fuelOut => none

/-- The function `mirrorMtimeAndMode`: a failure of either call does not stop the run. -/
def mirrorMtimeAndMode (fs : FS) (path : Str) (info : FileInfo) : FS :=
  let fs1 := match osChtimes fs path info.modTime with
    | some fs' => fs'
    | none => fs
  match osChmod fs1 path info.mode with
  | some fs' => fs'
  | none => fs1

/-- The function `processFile`.  The deferred call runs on every exit after the target has
been created. -/
def processFile (fs : FS) (_sourcePath : Str) (sourceFile : File) (sourceInfo : FileInfo)
    (targetPath : Str) : Outcome FS :=
  match osCreate fs targetPath with
  | none => .panic fs .cannotCreate
  | some (fs1, targetFile) =>
    match ioCopy fs1 targetFile sourceFile with
    | none => .panic (mirrorMtimeAndMode fs1 targetPath sourceInfo) .cannotCopy
    | some fs2 => .ok (mirrorMtimeAndMode fs2 targetPath sourceInfo)

/-- The loop of `diveDirectory` over the children read from the directory. -/
def diveLoop (processEntry : FS → Str → Str → Outcome FS) (dirName targetDirName : Str) :
    List Str → FS → Outcome FS
  | [], fs => .ok fs
  | child :: rest, fs =>
    match processEntry fs (dirName ++ pathSeparator :: child)
        (targetDirName ++ pathSeparator :: child) with
    | .ok fs' => diveLoop processEntry dirName targetDirName rest fs'
    | other => other

/-- The function `diveDirectory`; the recursive call goes through `processEntry`. -/
def diveDirectory (processEntry : FS → Str → Str → Outcome FS) (fs : FS) (dir : File)
    (targetDirName : Str) : Outcome FS :=
  match fileReadDir fs dir with
  | none => .panic fs .cannotReadDir
  | some childs => diveLoop processEntry dir.name targetDirName childs fs

/-- The function `processDirectory`.  The result of `os.Mkdir` is not looked at; the
deferred `mirrorMtimeAndMode` runs when `diveDirectory` returns and when it panics. -/
def processDirectory (processEntry : FS → Str → Str → Outcome FS) (fs : FS)
    (_sourcePath : Str) (sourceFile : File) (sourceInfo : FileInfo) (targetPath : Str) :
    Outcome FS :=
  let fs1 := match osMkdir fs targetPath 0o777 with
    | some fs' => fs'
    | none => fs
  match diveDirectory processEntry fs1 sourceFile targetPath with
  | .ok fs2 => .ok (mirrorMtimeAndMode fs2 targetPath sourceInfo)
  | .panic fs2 e => .panic (mirrorMtimeAndMode fs2 targetPath sourceInfo) e
  | .fuelOut => .fuelOut

/-- The function `processEntry`; `fuel` bounds the depth of the recursion. -/
def processEntry : Nat → FS → Str → Str → Outcome FS
  | 0, _, _, _ => .fuelOut
  | fuel + 1, fs, sourcePath, targetPath =>
    match osOpen fs sourcePath with
    | none => .panic fs .cannotOpen
    | some sourceFile =>
      match fileStat fs sourceFile with
      | none => .panic fs .cannotStat
      | some sourceInfo =>
        if sourceInfo.isDir then
          processDirectory (processEntry fuel) fs sourcePath sourceFile sourceInfo targetPath
        else
          processFile fs sourcePath sourceFile sourceInfo targetPath

/-- State of the process: the filesystem and the package variable `contextSingleton`. -/
structure World where
  fs : FS
  contextSingleton : Option tContext
deriving DecidableEq

/-- The function `SaveFile`. -/
def SaveFile (env : Env) (fuel : Nat) (w : World) (sourcePath : Str) : Outcome World :=
  match Abs w.fs sourcePath with
  | none => .panic w .cannotAbs
  | some sourcePath =>
    match computeTopLevelTargetPath env w.contextSingleton sourcePath with
    | .error e => .panic w e
    | .ok (targetPath, singleton) =>
      match processEntry fuel w.fs sourcePath targetPath with
      | .ok fs => .ok ⟨fs, singleton⟩
      | .panic fs e => .panic ⟨fs, singleton⟩ e
      | .fuelOut => .fuelOut

/-! ## Well-formed filesystems -/

/-- Two states of one filesystem under one process: the working directory, the umask, the
limits and the sealed directories are the same. -/
def SameEnv (fs fs' : FS) : Prop :=
  fs'.cwd = fs.cwd ∧ fs'.umask = fs.umask ∧ fs'.nameMax = fs.nameMax ∧
    fs'.pathMax = fs.pathMax ∧ fs'.sealed = fs.sealed

/-- A table is well formed when no location occurs twice, the root is a directory, and
every other entry has a valid name and lies in a directory. -/
def FS.wf (fs : FS) : Bool :=
  decide (fs.entries.map Prod.fst).Nodup && fs.isDirAt [] &&
    fs.entries.all (fun ke =>
      match ke.1 with
      | [] => true
      | n :: d => validName n && fs.isDirAt d)

/-- The path of the entry reached from the path `p` through the names `r`, innermost
first: each name is appended after a separator, as `diveDirectory` does. -/
def childPath (p : Str) (r : List Str) : Str :=
  r.foldr (fun name acc => acc ++ pathSeparator :: name) p

/-! ## An example -/

/-- The tree of the end-to-end scenario of the specification, `/proj` with `a.txt` and
`sub/b.log`, next to an empty directory `/empty` and a file `/old.txt` that belongs to
another user. -/
def exFs : FS :=
  { entries :=
      [([], ⟨true, [], 1, 0o755, false⟩),
       (["proj".toList], ⟨true, [], 10, 0o750, true⟩),
       (["a.txt".toList, "proj".toList], ⟨false, [104, 101, 108, 108, 111], 5, 0o644, true⟩),
       (["sub".toList, "proj".toList], ⟨true, [], 7, 0o700, true⟩),
       (["b.log".toList, "sub".toList, "proj".toList],
         ⟨false, [119, 111, 114, 108, 100], 3, 0o600, true⟩),
       (["empty".toList], ⟨true, [], 8, 0o711, true⟩),
       (["old.txt".toList], ⟨false, [111, 108, 100], 2, 0o666, false⟩)]
    clock := 100
    umask := 0o022
    cwd := some []
    nameMax := 255
    pathMax := 4095
    sealed := [] }

/-- A moment and a user for the example. -/
def exEnv : Env := ⟨⟨2024, 3, 7, 9, 5, 0⟩, some ⟨"Jo Doe".toList, "jo".toList⟩⟩

/-- The same moment for a user whose display name holds a path separator. -/
def exEnvSlash : Env := ⟨⟨2024, 3, 7, 9, 5, 0⟩, some ⟨"Ops/Backup".toList, "ops".toList⟩⟩

/-- The example tree after `/proj` has been copied to the absent target `/backup`. -/
def exBackup : FS := (processEntry 3 exFs "/proj".toList "/backup".toList).get exFs

/-- The example tree after the empty directory `/empty` has been copied to the existing
directory `/proj`. -/
def exMerged : FS := (processEntry 1 exFs "/empty".toList "/proj".toList).get exFs

/-- The example tree with a directory that bears the name of the backup of `/empty` made at
the moment of `exEnv` by its user, and holds a file `stale.txt`. -/
def exStale : FS :=
  { exFs with entries := exFs.entries ++
      [(["empty.bak_20240307090500_Jo Doe".toList], ⟨true, [], 9, 0o711, true⟩),
       (["stale.txt".toList, "empty.bak_20240307090500_Jo Doe".toList],
         ⟨false, [120], 4, 0o644, true⟩)] }

/-- The state `exStale` after `SaveFile` has been called on `/empty` in `exEnv`. -/
def exStaleSaved : World := (SaveFile exEnv 1 ⟨exStale, none⟩ "/empty".toList).get ⟨exStale, none⟩

/-- A filesystem that holds the directory `/empty` only, on a system that accepts paths of
at most 29 characters. -/
def exRoot : FS :=
  { exFs with
    entries := [([], ⟨true, [], 1, 0o755, false⟩), (["empty".toList], ⟨true, [], 8, 0o711, true⟩)]
    pathMax := 29 }

/-- The state `exRoot` after `SaveFile` has been called on the root directory in `exEnv`. -/
def exRootSaved : World := (SaveFile exEnv 2 ⟨exRoot, none⟩ "/".toList).get ⟨exRoot, none⟩

/-- The example tree with a root directory that takes no new entry. -/
def exSealed : FS := { exFs with sealed := [[]] }

/-- The example tree on a system that accepts paths of at most ten characters. -/
def exNested : FS := { exFs with pathMax := 10 }

/-- The state `exNested` after `/empty` has been copied to `/empty/x`, a target inside the
source. -/
def exNestedAfter : FS :=
  (processEntry 3 exNested "/empty".toList "/empty/x".toList).get exNested

/-- A tree in which the directory `/t/s` holds a directory `s`. -/
def exInside : FS :=
  { exFs with entries :=
      [([], ⟨true, [], 1, 0o755, false⟩),
       (["t".toList], ⟨true, [], 20, 0o755, true⟩),
       (["s".toList, "t".toList], ⟨true, [], 21, 0o700, true⟩),
       (["s".toList, "s".toList, "t".toList], ⟨true, [], 22, 0o711, true⟩)] }

/-- The state `exInside` after `/t/s` has been copied to `/t`, a target above the source. -/
def exInsideAfter : FS := (processEntry 2 exInside "/t/s".toList "/t".toList).get exInside

/-- A tree with two directories `/a` and `/bb` that hold a directory `longname` each, on a
system that accepts paths of at most eleven characters. -/
def exLong : FS :=
  { exFs with
    entries :=
      [([], ⟨true, [], 1, 0o755, false⟩),
       (["a".toList], ⟨true, [], 20, 0o755, true⟩),
       (["longname".toList, "a".toList], ⟨true, [], 21, 0o700, true⟩),
       (["bb".toList], ⟨true, [], 30, 0o755, true⟩),
       (["longname".toList, "bb".toList], ⟨true, [], 31, 0o755, true⟩)]
    pathMax := 11 }

/-- The state `exLong` after `/a` has been copied to `/bb`. -/
def exLongAfter : FS := (processEntry 2 exLong "/a".toList "/bb".toList).get exLong

/-- The example tree after `/proj/a.txt` has been copied over `/old.txt`, a file of another
user. -/
def exOverwritten : FS := (processEntry 1 exFs "/proj/a.txt".toList "/old.txt".toList).get exFs

/-! ## What the copy keeps -/

/-- Whether the system accepts the path `p` followed by the names `r`, innermost first, and
every path on the way to it: no name longer than `nameMax`, no path longer than
`pathMax`. -/
def fits (fs : FS) (p : Str) : List Str → Bool
  | [] => true
  | c :: r => fits fs p r && decide (c.length ≤ fs.nameMax) &&
      decide ((childPath p (c :: r)).length ≤ fs.pathMax)

/-- Every entry of the first state is an entry of the second, of the same kind and with the
same rights of the user over its attributes. -/
def KeptEntries (fs fs' : FS) : Prop :=
  ∀ k e, fs.lookup k = some e →
    ∃ e', fs'.lookup k = some e' ∧ e'.isDir = e.isDir ∧ e'.owned = e.owned

/-- What a system call that writes at the location `t` does to the filesystem: it stays
well formed, no entry is lost, and only the entry at `t` and its parent change. -/
structure Touches (fs fs' : FS) (t : Key) : Prop where
  wf : fs'.wf = true
  env : SameEnv fs fs'
  kept : KeptEntries fs fs'
  frame : ∀ k, k ≠ t → k ≠ t.tail → fs'.lookup k = fs.lookup k

/-- What a run that writes for the target location `t` does to the filesystem, however it
ends: the filesystem stays well formed, no entry is lost, and only locations under `t` and
the parent of `t` change. -/
structure WritesUnder (fs fs' : FS) (t : Key) : Prop where
  wf : fs'.wf = true
  env : SameEnv fs fs'
  kept : KeptEntries fs fs'
  frame : ∀ k, ¬ t <:+ k → k ≠ t.tail → fs'.lookup k = fs.lookup k

/-- What a finished copy from the location `s` to the location `t`, designated by the path
`tgt`, has done to the filesystem: it is well formed, no entry is lost, only locations
under `t` and the parent of `t` have changed, and an entry under `t` that stands where the
source has an entry, within the limits of length, and whose attributes the user may change,
has the modification time and the mode of that source entry. -/
structure CopyInv (fs fs' : FS) (tgt : Str) (s t : Key) : Prop where
  wf : fs'.wf = true
  env : SameEnv fs fs'
  kept : KeptEntries fs fs'
  frame : ∀ k, ¬ t <:+ k → k ≠ t.tail → fs'.lookup k = fs.lookup k
  mirrored : ∀ (r : List Str) (e e' : Entry), fs.lookup (r ++ s) = some e →
    fits fs tgt r = true → fs'.lookup (r ++ t) = some e' → e'.owned = true →
    e'.mtime = e.mtime ∧ e'.mode = e.mode

/-- State of the loop of `diveDirectory` after the children `done` of the directory `s`
have been processed with targets under the location `t`, starting from the state `fs1`. -/
structure DiveInv (fs1 fsi : FS) (tgt : Str) (s t : Key) (done : List Str) : Prop where
  wf : fsi.wf = true
  env : SameEnv fs1 fsi
  kept : KeptEntries fs1 fsi
  outside : ∀ k, ¬ t <:+ k → fsi.lookup k = fs1.lookup k
  mirrored : ∀ c ∈ done, ∀ (r : List Str) (e e' : Entry), fs1.lookup (r ++ c :: s) = some e →
    fits fs1 tgt (r ++ [c]) = true → fsi.lookup (r ++ c :: t) = some e' → e'.owned = true →
    e'.mtime = e.mtime ∧ e'.mode = e.mode

/-! # Theorems -/

/-! ## The split of the base name -/

theorem lastDotPosn_concat (l : Str) (c : Char) :
    lastDotPosn (l ++ [c]) = if c = '.' then (l.length : Int) else lastDotPosn l := by
  unfold lastDotPosn
  rw [List.enum_append, List.foldl_append]
  simp [List.enumFrom]

theorem specLastDot_concat (l : Str) (c : Char) :
    specLastDot (l ++ [c]) = if c = '.' then some l.length else specLastDot l := by
  unfold specLastDot
  have hcongr : (List.range l.length).filter (fun i => (l ++ [c])[i]? = some '.') =
      (List.range l.length).filter (fun i => l[i]? = some '.') := by
    apply List.filter_congr
    intro i hi
    rw [List.mem_range] at hi
    rw [List.getElem?_append_left hi]
  rw [List.length_append, List.length_singleton, List.range_succ, List.filter_append, hcongr]
  by_cases hc : c = '.'
  · subst hc
    simp
  · simp [hc]

theorem lastDotPosn_eq_spec (l : Str) :
    lastDotPosn l = match specLastDot l with
      | some i => (i : Int)
      | none => -1 := by
  induction l using List.reverseRecOn with
  | nil => rfl
  | append_singleton l c ih =>
    rw [lastDotPosn_concat, specLastDot_concat]
    by_cases hc : c = '.'
    · simp [hc]
    · simp only [hc, if_false]
      exact ih

/-- The position found by the loop: either there is no `'.'` and it is `-1`, or it is the
position of a `'.'` after which no other follows. -/
theorem lastDotPosn_spec (l : Str) :
    (lastDotPosn l = -1 ∧ '.' ∉ l) ∨
    ∃ i : Nat, lastDotPosn l = (i : Int) ∧ i < l.length ∧ l[i]? = some '.' ∧
      '.' ∉ l.drop (i + 1) := by
  induction l using List.reverseRecOn with
  | nil => left; exact ⟨rfl, by simp⟩
  | append_singleton l c ih =>
    rw [lastDotPosn_concat]
    by_cases hc : c = '.'
    · right
      refine ⟨l.length, by simp [hc], by simp, ?_, ?_⟩
      · rw [List.getElem?_append_right (le_refl _)]; simp [hc]
      · simp
    · simp only [hc, if_false]
      rcases ih with ⟨h1, h2⟩ | ⟨i, h1, h2, h3, h4⟩
      · left
        refine ⟨h1, ?_⟩
        simp only [List.mem_append, List.mem_singleton, not_or]
        exact ⟨h2, fun h => hc h.symm⟩
      · right
        refine ⟨i, h1, by simp; omega, ?_, ?_⟩
        · rw [List.getElem?_append_left h2]; exact h3
        · rw [List.drop_append_of_le_length (by omega)]
          simp only [List.mem_append, List.mem_singleton, not_or]
          exact ⟨h4, fun h => hc h.symm⟩

theorem splitStemExt_eq_specSplit (b : Str) : splitStemExt b = specSplit b := by
  unfold splitStemExt specSplit
  have h := lastDotPosn_eq_spec b
  cases hs : specLastDot b with
  | none =>
    rw [hs] at h
    simp [h]
  | some i =>
    rw [hs] at h
    simp only [h]
    by_cases hi : 0 < i
    · simp [hi]
    · simp [hi]

theorem not_mem_drop_iff (b : Str) (k : Nat) :
    '.' ∉ b.drop k ↔ ∀ j : Nat, k ≤ j → b[j]? ≠ some '.' := by
  constructor
  · intro h j hj hb
    apply h
    have : (b.drop k)[j - k]? = some '.' := by
      rw [List.getElem?_drop]
      rw [show k + (j - k) = j by omega]
      exact hb
    exact List.getElem?_mem this
  · intro h hm
    obtain ⟨n, hn⟩ := List.getElem?_of_mem hm
    rw [List.getElem?_drop] at hn
    exact h (k + n) (by omega) hn

/-- The three cases of the split. -/
theorem splitStemExt_cases (b : Str) :
    (splitStemExt b = (b, []) ∧ ∀ j : Nat, 0 < j → b[j]? ≠ some '.') ∨
    ∃ i : Nat, 0 < i ∧ i < b.length ∧ splitStemExt b = (b.take i, b.drop i) ∧
      b[i]? = some '.' ∧ '.' ∉ b.drop (i + 1) := by
  unfold splitStemExt
  rcases lastDotPosn_spec b with ⟨h1, h2⟩ | ⟨i, h1, h2, h3, h4⟩
  · left
    refine ⟨by simp [h1], ?_⟩
    intro j _ hb
    exact h2 (List.getElem?_mem hb)
  · by_cases hi : 0 < i
    · right
      refine ⟨i, hi, h2, ?_, h3, h4⟩
      have : (i : Int) > 0 := by exact_mod_cast hi
      simp [h1, this]
    · left
      have hi0 : i = 0 := by omega
      subst hi0
      refine ⟨by simp [h1], ?_⟩
      intro j hj
      exact (not_mem_drop_iff b 1).1 h4 j hj



/-- C2: the stem and the extension computed from a base name give the base name back when
concatenated; the extension is empty exactly when no `'.'` stands at a position greater than
zero; otherwise it starts with `'.'` and holds no other `'.'`.  The four base names of the
specification split as stated there. -/
theorem C2_split (b : Str) :
    ((splitStemExt b).1 ++ (splitStemExt b).2 = b ∧
      ((splitStemExt b).2 = [] ↔ ∀ j : Nat, 0 < j → b[j]? ≠ some '.') ∧
      ((splitStemExt b).2 ≠ [] →
        (splitStemExt b).2.head? = some '.' ∧ '.' ∉ (splitStemExt b).2.tail)) ∧
    splitStemExt "report.txt".toList = ("report".toList, ".txt".toList) ∧
    splitStemExt ".gitignore".toList = (".gitignore".toList, []) ∧
    splitStemExt "archive.tar.gz".toList = ("archive.tar".toList, ".gz".toList) ∧
    splitStemExt "noext".toList = ("noext".toList, []) := by
  refine ⟨?_, by decide, by decide, by decide, by decide⟩
  rcases splitStemExt_cases b with ⟨h1, h2⟩ | ⟨i, hi, hlen, h1, h2, h3⟩
  · rw [h1]
    exact ⟨by simp, by simpa using h2, by simp⟩
  · rw [h1]
    refine ⟨by simp, ?_, ?_⟩
    · constructor
      · intro h
        simp only [List.drop_eq_nil_iff] at h
        omega
      · intro h
        exact absurd h2 (h i hi)
    · intro _
      refine ⟨by rw [List.head?_drop]; exact h2, by rw [List.tail_drop]; exact h3⟩

/-- C1: with a naming context holding the timestamp `ts` and the user name `u`, the target
computed for the source path `p` is `Dir p`, the separator, the stem, `.bak_`, `ts`, `_`,
`u` and the extension, where stem and extension split `Base p` at its last `'.'` when that
one stands at a position greater than zero, and are `Base p` and the empty string otherwise;
the context is left as it is. -/
theorem C1_target_path (env : Env) (c : tContext) (p : Str) :
    computeTopLevelTargetPath env (some c) p =
      .ok (Dir p ++ [pathSeparator] ++ (specSplit (Base p)).1 ++ ".bak_".toList ++ c.sNow ++
        "_".toList ++ c.sMe ++ (specSplit (Base p)).2, some c) := by
  rw [← splitStemExt_eq_specSplit]
  rfl

/-! ## The timestamp -/

theorem digitChar_toNat (d : Nat) (h : d < 10) : (digitChar d).toNat = 48 + d := by
  interval_cases d <;> rfl

theorem digitChar_isDigit (d : Nat) (h : d < 10) : (digitChar d).isDigit = true := by
  interval_cases d <;> rfl

theorem decDigitsFuel_isDigit (f n : Nat) : ∀ c ∈ decDigitsFuel f n, c.isDigit = true := by
  induction f generalizing n with
  | zero => intro c hc; simp [decDigitsFuel] at hc
  | succ f ih =>
    intro c hc
    unfold decDigitsFuel at hc
    split at hc
    · rename_i h
      simp only [List.mem_singleton] at hc
      subst hc
      exact digitChar_isDigit n h
    · simp only [List.mem_append, List.mem_singleton] at hc
      rcases hc with hc | hc
      · exact ih _ c hc
      · subst hc
        exact digitChar_isDigit _ (Nat.mod_lt _ (by norm_num))

theorem decDigitsFuel_length (f n k : Nat) (hf : n < f) (hk : n < 10 ^ (k + 1)) :
    (decDigitsFuel f n).length ≤ k + 1 := by
  induction f generalizing n k with
  | zero => omega
  | succ f ih =>
    unfold decDigitsFuel
    split
    · simp
    · rename_i h
      cases k with
      | zero => simp at hk; omega
      | succ k =>
        have h1 : n / 10 < f := by omega
        have h2 : n / 10 < 10 ^ (k + 1) := by
          rw [Nat.div_lt_iff_lt_mul (by norm_num)]
          rw [pow_succ] at hk
          exact hk
        have := ih (n / 10) k h1 h2
        simp only [List.length_append, List.length_singleton]
        omega

theorem readNat_decDigitsFuel (f n : Nat) (hf : n < f) : readNat (decDigitsFuel f n) = n := by
  induction f generalizing n with
  | zero => omega
  | succ f ih =>
    unfold decDigitsFuel
    split
    · rename_i h
      simp [readNat, digitChar_toNat n h]
    · have h1 : n / 10 < f := by omega
      have := ih (n / 10) h1
      unfold readNat at this ⊢
      rw [List.foldl_append, this]
      simp only [List.foldl_cons, List.foldl_nil]
      rw [digitChar_toNat _ (Nat.mod_lt _ (by norm_num))]
      omega

theorem readNat_zeros_append (k : Nat) (s : Str) :
    readNat (List.replicate k '0' ++ s) = readNat s := by
  unfold readNat
  rw [List.foldl_append]
  congr 1
  induction k with
  | zero => rfl
  | succ k ih =>
    rw [List.replicate_succ, List.foldl_cons]
    simpa using ih

/-- A number from `0` to `10 ^ (k + 1) - 1`, printed with `%0<k+1>d`, is `k + 1` decimal
digits that read back as the number. -/
theorem fmtZeroPad_spec (k : Nat) (n : Int) (h0 : 0 ≤ n) (h1 : n < 10 ^ (k + 1)) :
    (fmtZeroPad (k + 1) n).length = k + 1 ∧ (∀ c ∈ fmtZeroPad (k + 1) n, c.isDigit = true) ∧
      (readNat (fmtZeroPad (k + 1) n) : Int) = n := by
  obtain ⟨m, rfl⟩ := Int.eq_ofNat_of_zero_le h0
  have hm : m < 10 ^ (k + 1) := by exact_mod_cast h1
  have hlen := decDigitsFuel_length (m + 1) m k (by omega) hm
  have hfmt : fmtZeroPad (k + 1) (m : Int) =
      List.replicate (k + 1 - (decDigits m).length) '0' ++ decDigits m := by
    unfold fmtZeroPad
    simp
  rw [hfmt]
  unfold decDigits
  refine ⟨?_, ?_, ?_⟩
  · simp only [List.length_append, List.length_replicate]
    omega
  · intro c hc
    simp only [List.mem_append, List.mem_replicate] at hc
    rcases hc with ⟨_, rfl⟩ | hc
    · rfl
    · exact decDigitsFuel_isDigit _ _ c hc
  · rw [readNat_zeros_append, readNat_decDigitsFuel _ _ (by omega)]

/-- The format of the timestamp: for a year from 0 to 9999, a month from 1 to 12, a day from
1 to 31, an hour from 0 to 23, a minute and a second from 0 to 59, the formatted time has
14 characters, all decimal digits, and each field is read back from its position. -/
theorem formatNow_spec (t : Time)
    (hy : 0 ≤ t.year ∧ t.year ≤ 9999) (hmo : 1 ≤ t.month ∧ t.month ≤ 12)
    (hd : 1 ≤ t.day ∧ t.day ≤ 31) (hh : 0 ≤ t.hour ∧ t.hour ≤ 23)
    (hmi : 0 ≤ t.minute ∧ t.minute ≤ 59) (hs : 0 ≤ t.second ∧ t.second ≤ 59) :
    (formatNow t).length = 14 ∧ (∀ c ∈ formatNow t, c.isDigit = true) ∧
    formatNow t = fmtZeroPad 4 t.year ++ fmtZeroPad 2 t.month ++ fmtZeroPad 2 t.day ++
      fmtZeroPad 2 t.hour ++ fmtZeroPad 2 t.minute ++ fmtZeroPad 2 t.second ∧
    (readNat ((formatNow t).take 4) : Int) = t.year ∧
    (readNat (((formatNow t).drop 4).take 2) : Int) = t.month ∧
    (readNat (((formatNow t).drop 6).take 2) : Int) = t.day ∧
    (readNat (((formatNow t).drop 8).take 2) : Int) = t.hour ∧
    (readNat (((formatNow t).drop 10).take 2) : Int) = t.minute ∧
    (readNat (((formatNow t).drop 12).take 2) : Int) = t.second := by
  obtain ⟨y1, y2, y3⟩ := fmtZeroPad_spec 3 t.year hy.1 (by norm_num; omega)
  obtain ⟨a1, a2, a3⟩ := fmtZeroPad_spec 1 t.month (by omega) (by norm_num; omega)
  obtain ⟨b1, b2, b3⟩ := fmtZeroPad_spec 1 t.day (by omega) (by norm_num; omega)
  obtain ⟨c1, c2, c3⟩ := fmtZeroPad_spec 1 t.hour hh.1 (by norm_num; omega)
  obtain ⟨d1, d2, d3⟩ := fmtZeroPad_spec 1 t.minute hmi.1 (by norm_num; omega)
  obtain ⟨e1, e2, e3⟩ := fmtZeroPad_spec 1 t.second hs.1 (by norm_num; omega)
  simp only [Nat.reduceAdd] at y1 y2 y3 a1 a2 a3 b1 b2 b3 c1 c2 c3 d1 d2 d3 e1 e2 e3
  have hform : formatNow t = fmtZeroPad 4 t.year ++ (fmtZeroPad 2 t.month ++
      (fmtZeroPad 2 t.day ++ (fmtZeroPad 2 t.hour ++ (fmtZeroPad 2 t.minute ++
        fmtZeroPad 2 t.second)))) := by
    simp [formatNow, List.append_assoc]
  refine ⟨?_, ?_, rfl, ?_, ?_, ?_, ?_, ?_, ?_⟩
  · rw [hform]; simp only [List.length_append]; omega
  · intro c hc
    rw [hform] at hc
    simp only [List.mem_append] at hc
    rcases hc with h | h | h | h | h | h
    · exact y2 c h
    · exact a2 c h
    · exact b2 c h
    · exact c2 c h
    · exact d2 c h
    · exact e2 c h
  · rw [hform, List.take_left' y1]; exact y3
  · rw [hform, List.drop_left' y1, List.take_left' a1]; exact a3
  · rw [hform, ← List.append_assoc, List.drop_left' (by simp; omega), List.take_left' b1]
    exact b3
  · rw [hform, ← List.append_assoc, ← List.append_assoc,
      List.drop_left' (by simp; omega), List.take_left' c1]
    exact c3
  · rw [hform, ← List.append_assoc, ← List.append_assoc, ← List.append_assoc,
      List.drop_left' (by simp; omega), List.take_left' d1]
    exact d3
  · rw [hform, ← List.append_assoc, ← List.append_assoc, ← List.append_assoc,
      ← List.append_assoc, List.drop_left' (by simp; omega)]
    rw [List.take_of_length_le (by omega)]
    exact e3

/-- C10: when the user lookup succeeds and the wall clock shows a year from 0 to 9999, a
month from 1 to 12, a day from 1 to 31, an hour from 0 to 23, a minute and a second from 0
to 59, the first call of `getContextSingleton` returns and stores a context whose timestamp
has exactly 14 characters, all decimal digits, is the concatenation of the zero-padded
year (4), month, day, hour, minute and second (2 each) of that clock, and gives back each of
them from the positions 0-3, 4-5, 6-7, 8-9, 10-11 and 12-13. -/
theorem C10_timestamp_format (env : Env) (me : User) (hme : env.currentUser = some me)
    (hy : 0 ≤ env.now.year ∧ env.now.year ≤ 9999)
    (hmo : 1 ≤ env.now.month ∧ env.now.month ≤ 12)
    (hd : 1 ≤ env.now.day ∧ env.now.day ≤ 31)
    (hh : 0 ≤ env.now.hour ∧ env.now.hour ≤ 23)
    (hmi : 0 ≤ env.now.minute ∧ env.now.minute ≤ 59)
    (hs : 0 ≤ env.now.second ∧ env.now.second ≤ 59) :
    ∃ c : tContext, getContextSingleton env none = .ok (c, some c) ∧
      c.sNow.length = 14 ∧ (∀ ch ∈ c.sNow, ch.isDigit = true) ∧
      c.sNow = fmtZeroPad 4 env.now.year ++ fmtZeroPad 2 env.now.month ++
        fmtZeroPad 2 env.now.day ++ fmtZeroPad 2 env.now.hour ++
        fmtZeroPad 2 env.now.minute ++ fmtZeroPad 2 env.now.second ∧
      (readNat (c.sNow.take 4) : Int) = env.now.year ∧
      (readNat ((c.sNow.drop 4).take 2) : Int) = env.now.month ∧
      (readNat ((c.sNow.drop 6).take 2) : Int) = env.now.day ∧
      (readNat ((c.sNow.drop 8).take 2) : Int) = env.now.hour ∧
      (readNat ((c.sNow.drop 10).take 2) : Int) = env.now.minute ∧
      (readNat ((c.sNow.drop 12).take 2) : Int) = env.now.second := by
  refine ⟨⟨formatNow env.now, if me.Name.length = 0 then me.Username else me.Name⟩, ?_,
    formatNow_spec env.now hy hmo hd hh hmi hs⟩
  simp only [getContextSingleton, hme]

/-- Witness of C10 at 7 March 2024, 09:05:00, for the user `Jo Doe`. -/
theorem C10_timestamp_format_witness :
    getContextSingleton exEnv none =
      .ok (⟨"20240307090500".toList, "Jo Doe".toList⟩,
        some ⟨"20240307090500".toList, "Jo Doe".toList⟩) ∧
    ∃ c : tContext, getContextSingleton exEnv none = .ok (c, some c) ∧
      c.sNow.length = 14 ∧ (readNat (c.sNow.take 4) : Int) = 2024 ∧
      (readNat ((c.sNow.drop 4).take 2) : Int) = 3 :=
  have h := C10_timestamp_format exEnv ⟨"Jo Doe".toList, "jo".toList⟩ rfl (by decide)
    (by decide) (by decide) (by decide) (by decide) (by decide)
  ⟨rfl, h.elim fun c hc => ⟨c, hc.1, hc.2.1, hc.2.2.2.2.1, hc.2.2.2.2.2.1⟩⟩

/-! ## The naming context -/

theorem getContextSingleton_ok (env : Env) (st st1 : Option tContext) (c : tContext)
    (h : getContextSingleton env st = .ok (c, st1)) : st1 = some c := by
  unfold getContextSingleton at h
  cases st with
  | some c0 =>
    simp only [Except.ok.injEq, Prod.mk.injEq] at h
    rw [← h.2, h.1]
  | none =>
    simp only at h
    cases hu : env.currentUser with
    | none => rw [hu] at h; simp at h
    | some me =>
      rw [hu] at h
      simp only [Except.ok.injEq, Prod.mk.injEq] at h
      rw [← h.2, h.1]

theorem computeTopLevelTargetPath_some (env : Env) (c : tContext) (p : Str) :
    computeTopLevelTargetPath env (some c) p =
      .ok (Dir p ++ [pathSeparator] ++ (splitStemExt (Base p)).1 ++ ".bak_".toList ++ c.sNow ++
        "_".toList ++ c.sMe ++ (splitStemExt (Base p)).2, some c) := rfl

theorem computeTopLevelTargetPath_ok (env : Env) (st st1 : Option tContext) (p t : Str)
    (h : computeTopLevelTargetPath env st p = .ok (t, st1)) :
    ∃ c, getContextSingleton env st = .ok (c, st1) ∧
      t = Dir p ++ [pathSeparator] ++ (splitStemExt (Base p)).1 ++ ".bak_".toList ++ c.sNow ++
        "_".toList ++ c.sMe ++ (splitStemExt (Base p)).2 := by
  unfold computeTopLevelTargetPath at h
  simp only at h
  cases hg : getContextSingleton env st with
  | error e => rw [hg] at h; simp at h
  | ok r =>
    obtain ⟨c, s⟩ := r
    rw [hg] at h
    simp only [Except.ok.injEq, Prod.mk.injEq] at h
    exact ⟨c, by rw [h.2], h.1.symm⟩

/-- C4: once `getContextSingleton` has returned a context, every later call returns the same
timestamp and user name and leaves the singleton as it is, whatever the clock and the user
lookup give at that call; every target path derived later carries that timestamp and that
user name; and deriving the target of a source path a second time gives the same path. -/
theorem C4_singleton_stable (env1 env2 : Env) (st st1 : Option tContext) (c : tContext)
    (h : getContextSingleton env1 st = .ok (c, st1)) :
    getContextSingleton env2 st1 = .ok (c, st1) ∧
    (∀ p : Str, computeTopLevelTargetPath env2 st1 p =
      .ok (Dir p ++ [pathSeparator] ++ (splitStemExt (Base p)).1 ++ ".bak_".toList ++ c.sNow ++
        "_".toList ++ c.sMe ++ (splitStemExt (Base p)).2, st1)) ∧
    (∀ (p t : Str) (st2 : Option tContext),
      computeTopLevelTargetPath env1 st p = .ok (t, st2) →
        computeTopLevelTargetPath env2 st2 p = .ok (t, st2)) := by
  have hst := getContextSingleton_ok env1 st st1 c h
  subst hst
  refine ⟨rfl, fun p => computeTopLevelTargetPath_some env2 c p, ?_⟩
  intro p t st2 hc
  obtain ⟨c', hg, ht⟩ := computeTopLevelTargetPath_ok env1 st st2 p t hc
  have hst2 := getContextSingleton_ok env1 st st2 c' hg
  subst hst2
  rw [computeTopLevelTargetPath_some, ht]

/-- Witness of C4: the context is created at 09:05:00 for the user `Jo`; a call made one
second later, when the user lookup fails, returns the same context. -/
theorem C4_singleton_stable_witness :
    getContextSingleton ⟨⟨2024, 3, 7, 9, 5, 1⟩, none⟩
        (some ⟨"20240307090500".toList, "Jo".toList⟩) =
      .ok (⟨"20240307090500".toList, "Jo".toList⟩,
        some ⟨"20240307090500".toList, "Jo".toList⟩) :=
  (C4_singleton_stable ⟨⟨2024, 3, 7, 9, 5, 0⟩, some ⟨"Jo".toList, "jo".toList⟩⟩
    ⟨⟨2024, 3, 7, 9, 5, 1⟩, none⟩ none (some ⟨"20240307090500".toList, "Jo".toList⟩)
    ⟨"20240307090500".toList, "Jo".toList⟩ rfl).1

/-! ## Lexical path functions -/

theorem splitSep_ne_nil (s : Str) : splitSep s ≠ [] := by
  cases s with
  | nil => simp [splitSep]
  | cons c cs =>
    unfold splitSep
    split
    · simp
    · split <;> simp

theorem splitSep_append_sep (a b : Str) :
    splitSep (a ++ pathSeparator :: b) = splitSep a ++ splitSep b := by
  induction a with
  | nil => simp [splitSep]
  | cons c a ih =>
    by_cases hc : c = pathSeparator
    · simp [splitSep, hc, ih]
    · have h1 : splitSep (c :: (a ++ pathSeparator :: b)) =
          match splitSep (a ++ pathSeparator :: b) with
          | [] => [[c]]
          | x :: xs => (c :: x) :: xs := by
        rw [splitSep]; simp [hc]
      have h2 : splitSep (c :: a) =
          match splitSep a with
          | [] => [[c]]
          | x :: xs => (c :: x) :: xs := by
        rw [splitSep]; simp [hc]
      rw [List.cons_append, h1, h2, ih]
      cases hs : splitSep a with
      | nil => exact absurd hs (splitSep_ne_nil a)
      | cons x xs => simp

theorem splitSep_of_not_mem (n : Str) (h : pathSeparator ∉ n) : splitSep n = [n] := by
  induction n with
  | nil => rfl
  | cons c n ih =>
    have hc : c ≠ pathSeparator := fun e => h (by simp [e])
    have hn : pathSeparator ∉ n := fun e => h (List.mem_cons_of_mem _ e)
    rw [splitSep]
    simp [hc, ih hn]

theorem not_mem_of_mem_splitSep (s : Str) : ∀ x ∈ splitSep s, pathSeparator ∉ x := by
  induction s with
  | nil => intro x hx; simp [splitSep] at hx; simp [hx]
  | cons c s ih =>
    intro x hx
    by_cases hc : c = pathSeparator
    · rw [splitSep] at hx
      simp only [hc, if_true, List.mem_cons] at hx
      rcases hx with rfl | hx
      · simp
      · exact ih x hx
    · rw [splitSep] at hx
      simp only [hc, if_false] at hx
      cases hs : splitSep s with
      | nil => exact absurd hs (splitSep_ne_nil s)
      | cons y ys =>
        rw [hs] at hx ih
        simp only [List.mem_cons] at hx
        rcases hx with rfl | hx
        · have := ih y (by simp)
          simp only [List.mem_cons, not_or]
          exact ⟨fun e => hc e.symm, this⟩
        · exact ih x (by simp [hx])

theorem splitSep_joinSep (comps : List Str) (hne : comps ≠ [])
    (h : ∀ x ∈ comps, pathSeparator ∉ x) : splitSep (joinSep comps) = comps := by
  induction comps with
  | nil => exact absurd rfl hne
  | cons x r ih =>
    cases r with
    | nil => simpa [joinSep] using splitSep_of_not_mem x (h x (by simp))
    | cons y r =>
      rw [joinSep, splitSep_append_sep, splitSep_of_not_mem x (h x (by simp)),
        ih (by simp) (fun z hz => h z (List.mem_cons_of_mem _ hz))]
      rfl

theorem validName_iff (n : Str) :
    validName n = true ↔ n ≠ [] ∧ pathSeparator ∉ n ∧ n ≠ ['.'] ∧ n ≠ ['.', '.'] := by
  unfold validName
  simp only [Bool.and_eq_true, decide_eq_true_eq]
  tauto

theorem cleanStep_validName (r : Bool) (out : List Str) (el : Str) (h : validName el = true) :
    cleanStep r out el = el :: out := by
  rw [validName_iff] at h
  unfold cleanStep
  simp [h.1, h.2.2.1, h.2.2.2]

theorem normOut_cleanStep (r : Bool) (out : List Str) (el : Str) (hel : pathSeparator ∉ el)
    (h : NormOut r out) : NormOut r (cleanStep r out el) := by
  obtain ⟨names, k, rfl, hn, hk⟩ := h
  by_cases h1 : el = [] ∨ el = ['.']
  · unfold cleanStep
    simp only [h1, if_true]
    exact ⟨names, k, rfl, hn, hk⟩
  · by_cases h2 : el = ['.', '.']
    · subst h2
      unfold cleanStep
      simp only [h1, if_false, if_true]
      cases names with
      | nil =>
        cases k with
        | zero =>
          simp only [List.replicate_zero, List.append_nil]
          cases r with
          | true => exact ⟨[], 0, rfl, by simp, fun _ => rfl⟩
          | false => exact ⟨[], 1, rfl, by simp, by simp⟩
        | succ k =>
          simp only [List.nil_append, List.replicate_succ, if_true]
          refine ⟨[], k + 2, by simp [List.replicate_succ], by simp, ?_⟩
          intro hr
          have := hk hr
          omega
      | cons top rest =>
        have htop := hn top (by simp)
        rw [validName_iff] at htop
        simp only [List.cons_append, htop.2.2.2, if_false]
        exact ⟨rest, k, rfl, fun x hx => hn x (List.mem_cons_of_mem _ hx), hk⟩
    · have hv : validName el = true := by
        rw [validName_iff]
        push_neg at h1
        exact ⟨h1.1, hel, h1.2, h2⟩
      rw [cleanStep_validName r _ el hv]
      refine ⟨el :: names, k, rfl, ?_, hk⟩
      intro x hx
      rcases List.mem_cons.1 hx with rfl | hx
      · exact hv
      · exact hn x hx

theorem normOut_foldl (r : Bool) (els : List Str) (out : List Str)
    (hels : ∀ x ∈ els, pathSeparator ∉ x) (h : NormOut r out) :
    NormOut r (els.foldl (cleanStep r) out) := by
  induction els generalizing out with
  | nil => exact h
  | cons el els ih =>
    rw [List.foldl_cons]
    exact ih _ (fun x hx => hels x (List.mem_cons_of_mem _ hx))
      (normOut_cleanStep r out el (hels el (by simp)) h)

theorem foldl_cleanStep_names (r : Bool) (names acc : List Str)
    (h : ∀ x ∈ names, validName x = true) :
    names.foldl (cleanStep r) acc = names.reverse ++ acc := by
  induction names generalizing acc with
  | nil => rfl
  | cons n names ih =>
    rw [List.foldl_cons, cleanStep_validName r acc n (h n (by simp)),
      ih _ (fun x hx => h x (List.mem_cons_of_mem _ hx))]
    simp

theorem foldl_cleanStep_dotdots (k j : Nat) :
    (List.replicate k ['.', '.']).foldl (cleanStep false) (List.replicate j ['.', '.']) =
      List.replicate (j + k) ['.', '.'] := by
  induction k generalizing j with
  | zero => rfl
  | succ k ih =>
    rw [List.replicate_succ, List.foldl_cons]
    have : cleanStep false (List.replicate j ['.', '.']) ['.', '.'] =
        List.replicate (j + 1) ['.', '.'] := by
      cases j with
      | zero => rfl
      | succ j => simp [cleanStep, List.replicate_succ]
    rw [this, ih]
    congr 1
    omega

/-- Cleaning the elements of a cleaned path writes them again. -/
theorem foldl_cleanStep_normOut (r : Bool) (out : List Str) (h : NormOut r out) :
    out.reverse.foldl (cleanStep r) [] = out := by
  obtain ⟨names, k, rfl, hn, hk⟩ := h
  rw [List.reverse_append, List.reverse_replicate, List.foldl_append]
  cases r with
  | true =>
    have := hk rfl
    subst this
    simp only [List.replicate_zero, List.foldl_nil, List.append_nil]
    rw [foldl_cleanStep_names true _ _ (fun x hx => hn x (List.mem_reverse.1 hx))]
    simp
  | false =>
    have := foldl_cleanStep_dotdots k 0
    simp only [List.replicate_zero, Nat.zero_add] at this
    rw [this, foldl_cleanStep_names false _ _ (fun x hx => hn x (List.mem_reverse.1 hx))]
    simp

theorem normOut_not_mem (r : Bool) (out : List Str) (h : NormOut r out) :
    ∀ x ∈ out, pathSeparator ∉ x ∧ x ≠ [] := by
  obtain ⟨names, k, rfl, hn, _⟩ := h
  intro x hx
  rcases List.mem_append.1 hx with hx | hx
  · have := hn x hx
    rw [validName_iff] at this
    exact ⟨this.2.1, this.1⟩
  · rw [List.mem_replicate] at hx
    rw [hx.2]
    exact ⟨by decide, by simp⟩

theorem joinSep_cons_ne_nil (x : Str) (r : List Str) (hx : x ≠ []) : joinSep (x :: r) ≠ [] := by
  cases r with
  | nil => simpa [joinSep] using hx
  | cons y r => simp [joinSep, hx]

theorem isAbs_joinSep_cons (x : Str) (r : List Str) (hx : x ≠ []) :
    IsAbs (joinSep (x :: r)) = IsAbs x := by
  cases x with
  | nil => exact absurd rfl hx
  | cons c x =>
    cases r with
    | nil => rfl
    | cons y r => rfl

theorem isAbs_of_not_mem (x : Str) (hx : pathSeparator ∉ x) : IsAbs x = false := by
  cases x with
  | nil => rfl
  | cons c x =>
    have : c ≠ pathSeparator := fun e => hx (by simp [e])
    simp [IsAbs, this]

theorem Clean_of_normOut (r : Bool) (out : List Str) (h : NormOut r out) :
    Clean (if (if r = true then [pathSeparator] else []) ++ joinSep out.reverse = [] then ['.']
        else (if r = true then [pathSeparator] else []) ++ joinSep out.reverse) =
      (if (if r = true then [pathSeparator] else []) ++ joinSep out.reverse = [] then ['.']
        else (if r = true then [pathSeparator] else []) ++ joinSep out.reverse) := by
  have hfold := foldl_cleanStep_normOut r out h
  have hmem := normOut_not_mem r out h
  cases r with
  | true =>
    simp only [if_true, List.singleton_append]
    have hne : (pathSeparator :: joinSep out.reverse) ≠ [] := by simp
    simp only [hne, if_false]
    unfold Clean
    simp only [hne, if_false]
    have habs : IsAbs (pathSeparator :: joinSep out.reverse) = true := by simp [IsAbs]
    simp only [habs, if_true, List.singleton_append]
    have hsplit : splitSep (pathSeparator :: joinSep out.reverse) =
        [] :: splitSep (joinSep out.reverse) := by
      rw [splitSep]; simp
    rw [hsplit, List.foldl_cons]
    have h0 : cleanStep true [] [] = [] := rfl
    rw [h0]
    by_cases hout : out.reverse = []
    · have : out = [] := by simpa using hout
      subst this
      rfl
    · rw [splitSep_joinSep _ hout (fun x hx => (hmem x (List.mem_reverse.1 hx)).1), hfold]
      simp
  | false =>
    simp only [Bool.false_eq_true, if_false, List.nil_append]
    cases hrev : out.reverse with
    | nil => rfl
    | cons x rest =>
      have hx := hmem x (List.mem_reverse.1 (by rw [hrev]; simp))
      have hne : joinSep (x :: rest) ≠ [] := joinSep_cons_ne_nil x rest hx.2
      simp only [hne, if_false]
      unfold Clean
      simp only [hne, if_false]
      have habs : IsAbs (joinSep (x :: rest)) = false := by
        rw [isAbs_joinSep_cons x rest hx.2]
        exact isAbs_of_not_mem x hx.1
      simp only [habs, Bool.false_eq_true, if_false, List.nil_append]
      rw [splitSep_joinSep _ (by simp) (fun y hy => (hmem y (List.mem_reverse.1
        (by rw [hrev]; exact hy))).1)]
      rw [← hrev, hfold, hrev]
      simp [hne]

theorem Clean_ne_nil (x : Str) : Clean x ≠ [] := by
  unfold Clean
  split
  · simp
  · simp only
    split
    · simp
    · split
      · simp
      · assumption

/-- Cleaning a cleaned path changes nothing. -/
theorem Clean_Clean (x : Str) : Clean (Clean x) = Clean x := by
  by_cases hx : x = []
  · subst hx; rfl
  · have hn : NormOut (IsAbs x) ((splitSep x).foldl (cleanStep (IsAbs x)) []) :=
      normOut_foldl _ _ _ (not_mem_of_mem_splitSep x) ⟨[], 0, rfl, by simp, fun _ => rfl⟩
    have := Clean_of_normOut _ _ hn
    unfold Clean at this ⊢
    simp only [hx, if_false]
    exact this

theorem isAbs_append (y z : Str) (hy : y ≠ []) : IsAbs (y ++ z) = IsAbs y := by
  cases y with
  | nil => exact absurd rfl hy
  | cons c y => rfl

/-- A trailing separator does not change the cleaned path. -/
theorem Clean_append_sep (y : Str) (hy : y ≠ []) : Clean (y ++ [pathSeparator]) = Clean y := by
  unfold Clean
  have h1 : y ++ [pathSeparator] ≠ [] := by simp
  simp only [h1, hy, if_false]
  rw [isAbs_append y _ hy, splitSep_append_sep, List.foldl_append]
  have : splitSep [] = [[]] := rfl
  rw [this, List.foldl_cons, List.foldl_nil]
  have h0 : ∀ out, cleanStep (IsAbs y) out [] = out := fun out => by simp [cleanStep]
  rw [h0]

theorem Clean_Clean_append_sep (x : Str) : Clean (Clean x ++ [pathSeparator]) = Clean x := by
  rw [Clean_append_sep _ (Clean_ne_nil x), Clean_Clean]

theorem dropWhile_append_of_all {α : Type} (p : α → Bool) (a b : List α)
    (h : ∀ x ∈ a, p x = true) : (a ++ b).dropWhile p = b.dropWhile p := by
  induction a with
  | nil => rfl
  | cons x a ih =>
    rw [List.cons_append, List.dropWhile_cons]
    simp only [h x (by simp), if_true]
    exact ih (fun y hy => h y (List.mem_cons_of_mem _ hy))

theorem takeWhile_append_of_all {α : Type} (p : α → Bool) (a : List α) (c : α) (b : List α)
    (h : ∀ x ∈ a, p x = true) (hc : p c = false) : (a ++ c :: b).takeWhile p = a := by
  induction a with
  | nil => simp [List.takeWhile_cons, hc]
  | cons x a ih =>
    rw [List.cons_append, List.takeWhile_cons]
    simp only [h x (by simp), if_true]
    rw [ih (fun y hy => h y (List.mem_cons_of_mem _ hy))]

/-- The directory of `X/R`, for a name `R` without separator, is the cleaned `X/`. -/
theorem Dir_append_name (X R : Str) (hR : pathSeparator ∉ R) :
    Dir (X ++ pathSeparator :: R) = Clean (X ++ [pathSeparator]) := by
  unfold Dir
  congr 1
  rw [List.reverse_append, List.reverse_cons, List.append_assoc,
    dropWhile_append_of_all _ _ _ (by
      intro x hx
      have : x ≠ pathSeparator := fun e => hR (by rw [← e]; exact List.mem_reverse.1 hx)
      simpa using this)]
  simp [List.dropWhile_cons]

/-- The base name of `X/R`, for a non-empty name `R` without separator, is `R`. -/
theorem Base_append_name (X R : Str) (hR : pathSeparator ∉ R) (hne : R ≠ []) :
    Base (X ++ pathSeparator :: R) = R := by
  unfold Base
  have h0 : X ++ pathSeparator :: R ≠ [] := by simp
  simp only [h0, if_false]
  have hrev : (X ++ pathSeparator :: R).reverse = R.reverse ++ pathSeparator :: X.reverse := by
    simp
  have hall : ∀ x ∈ R.reverse, x ≠ pathSeparator :=
    fun x hx e => hR (by rw [← e]; exact List.mem_reverse.1 hx)
  have hdrop : ((X ++ pathSeparator :: R).reverse.dropWhile (fun c => c = pathSeparator)) =
      (X ++ pathSeparator :: R).reverse := by
    rw [hrev]
    cases hr : R.reverse with
    | nil => exact absurd (by simpa using hr) hne
    | cons c cs =>
      have : c ≠ pathSeparator := hall c (by rw [hr]; simp)
      simp [List.dropWhile_cons, this]
  rw [hdrop, List.reverse_reverse, hrev,
    takeWhile_append_of_all _ _ _ _ (by intro x hx; simpa using hall x hx) (by simp)]
  simp [hne]

theorem Base_cases (p : Str) : Base p = [pathSeparator] ∨ pathSeparator ∉ Base p := by
  unfold Base
  split
  · right; decide
  · simp only
    split
    · left; rfl
    · right
      intro hm
      rw [List.mem_reverse] at hm
      have := List.mem_takeWhile_imp hm
      simp at this

theorem Dir_eq_Clean (p : Str) : Clean (Dir p) = Dir p := by
  unfold Dir
  exact Clean_Clean _

theorem Dir_ne_nil (p : Str) : Dir p ≠ [] := by
  unfold Dir
  exact Clean_ne_nil _

theorem fmtZeroPad_not_sep (w : Nat) (n : Int) : pathSeparator ∉ fmtZeroPad w n := by
  have hd : ∀ c ∈ decDigits n.natAbs, c ≠ pathSeparator := by
    intro c hc e
    have := decDigitsFuel_isDigit _ _ c hc
    rw [e] at this
    exact absurd this (by decide)
  intro hm
  unfold fmtZeroPad at hm
  simp only at hm
  split at hm
  · simp only [List.mem_cons, List.mem_append, List.mem_replicate] at hm
    rcases hm with h | ⟨_, h⟩ | h
    · exact absurd h (by decide)
    · exact absurd h (by decide)
    · exact hd _ h rfl
  · simp only [List.mem_append, List.mem_replicate] at hm
    rcases hm with ⟨_, h⟩ | h
    · exact absurd h (by decide)
    · exact hd _ h rfl

/-- The timestamp built by `getContextSingleton` never holds a path separator. -/
theorem formatNow_not_sep (t : Time) : pathSeparator ∉ formatNow t := by
  unfold formatNow
  simp only [List.mem_append, not_or]
  exact ⟨⟨⟨⟨⟨fmtZeroPad_not_sep _ _, fmtZeroPad_not_sep _ _⟩, fmtZeroPad_not_sep _ _⟩,
    fmtZeroPad_not_sep _ _⟩, fmtZeroPad_not_sep _ _⟩, fmtZeroPad_not_sep _ _⟩

theorem splitStemExt_append (b : Str) : (splitStemExt b).1 ++ (splitStemExt b).2 = b := by
  rcases splitStemExt_cases b with ⟨h1, _⟩ | ⟨i, _, _, h1, _, _⟩ <;> rw [h1] <;> simp

/-- When neither the timestamp nor the user name of the naming context holds a path
separator, the target computed for a source path `p` is a sibling of `p`. -/
theorem sibling_target (env : Env) (c : tContext) (p : Str)
    (hts : pathSeparator ∉ c.sNow) (hu : pathSeparator ∉ c.sMe) :
    ∃ t, computeTopLevelTargetPath env (some c) p = .ok (t, some c) ∧ Dir t = Dir p ∧
      (".bak_".toList ++ c.sNow ++ "_".toList ++ c.sMe) <:+: Base t ∧ t ≠ p := by
  refine ⟨_, computeTopLevelTargetPath_some env c p, ?_⟩
  have hmid : pathSeparator ∉ ".bak_".toList ++ c.sNow ++ "_".toList ++ c.sMe := by
    simp only [List.mem_append, not_or]
    exact ⟨⟨⟨by decide, hts⟩, by decide⟩, hu⟩
  have hmidne : ".bak_".toList ++ c.sNow ++ "_".toList ++ c.sMe ≠ [] := by
    simp
  rcases Base_cases p with hb | hb
  · have hsplit : splitStemExt (Base p) = ([pathSeparator], []) := by rw [hb]; decide
    rw [hsplit]
    have ht : Dir p ++ [pathSeparator] ++ [pathSeparator] ++ ".bak_".toList ++ c.sNow ++
        "_".toList ++ c.sMe ++ [] =
        (Dir p ++ [pathSeparator]) ++
          pathSeparator :: (".bak_".toList ++ c.sNow ++ "_".toList ++ c.sMe) := by
      simp
    simp only []
    rw [ht, Dir_append_name _ _ hmid, Base_append_name _ _ hmid hmidne]
    refine ⟨?_, List.infix_refl _, ?_⟩
    · rw [Clean_append_sep _ (by simp), Clean_append_sep _ (Dir_ne_nil p), Dir_eq_Clean]
    · intro heq
      have h1 := congrArg Base heq
      rw [Base_append_name _ _ hmid hmidne, hb] at h1
      rw [h1] at hmid
      exact hmid (by simp)
  · have happ := splitStemExt_append (Base p)
    have hstem : pathSeparator ∉ (splitStemExt (Base p)).1 := by
      intro h; apply hb; rw [← happ]; exact List.mem_append_left _ h
    have hext : pathSeparator ∉ (splitStemExt (Base p)).2 := by
      intro h; apply hb; rw [← happ]; exact List.mem_append_right _ h
    have hR : pathSeparator ∉ (splitStemExt (Base p)).1 ++
        (".bak_".toList ++ c.sNow ++ "_".toList ++ c.sMe) ++ (splitStemExt (Base p)).2 := by
      simp only [List.mem_append, not_or] at hmid ⊢
      exact ⟨⟨hstem, hmid⟩, hext⟩
    have hRne : (splitStemExt (Base p)).1 ++
        (".bak_".toList ++ c.sNow ++ "_".toList ++ c.sMe) ++ (splitStemExt (Base p)).2 ≠ [] := by
      simp
    have ht : Dir p ++ [pathSeparator] ++ (splitStemExt (Base p)).1 ++ ".bak_".toList ++
        c.sNow ++ "_".toList ++ c.sMe ++ (splitStemExt (Base p)).2 =
        Dir p ++ pathSeparator :: ((splitStemExt (Base p)).1 ++
          (".bak_".toList ++ c.sNow ++ "_".toList ++ c.sMe) ++ (splitStemExt (Base p)).2) := by
      simp
    rw [ht, Dir_append_name _ _ hR, Base_append_name _ _ hR hRne]
    refine ⟨?_, ⟨_, _, rfl⟩, ?_⟩
    · rw [Clean_append_sep _ (Dir_ne_nil p), Dir_eq_Clean]
    · intro heq
      have h1 := congrArg Base heq
      rw [Base_append_name _ _ hR hRne] at h1
      have h2 := congrArg List.length h1
      simp only [List.length_append] at h2
      have : (".bak_".toList).length = 5 := rfl
      have h3 := congrArg List.length happ
      simp only [List.length_append] at h3
      omega

/-- The lexical path functions on inputs taken from the tables of the tests of
`path/filepath`. -/
theorem filepath_examples :
    Clean "".toList = ".".toList ∧
    Clean "abc//def//ghi".toList = "abc/def/ghi".toList ∧
    Clean "/./abc/def".toList = "/abc/def".toList ∧
    Clean "abc/def/../ghi/../jkl".toList = "abc/jkl".toList ∧
    Clean "abc/def/../..".toList = ".".toList ∧
    Clean "/abc/def/../../..".toList = "/".toList ∧
    Clean "abc/def/../../../ghi/jkl/../../../mno".toList = "../../mno".toList ∧
    Clean "/../abc".toList = "/abc".toList ∧
    Clean "abc/../../././../def".toList = "../../def".toList ∧
    Base "".toList = ".".toList ∧
    Base "/.".toList = ".".toList ∧
    Base "////".toList = "/".toList ∧
    Base "x/".toList = "x".toList ∧
    Base "a/b/.x".toList = ".x".toList ∧
    Base "a/b/c.x".toList = "c.x".toList ∧
    Dir "".toList = ".".toList ∧
    Dir "/.".toList = "/".toList ∧
    Dir "/foo".toList = "/".toList ∧
    Dir "x/".toList = "x".toList ∧
    Dir "abc".toList = ".".toList ∧
    Dir "a/b/c.x".toList = "a/b".toList := by
  repeat' constructor

/-! ## The table of entries -/

theorem lookupE_setE (l : List (Key × Entry)) (k k' : Key) (e : Entry) :
    lookupE (setE l k e) k' = if k = k' then some e else lookupE l k' := by
  induction l with
  | nil => simp [setE, lookupE]
  | cons x l ih =>
    obtain ⟨k0, e0⟩ := x
    by_cases h0 : k0 = k
    · subst h0
      simp only [setE, if_true, lookupE]
      split <;> rfl
    · simp only [setE, h0, if_false, lookupE, ih]
      by_cases h1 : k0 = k'
      · have : ¬ k = k' := fun e => h0 (h1.trans e.symm)
        simp [h1, this]
      · simp [h1]

theorem mem_keys_iff (l : List (Key × Entry)) (k : Key) :
    k ∈ l.map Prod.fst ↔ (lookupE l k).isSome = true := by
  induction l with
  | nil => simp [lookupE]
  | cons x l ih =>
    obtain ⟨k0, e0⟩ := x
    by_cases h0 : k0 = k
    · simp [lookupE, h0]
    · have : ¬ k = k0 := fun e => h0 e.symm
      simp [lookupE, h0, this, ← ih]

theorem keys_setE (l : List (Key × Entry)) (k : Key) (e : Entry) :
    (setE l k e).map Prod.fst =
      if k ∈ l.map Prod.fst then l.map Prod.fst else l.map Prod.fst ++ [k] := by
  induction l with
  | nil => simp [setE]
  | cons x l ih =>
    obtain ⟨k0, e0⟩ := x
    by_cases h0 : k0 = k
    · subst h0
      simp [setE]
    · have : ¬ k = k0 := fun e => h0 e.symm
      simp only [setE, h0, if_false, List.map_cons, ih, List.mem_cons, this, false_or]
      split <;> simp

theorem nodup_keys_setE (l : List (Key × Entry)) (k : Key) (e : Entry)
    (h : (l.map Prod.fst).Nodup) : ((setE l k e).map Prod.fst).Nodup := by
  rw [keys_setE]
  split
  · exact h
  · rename_i hk
    rw [List.nodup_append]
    refine ⟨h, by simp, ?_⟩
    intro a ha hb
    simp only [List.mem_singleton] at hb
    subst hb
    exact hk ha

theorem mem_childNames (l : List (Key × Entry)) (d : Key) (n : Str) :
    n ∈ childNames l d ↔ (n :: d) ∈ l.map Prod.fst := by
  induction l with
  | nil => simp [childNames]
  | cons x l ih =>
    obtain ⟨k0, e0⟩ := x
    cases k0 with
    | nil => simp [childNames, ih]
    | cons n0 d0 =>
      by_cases hd : d0 = d
      · subst hd
        simp only [childNames, if_true, List.mem_cons, ih, List.map_cons, List.cons.injEq]
        simp
      · have : ¬ (n = n0 ∧ d = d0) := fun e => hd e.2.symm
        simp [childNames, hd, ih, this]

theorem nodup_childNames (l : List (Key × Entry)) (d : Key) (h : (l.map Prod.fst).Nodup) :
    (childNames l d).Nodup := by
  induction l with
  | nil => simp [childNames]
  | cons x l ih =>
    obtain ⟨k0, e0⟩ := x
    simp only [List.map_cons, List.nodup_cons] at h
    cases k0 with
    | nil => simpa [childNames] using ih h.2
    | cons n0 d0 =>
      by_cases hd : d0 = d
      · subst hd
        simp only [childNames, if_true, List.nodup_cons]
        refine ⟨?_, ih h.2⟩
        rw [mem_childNames]
        exact h.1
      · simpa [childNames, hd] using ih h.2

/-! ## States of the filesystem -/

@[simp] theorem lookup_set (fs : FS) (k k' : Key) (e : Entry) :
    (fs.set k e).lookup k' = if k = k' then some e else fs.lookup k' :=
  lookupE_setE _ _ _ _

@[simp] theorem lookup_tick (fs : FS) (k : Key) : fs.tick.lookup k = fs.lookup k := rfl

@[simp] theorem umask_set (fs : FS) (k : Key) (e : Entry) : (fs.set k e).umask = fs.umask := rfl

@[simp] theorem umask_tick (fs : FS) : fs.tick.umask = fs.umask := rfl

@[simp] theorem cwd_set (fs : FS) (k : Key) (e : Entry) : (fs.set k e).cwd = fs.cwd := rfl

@[simp] theorem cwd_tick (fs : FS) : fs.tick.cwd = fs.cwd := rfl

theorem isDirAt_eq (fs : FS) (k : Key) :
    fs.isDirAt k = match fs.lookup k with
      | some e => e.isDir
      | none => false := rfl

theorem isDirAt_true_iff (fs : FS) (k : Key) :
    fs.isDirAt k = true ↔ ∃ e, fs.lookup k = some e ∧ e.isDir = true := by
  rw [isDirAt_eq]
  cases fs.lookup k with
  | none => simp
  | some e => simp

/-- Well-formedness, in terms of lookups. -/
theorem wf_iff (fs : FS) :
    fs.wf = true ↔ (fs.entries.map Prod.fst).Nodup ∧ fs.isDirAt [] = true ∧
      ∀ (n : Str) (d : Key), (fs.lookup (n :: d)).isSome = true →
        validName n = true ∧ fs.isDirAt d = true := by
  unfold FS.wf
  simp only [Bool.and_eq_true, decide_eq_true_eq, List.all_eq_true]
  constructor
  · rintro ⟨⟨h1, h2⟩, h3⟩
    refine ⟨h1, h2, ?_⟩
    intro n d hs
    have hm : (n :: d) ∈ fs.entries.map Prod.fst := (mem_keys_iff _ _).2 hs
    obtain ⟨ke, hke, hk⟩ := List.mem_map.1 hm
    have := h3 ke hke
    rw [hk] at this
    simpa using this
  · rintro ⟨h1, h2, h3⟩
    refine ⟨⟨h1, h2⟩, ?_⟩
    intro ke hke
    cases hk : ke.1 with
    | nil => rfl
    | cons n d =>
      have hm : (n :: d) ∈ fs.entries.map Prod.fst := by
        rw [← hk]; exact List.mem_map_of_mem _ hke
      have := h3 n d ((mem_keys_iff _ _).1 hm)
      simp [this.1, this.2]

theorem isDirAt_set (fs : FS) (k k' : Key) (e : Entry) :
    (fs.set k e).isDirAt k' = if k = k' then e.isDir else fs.isDirAt k' := by
  rw [isDirAt_eq, lookup_set]
  by_cases h : k = k'
  · simp [h]
  · simp only [h, if_false]
    rfl

@[simp] theorem isDirAt_tick (fs : FS) (k : Key) : fs.tick.isDirAt k = fs.isDirAt k := rfl

@[simp] theorem wf_tick (fs : FS) : fs.tick.wf = fs.wf := rfl

/-- Replacing an entry by one of the same kind leaves every location's kind as it is. -/
theorem isDirAt_set_same (fs : FS) (k k' : Key) (e e0 : Entry) (h0 : fs.lookup k = some e0)
    (he : e.isDir = e0.isDir) : (fs.set k e).isDirAt k' = fs.isDirAt k' := by
  rw [isDirAt_set]
  split
  · rename_i h
    subst h
    rw [isDirAt_eq, h0, he]
  · rfl

theorem isDirAt_set_same_mono (fs : FS) (k k' : Key) (e e0 : Entry)
    (h0 : fs.lookup k = some e0) (he : e.isDir = e0.isDir) (hk : fs.isDirAt k' = true) :
    (fs.set k e).isDirAt k' = true := by
  rw [isDirAt_set_same fs k k' e e0 h0 he]; exact hk

theorem wf_set_same (fs : FS) (k : Key) (e e0 : Entry) (hwf : fs.wf = true)
    (h0 : fs.lookup k = some e0) (he : e.isDir = e0.isDir) : (fs.set k e).wf = true := by
  rw [wf_iff] at hwf ⊢
  obtain ⟨h1, h2, h3⟩ := hwf
  refine ⟨nodup_keys_setE _ _ _ h1, ?_, ?_⟩
  · rw [isDirAt_set_same fs k [] e e0 h0 he]; exact h2
  · intro n d hs
    rw [isDirAt_set_same fs k d e e0 h0 he]
    apply h3
    rw [lookup_set] at hs
    split at hs
    · rename_i h
      rw [← h, h0]; rfl
    · exact hs

theorem wf_set_new (fs : FS) (n : Str) (d : Key) (e : Entry) (hwf : fs.wf = true)
    (h0 : fs.lookup (n :: d) = none) (hd : fs.isDirAt d = true) (hn : validName n = true) :
    (fs.set (n :: d) e).wf = true := by
  rw [wf_iff] at hwf ⊢
  obtain ⟨h1, h2, h3⟩ := hwf
  have hmono : ∀ k, fs.isDirAt k = true → (fs.set (n :: d) e).isDirAt k = true := by
    intro k hk
    rw [isDirAt_set]
    split
    · rename_i h
      rw [← h, isDirAt_eq, h0] at hk
      exact absurd hk (by simp)
    · exact hk
  refine ⟨nodup_keys_setE _ _ _ h1, hmono _ h2, ?_⟩
  intro n' d' hs
  rw [lookup_set] at hs
  split at hs
  · rename_i h
    injection h with hn' hd'
    subst hn' hd'
    exact ⟨hn, hmono _ hd⟩
  · have := h3 n' d' hs
    exact ⟨this.1, hmono _ this.2⟩

theorem wf_root (fs : FS) (hwf : fs.wf = true) : fs.isDirAt [] = true :=
  ((wf_iff fs).1 hwf).2.1

theorem wf_parent (fs : FS) (hwf : fs.wf = true) (n : Str) (d : Key) (e : Entry)
    (h : fs.lookup (n :: d) = some e) : validName n = true ∧ fs.isDirAt d = true :=
  ((wf_iff fs).1 hwf).2.2 n d (by rw [h]; rfl)

theorem wf_nodup (fs : FS) (hwf : fs.wf = true) : (fs.entries.map Prod.fst).Nodup :=
  ((wf_iff fs).1 hwf).1

/-- In a well-formed table nothing lies below a location that holds no directory. -/
theorem lookup_below_none (fs : FS) (hwf : fs.wf = true) (t : Key)
    (ht : fs.isDirAt t = false) (r : List Str) (hr : r ≠ []) : fs.lookup (r ++ t) = none := by
  induction r with
  | nil => exact absurd rfl hr
  | cons x r ih =>
    cases hl : fs.lookup (x :: r ++ t) with
    | none => rfl
    | some e =>
      have hp := (wf_parent fs hwf x (r ++ t) e hl).2
      by_cases hr' : r = []
      · subst hr'
        rw [List.nil_append, ht] at hp
        exact absurd hp (by simp)
      · rw [isDirAt_eq, ih hr'] at hp
        exact absurd hp (by simp)

theorem lookup_below_none' (fs : FS) (hwf : fs.wf = true) (t : Key)
    (ht : fs.lookup t = none) (r : List Str) : fs.lookup (r ++ t) = none := by
  by_cases hr : r = []
  · subst hr; exact ht
  · exact lookup_below_none fs hwf t (by rw [isDirAt_eq, ht]) r hr

/-! ## Path resolution -/

theorem sameEnv_refl (fs : FS) : SameEnv fs fs := ⟨rfl, rfl, rfl, rfl, rfl⟩

theorem sameEnv_trans {a b c : FS} (h1 : SameEnv a b) (h2 : SameEnv b c) : SameEnv a c :=
  ⟨h2.1.trans h1.1, h2.2.1.trans h1.2.1, h2.2.2.1.trans h1.2.2.1,
    h2.2.2.2.1.trans h1.2.2.2.1, h2.2.2.2.2.trans h1.2.2.2.2⟩

theorem sameEnv_set (fs : FS) (k : Key) (e : Entry) : SameEnv fs (fs.set k e) :=
  ⟨rfl, rfl, rfl, rfl, rfl⟩

theorem sameEnv_tick (fs : FS) : SameEnv fs fs.tick := ⟨rfl, rfl, rfl, rfl, rfl⟩

theorem walk_cons (fs : FS) (cur : Key) (el : Str) (rest : List Str) :
    walk fs cur (el :: rest) =
      if fs.isDirAt cur = false then none
      else if el = [] ∨ el = ['.'] then walk fs cur rest
      else if el = ['.', '.'] then walk fs cur.tail rest
      else if fs.nameMax < el.length then none
      else walk fs (el :: cur) rest := by
  rw [walk]

theorem walk_cons_name (fs : FS) (cur : Key) (c : Str) (rest : List Str)
    (hc : validName c = true) :
    walk fs cur (c :: rest) =
      if fs.isDirAt cur = true ∧ c.length ≤ fs.nameMax then walk fs (c :: cur) rest
      else none := by
  rw [validName_iff] at hc
  rw [walk_cons]
  have h1 : ¬ (c = [] ∨ c = ['.']) := by
    rintro (h | h)
    · exact hc.1 h
    · exact hc.2.2.1 h
  rw [if_neg h1, if_neg hc.2.2.2]
  by_cases hd : fs.isDirAt cur = true
  · by_cases hl : c.length ≤ fs.nameMax
    · rw [if_neg (by simp [hd]), if_neg (by omega), if_pos ⟨hd, hl⟩]
    · rw [if_neg (by simp [hd]), if_pos (by omega), if_neg (fun h => hl h.2)]
  · rw [if_pos (by simpa using hd), if_neg (fun h => hd h.1)]

theorem walk_mono (fs fs' : FS) (hm : ∀ k, fs.isDirAt k = true → fs'.isDirAt k = true)
    (hn : fs'.nameMax = fs.nameMax)
    (els : List Str) (cur k : Key) (h : walk fs cur els = some k) :
    walk fs' cur els = some k := by
  induction els generalizing cur with
  | nil => exact h
  | cons el rest ih =>
    rw [walk_cons] at h ⊢
    by_cases hd : fs.isDirAt cur = true
    · have hd' := hm cur hd
      rw [if_neg (by simp [hd])] at h
      rw [if_neg (by simp [hd']), hn]
      split
      · rename_i h1
        rw [if_pos h1] at h
        exact ih _ h
      · rename_i h1
        rw [if_neg h1] at h
        split
        · rename_i h2
          rw [if_pos h2] at h
          exact ih _ h
        · rename_i h2
          rw [if_neg h2] at h
          split
          · rename_i h3
            rw [if_pos h3] at h
            exact absurd h (by simp)
          · rename_i h3
            rw [if_neg h3] at h
            exact ih _ h
    · rw [if_pos (by simpa using hd)] at h
      exact absurd h (by simp)

theorem resolve_iff (fs : FS) (p : Str) (k : Key) :
    resolve fs p = some k ↔
      p ≠ [] ∧ p.length ≤ fs.pathMax ∧
        ∃ d, startKey fs p = some d ∧ walk fs d (splitSep p) = some k := by
  unfold resolve
  by_cases h0 : p = []
  · simp [h0]
  · by_cases h1 : fs.pathMax < p.length
    · rw [if_neg h0, if_pos h1]
      constructor
      · intro h; exact absurd h (by simp)
      · rintro ⟨_, h, _⟩; omega
    · rw [if_neg h0, if_neg h1]
      cases hs : startKey fs p with
      | none => simp
      | some d =>
        constructor
        · intro h; exact ⟨h0, by omega, d, rfl, h⟩
        · rintro ⟨_, _, d', hd', h⟩
          cases hd'
          exact h

theorem resolve_eq_none_iff (fs : FS) (p : Str) :
    resolve fs p = none ↔
      p = [] ∨ fs.pathMax < p.length ∨
        ∀ d, startKey fs p = some d → walk fs d (splitSep p) = none := by
  unfold resolve
  by_cases h0 : p = []
  · simp [h0]
  · by_cases h1 : fs.pathMax < p.length
    · simp [h0, h1]
    · rw [if_neg h0, if_neg h1]
      cases hs : startKey fs p with
      | none => simp
      | some d => simp [h0, h1]

theorem startKey_append (fs : FS) (p q : Str) (hp : p ≠ []) :
    startKey fs (p ++ q) = startKey fs p := by
  unfold startKey
  rw [isAbs_append p q hp]

theorem startKey_env (fs fs' : FS) (he : SameEnv fs fs') (p : Str) :
    startKey fs' p = startKey fs p := by
  unfold startKey
  rw [he.1]

theorem resolve_mono (fs fs' : FS) (hm : ∀ k, fs.isDirAt k = true → fs'.isDirAt k = true)
    (he : SameEnv fs fs') (p : Str) (k : Key) (h : resolve fs p = some k) :
    resolve fs' p = some k := by
  rw [resolve_iff] at h ⊢
  obtain ⟨h0, h1, d, hd, hw⟩ := h
  refine ⟨h0, by rw [he.2.2.2.1]; exact h1, d, ?_, walk_mono fs fs' hm he.2.2.1 _ _ _ hw⟩
  rw [startKey_env fs fs' he, hd]

theorem walk_append (fs : FS) (a b : List Str) (cur : Key) :
    walk fs cur (a ++ b) = (walk fs cur a).bind (fun k => walk fs k b) := by
  induction a generalizing cur with
  | nil => rfl
  | cons el rest ih =>
    rw [List.cons_append, walk_cons, walk_cons]
    split
    · rfl
    · split
      · exact ih _
      · split
        · exact ih _
        · split
          · rfl
          · exact ih _

theorem walk_name (fs : FS) (cur : Key) (c : Str) (hc : validName c = true) :
    walk fs cur [c] =
      if fs.isDirAt cur = true ∧ c.length ≤ fs.nameMax then some (c :: cur) else none := by
  rw [walk_cons_name fs cur c [] hc]
  rfl

theorem resolve_ne_nil (fs : FS) (p : Str) (k : Key) (h : resolve fs p = some k) : p ≠ [] :=
  ((resolve_iff fs p k).1 h).1

theorem splitSep_child (p c : Str) (hc : validName c = true) :
    splitSep (p ++ pathSeparator :: c) = splitSep p ++ [c] := by
  rw [splitSep_append_sep, splitSep_of_not_mem c ((validName_iff c).1 hc).2.1]

/-- The location designated by `p/c`, when `p` designates the location `k`: the child `c`
of `k`, provided `k` is a directory and the lengths of `p/c` and of `c` are accepted. -/
theorem resolve_child_eq (fs : FS) (p : Str) (k : Key) (c : Str) (h : resolve fs p = some k)
    (hc : validName c = true) :
    resolve fs (p ++ pathSeparator :: c) =
      if (p ++ pathSeparator :: c).length ≤ fs.pathMax ∧ fs.isDirAt k = true ∧
          c.length ≤ fs.nameMax then some (c :: k) else none := by
  obtain ⟨h0, h1, d, hd, hw⟩ := (resolve_iff fs p k).1 h
  have hwalk : walk fs d (splitSep (p ++ pathSeparator :: c)) =
      if fs.isDirAt k = true ∧ c.length ≤ fs.nameMax then some (c :: k) else none := by
    rw [splitSep_child p c hc, walk_append, hw]
    exact walk_name fs k c hc
  split
  · rename_i hcond
    rw [resolve_iff]
    refine ⟨by simp, hcond.1, d, ?_, ?_⟩
    · rw [startKey_append fs p _ h0, hd]
    · rw [hwalk, if_pos hcond.2]
  · rename_i hcond
    rw [resolve_eq_none_iff]
    by_cases hl : (p ++ pathSeparator :: c).length ≤ fs.pathMax
    · right; right
      intro d' hd'
      rw [startKey_append fs p _ h0, hd] at hd'
      cases hd'
      rw [hwalk, if_neg (fun hh => hcond ⟨hl, hh⟩)]
    · right; left; omega

/-- The child `c` of a directory designated by `p` is designated by `p/c`, within the
limits of length. -/
theorem resolve_child (fs : FS) (p : Str) (k : Key) (c : Str) (h : resolve fs p = some k)
    (hd : fs.isDirAt k = true) (hc : validName c = true)
    (hp : (p ++ pathSeparator :: c).length ≤ fs.pathMax) (hn : c.length ≤ fs.nameMax) :
    resolve fs (p ++ pathSeparator :: c) = some (c :: k) := by
  rw [resolve_child_eq fs p k c h hc, if_pos ⟨hp, hd, hn⟩]

/-- Nothing is designated by `p/c` when nothing is designated by the path `p`. -/
theorem resolve_child_none (fs : FS) (p : Str) (c : Str) (hp : p ≠ [])
    (h : resolve fs p = none) (hc : validName c = true) :
    resolve fs (p ++ pathSeparator :: c) = none := by
  rw [resolve_eq_none_iff] at h ⊢
  rcases h with h | h | h
  · exact absurd h hp
  · right; left
    simp only [List.length_append, List.length_cons]
    omega
  · right; right
    intro d hd
    rw [startKey_append fs p _ hp] at hd
    rw [splitSep_child p c hc, walk_append, h d hd]
    rfl

theorem walk_target (fs : FS) (hwf : fs.wf = true) (els : List Str) (cur k : Key)
    (hels : ∀ el ∈ els, pathSeparator ∉ el)
    (hcur : (fs.lookup cur).isSome = true ∨
      ∃ n d, cur = n :: d ∧ fs.isDirAt d = true ∧ validName n = true)
    (h : walk fs cur els = some k) :
    (fs.lookup k).isSome = true ∨
      ∃ n d, k = n :: d ∧ fs.isDirAt d = true ∧ validName n = true := by
  induction els generalizing cur with
  | nil =>
    simp only [walk, Option.some.injEq] at h
    rw [← h]; exact hcur
  | cons el rest ih =>
    have hrest : ∀ x ∈ rest, pathSeparator ∉ x := fun x hx => hels x (List.mem_cons_of_mem _ hx)
    rw [walk_cons] at h
    by_cases hd : fs.isDirAt cur = true
    · simp only [hd, Bool.true_eq_false, if_false] at h
      have hsome : (fs.lookup cur).isSome = true := by
        obtain ⟨e, he, _⟩ := (isDirAt_true_iff fs cur).1 hd
        rw [he]; rfl
      by_cases h1 : el = [] ∨ el = ['.']
      · rw [if_pos h1] at h
        exact ih _ hrest (Or.inl hsome) h
      · rw [if_neg h1] at h
        by_cases h2 : el = ['.', '.']
        · rw [if_pos h2] at h
          refine ih _ hrest ?_ h
          left
          cases cur with
          | nil => exact hsome
          | cons n d =>
            obtain ⟨e, he, _⟩ := (isDirAt_true_iff fs _).1 hd
            obtain ⟨e', he', _⟩ := (isDirAt_true_iff fs _).1 (wf_parent fs hwf n d e he).2
            simp [he']
        · rw [if_neg h2] at h
          by_cases h3 : fs.nameMax < el.length
          · rw [if_pos h3] at h
            exact absurd h (by simp)
          · rw [if_neg h3] at h
            refine ih _ hrest (Or.inr ⟨el, cur, rfl, hd, ?_⟩) h
            rw [validName_iff]
            push_neg at h1
            exact ⟨h1.1, hels el (by simp), h1.2, h2⟩
    · have : fs.isDirAt cur = false := by simpa using hd
      simp [this] at h

/-- A path that designates a location without entry designates a valid name in a
directory. -/
theorem resolve_target (fs : FS) (hwf : fs.wf = true) (p : Str) (k : Key)
    (h : resolve fs p = some k) (hk : fs.lookup k = none) :
    ∃ n d, k = n :: d ∧ fs.isDirAt d = true ∧ validName n = true := by
  obtain ⟨_, _, cur, _, hw⟩ := (resolve_iff fs p k).1 h
  have hels := not_mem_of_mem_splitSep p
  cases hs : splitSep p with
  | nil => exact absurd hs (splitSep_ne_nil p)
  | cons el rest =>
    rw [hs] at hw hels
    by_cases hd : fs.isDirAt cur = true
    · have h1 := walk_target fs hwf _ cur k hels (by
        obtain ⟨e, he, _⟩ := (isDirAt_true_iff fs cur).1 hd
        left; rw [he]; rfl) hw
      rcases h1 with h1 | h1
      · rw [hk] at h1; simp at h1
      · exact h1
    · have : fs.isDirAt cur = false := by simpa using hd
      simp [walk, this] at hw

/-! ## The system calls -/

theorem set_isDirAt_mono_same (fs : FS) (k : Key) (e e0 : Entry) (h0 : fs.lookup k = some e0)
    (he : e.isDir = e0.isDir) (p : Str) (t : Key) (h : resolve fs p = some t) :
    resolve (fs.set k e) p = some t :=
  resolve_mono fs (fs.set k e)
    (fun k' hk' => by rw [isDirAt_set_same fs k k' e e0 h0 he]; exact hk')
    (sameEnv_set fs k e) p t h

/-- What `mirrorMtimeAndMode` does to an entry that the user owns. -/
theorem mirror_owned (fs : FS) (p : Str) (info : FileInfo) (t : Key) (e : Entry)
    (hr : resolve fs p = some t) (he : fs.lookup t = some e) (ho : e.owned = true) :
    mirrorMtimeAndMode fs p info =
      (fs.set t { e with mtime := info.modTime }).set t
        { e with mtime := info.modTime, mode := info.mode } := by
  have h1 : osChtimes fs p info.modTime = some (fs.set t { e with mtime := info.modTime }) := by
    rw [osChtimes, hr]
    simp only [he, ho, if_true]
  have hr2 := set_isDirAt_mono_same fs t { e with mtime := info.modTime } e he rfl p t hr
  have h2 : osChmod (fs.set t { e with mtime := info.modTime }) p info.mode =
      some ((fs.set t { e with mtime := info.modTime }).set t
        { e with mtime := info.modTime, mode := info.mode }) := by
    rw [osChmod, hr2]
    simp only [lookup_set, if_true, ho]
  rw [mirrorMtimeAndMode, h1]
  simp only [h2]

/-- The function `mirrorMtimeAndMode` changes at most the modification time and the mode of
the entry its path designates. -/
theorem mirror_lookup (fs : FS) (p : Str) (info : FileInfo) (k : Key) :
    (mirrorMtimeAndMode fs p info).lookup k = fs.lookup k ∨
    ∃ e m1 m2, resolve fs p = some k ∧ fs.lookup k = some e ∧
      (mirrorMtimeAndMode fs p info).lookup k = some { e with mtime := m1, mode := m2 } := by
  have hch : ∀ (fs : FS) (m : Nat), osChtimes fs p m = none ∨
      ∃ t e, resolve fs p = some t ∧ fs.lookup t = some e ∧
        osChtimes fs p m = some (fs.set t { e with mtime := m }) := by
    intro fs m
    cases hr : resolve fs p with
    | none => left; rw [osChtimes, hr]
    | some t =>
      cases he : fs.lookup t with
      | none => left; rw [osChtimes, hr]; simp only [he]
      | some e =>
        by_cases ho : e.owned = true
        · right; exact ⟨t, e, rfl, he, by rw [osChtimes, hr]; simp only [he, ho, if_true]⟩
        · left; rw [osChtimes, hr]; simp only [he, ho]; rfl
  have hcm : ∀ (fs : FS) (m : Nat), osChmod fs p m = none ∨
      ∃ t e, resolve fs p = some t ∧ fs.lookup t = some e ∧
        osChmod fs p m = some (fs.set t { e with mode := m }) := by
    intro fs m
    cases hr : resolve fs p with
    | none => left; rw [osChmod, hr]
    | some t =>
      cases he : fs.lookup t with
      | none => left; rw [osChmod, hr]; simp only [he]
      | some e =>
        by_cases ho : e.owned = true
        · right; exact ⟨t, e, rfl, he, by rw [osChmod, hr]; simp only [he, ho, if_true]⟩
        · left; rw [osChmod, hr]; simp only [he, ho]; rfl
  unfold mirrorMtimeAndMode
  rcases hch fs info.modTime with h1 | ⟨t, e, hr, he, h1⟩
  · rw [h1]
    simp only
    rcases hcm fs info.mode with h2 | ⟨t2, e2, hr2, he2, h2⟩
    · rw [h2]; left; rfl
    · rw [h2]
      simp only [lookup_set]
      by_cases hk : t2 = k
      · subst hk
        right
        exact ⟨e2, e2.mtime, info.mode, hr2, he2, by simp⟩
      · left; simp [hk]
  · rw [h1]
    simp only
    have hr' := set_isDirAt_mono_same fs t { e with mtime := info.modTime } e he rfl p t hr
    rcases hcm (fs.set t { e with mtime := info.modTime }) info.mode with
      h2 | ⟨t2, e2, hr2, he2, h2⟩
    · rw [h2]
      simp only [lookup_set]
      by_cases hk : t = k
      · subst hk
        right
        exact ⟨e, info.modTime, e.mode, hr, he, by simp⟩
      · left; simp [hk]
    · rw [h2]
      have : t2 = t := by rw [hr'] at hr2; exact (Option.some.inj hr2).symm
      subst this
      simp only [lookup_set, if_true, Option.some.injEq] at he2
      subst he2
      simp only [lookup_set]
      by_cases hk : t2 = k
      · subst hk
        right
        exact ⟨e, info.modTime, info.mode, hr, he, by simp⟩
      · left; simp [hk]

/-- What a successful `os.Create` does. -/
theorem osCreate_spec (fs fs1 : FS) (p : Str) (f : File) (h : osCreate fs p = some (fs1, f)) :
    f.name = p ∧ resolve fs p = some f.key ∧
    ((∃ e, fs.lookup f.key = some e ∧ e.isDir = false ∧
        fs1 = (fs.set f.key { e with data := [], mtime := fs.clock }).tick) ∨
     (∃ n d pe, f.key = n :: d ∧ fs.lookup (n :: d) = none ∧ fs.lookup d = some pe ∧
        pe.isDir = true ∧
        fs1 = addEntry fs n d pe ⟨false, [], fs.clock, applyUmask 0o666 fs.umask, true⟩)) := by
  unfold osCreate at h
  cases hr : resolve fs p with
  | none => rw [hr] at h; simp at h
  | some k =>
    rw [hr] at h
    simp only at h
    cases he : fs.lookup k with
    | some e =>
      rw [he] at h
      simp only at h
      by_cases hd : e.isDir = true
      · simp [hd] at h
      · rw [if_neg hd] at h
        simp only [Option.some.injEq, Prod.mk.injEq] at h
        obtain ⟨h1, h2⟩ := h
        subst h2
        refine ⟨rfl, rfl, Or.inl ⟨e, he, by simpa using hd, h1.symm⟩⟩
    | none =>
      rw [he] at h
      simp only at h
      cases k with
      | nil => simp at h
      | cons n d =>
        simp only at h
        cases hp : fs.lookup d with
        | none => rw [hp] at h; simp at h
        | some pe =>
          rw [hp] at h
          simp only at h
          by_cases hd : pe.isDir = true ∧ d ∉ fs.sealed
          · rw [if_pos hd] at h
            simp only [Option.some.injEq, Prod.mk.injEq] at h
            obtain ⟨h1, h2⟩ := h
            subst h2
            exact ⟨rfl, rfl, Or.inr ⟨n, d, pe, rfl, he, hp, hd.1, h1.symm⟩⟩
          · rw [if_neg hd] at h
            exact absurd h (by simp)

/-- What a successful `os.Mkdir` does. -/
theorem osMkdir_spec (fs fs1 : FS) (p : Str) (perm : Nat) (h : osMkdir fs p perm = some fs1) :
    ∃ n d pe, resolve fs p = some (n :: d) ∧ fs.lookup (n :: d) = none ∧
      fs.lookup d = some pe ∧ pe.isDir = true ∧
      fs1 = addEntry fs n d pe ⟨true, [], fs.clock, applyUmask perm fs.umask, true⟩ := by
  unfold osMkdir at h
  cases hr : resolve fs p with
  | none => rw [hr] at h; simp at h
  | some k =>
    rw [hr] at h
    cases k with
    | nil => simp at h
    | cons n d =>
      simp only at h
      cases hn : fs.lookup (n :: d) with
      | some e => rw [hn] at h; simp at h
      | none =>
        cases hp : fs.lookup d with
        | none => rw [hn, hp] at h; simp at h
        | some pe =>
          rw [hn, hp] at h
          simp only at h
          by_cases hd : pe.isDir = true ∧ d ∉ fs.sealed
          · rw [if_pos hd] at h
            exact ⟨n, d, pe, rfl, hn, hp, hd.1, (Option.some.inj h).symm⟩
          · rw [if_neg hd] at h
            exact absurd h (by simp)

/-- When `os.Mkdir` succeeds: the location is free and lies in a directory that takes new
entries. -/
theorem osMkdir_new (fs : FS) (p : Str) (perm : Nat) (n : Str) (d : Key) (pe : Entry)
    (hr : resolve fs p = some (n :: d)) (hn : fs.lookup (n :: d) = none)
    (hp : fs.lookup d = some pe) (hd : pe.isDir = true) (hs : d ∉ fs.sealed) :
    osMkdir fs p perm =
      some (addEntry fs n d pe ⟨true, [], fs.clock, applyUmask perm fs.umask, true⟩) := by
  unfold osMkdir
  rw [hr]
  simp [hn, hp, hd, hs]

theorem sameEnv_addEntry (fs : FS) (n : Str) (d : Key) (pe e : Entry) :
    SameEnv fs (addEntry fs n d pe e) := ⟨rfl, rfl, rfl, rfl, rfl⟩

theorem lookup_addEntry (fs : FS) (n : Str) (d : Key) (pe e : Entry) (k : Key) :
    (addEntry fs n d pe e).lookup k =
      if n :: d = k then some e
      else if d = k then some { pe with mtime := fs.clock } else fs.lookup k := by
  simp [addEntry]

theorem wf_addEntry (fs : FS) (n : Str) (d : Key) (pe e : Entry) (hwf : fs.wf = true)
    (hn : fs.lookup (n :: d) = none) (hp : fs.lookup d = some pe) (hd : pe.isDir = true)
    (hv : validName n = true) : (addEntry fs n d pe e).wf = true := by
  unfold addEntry
  rw [wf_tick]
  have hwf1 := wf_set_same fs d { pe with mtime := fs.clock } pe hwf hp rfl
  apply wf_set_new _ n d e hwf1
  · rw [lookup_set]
    have : ¬ d = n :: d := fun h => by
      have := congrArg List.length h
      simp at this
    simp [this, hn]
  · rw [isDirAt_set]; simp [hd]
  · exact hv

/-- What a successful `io.Copy` does. -/
theorem ioCopy_spec (fs fs2 : FS) (dst src : File) (h : ioCopy fs dst src = some fs2) :
    ∃ s d, fs.lookup src.key = some s ∧ fs.lookup dst.key = some d ∧ s.isDir = false ∧
      d.isDir = false ∧
      ((s.data = [] ∧ fs2 = fs) ∨
       (s.data ≠ [] ∧ fs2 = (fs.set dst.key
          { d with data := s.data ++ d.data.drop s.data.length, mtime := fs.clock }).tick)) := by
  unfold ioCopy at h
  cases hs : fs.lookup src.key with
  | none => rw [hs] at h; simp at h
  | some s =>
    cases hd : fs.lookup dst.key with
    | none => rw [hs, hd] at h; simp at h
    | some d =>
      rw [hs, hd] at h
      simp only at h
      by_cases hdir : s.isDir = true ∨ d.isDir = true
      · rw [if_pos hdir] at h; simp at h
      · rw [if_neg hdir] at h
        push_neg at hdir
        refine ⟨s, d, rfl, rfl, by simpa using hdir.1, by simpa using hdir.2, ?_⟩
        by_cases hdata : s.data = []
        · rw [if_pos hdata] at h
          exact Or.inl ⟨hdata, (Option.some.inj h).symm⟩
        · rw [if_neg hdata] at h
          exact Or.inr ⟨hdata, (Option.some.inj h).symm⟩

theorem isDirAt_addEntry_mono (fs : FS) (n : Str) (d : Key) (pe e : Entry)
    (hn : fs.lookup (n :: d) = none) (hp : fs.lookup d = some pe) (k : Key)
    (hk : fs.isDirAt k = true) : (addEntry fs n d pe e).isDirAt k = true := by
  rw [isDirAt_eq, lookup_addEntry]
  by_cases h1 : n :: d = k
  · rw [← h1, isDirAt_eq, hn] at hk
    exact absurd hk (by simp)
  · simp only [h1, if_false]
    by_cases h2 : d = k
    · subst h2
      rw [isDirAt_eq, hp] at hk
      simpa using hk
    · simp only [h2, if_false]
      rw [isDirAt_eq] at hk
      exact hk

/-- C6: when `processFile` returns normally for a source that is a regular file, the target
file holds exactly the bytes that the source file holds when `io.Copy` reads it, that is,
in the state left by `os.Create`, whether or not the target existed before; unless the
target is the source file itself, these are the bytes of the source before the call, and
the source is left as it was. -/
theorem C6_file_content (fs fs' : FS) (sourcePath targetPath : Str) (sourceFile : File)
    (sourceInfo : FileInfo) (F : Entry) (hF : fs.lookup sourceFile.key = some F)
    (hreg : F.isDir = false)
    (h : processFile fs sourcePath sourceFile sourceInfo targetPath = .ok fs') :
    ∃ fs1 targetFile F1 e', osCreate fs targetPath = some (fs1, targetFile) ∧
      resolve fs targetPath = some targetFile.key ∧
      fs1.lookup sourceFile.key = some F1 ∧
      fs'.lookup targetFile.key = some e' ∧ e'.isDir = false ∧ e'.data = F1.data ∧
      (targetFile.key ≠ sourceFile.key → F1 = F ∧ fs'.lookup sourceFile.key = some F) := by
  unfold processFile at h
  cases hc : osCreate fs targetPath with
  | none => rw [hc] at h; simp at h
  | some r =>
    obtain ⟨fs1, tf⟩ := r
    rw [hc] at h
    simp only at h
    cases hio : ioCopy fs1 tf sourceFile with
    | none => rw [hio] at h; simp at h
    | some fs2 =>
      rw [hio] at h
      simp only [Outcome.ok.injEq] at h
      obtain ⟨_, hres, hcr⟩ := osCreate_spec fs fs1 targetPath tf hc
      obtain ⟨s1, d1, hs1, hd1, hs1dir, hd1dir, hcopy⟩ := ioCopy_spec fs1 fs2 tf sourceFile hio
      -- the target right after its creation
      have hd1data : d1.data = [] := by
        rcases hcr with ⟨e, _, _, hfs1⟩ | ⟨n, d, pe, hk, _, _, _, hfs1⟩
        · rw [hfs1] at hd1
          simp only [lookup_tick, lookup_set, if_true, Option.some.injEq] at hd1
          rw [← hd1]
        · rw [hfs1, lookup_addEntry, hk] at hd1
          simp only [if_true, Option.some.injEq] at hd1
          rw [← hd1]
      -- kinds of existing directories are kept from `fs` to `fs1`
      have hmono1 : ∀ k, fs.isDirAt k = true → fs1.isDirAt k = true := by
        intro k hk
        rcases hcr with ⟨e, he, hedir, hfs1⟩ | ⟨n, d, pe, _, hn, hp, _, hfs1⟩
        · rw [hfs1, isDirAt_tick]
          exact isDirAt_set_same_mono fs _ k _ e he rfl hk
        · rw [hfs1]; exact isDirAt_addEntry_mono fs n d pe _ hn hp k hk
      -- the target after the copy
      have h2 : ∃ e2, fs2.lookup tf.key = some e2 ∧ e2.isDir = false ∧ e2.data = s1.data ∧
          (∀ k, k ≠ tf.key → fs2.lookup k = fs1.lookup k) ∧
          (∀ k, fs1.isDirAt k = true → fs2.isDirAt k = true) := by
        rcases hcopy with ⟨hdata, hfs2⟩ | ⟨_, hfs2⟩
        · subst hfs2
          exact ⟨d1, hd1, hd1dir, by rw [hd1data, hdata], fun _ _ => rfl, fun _ hk => hk⟩
        · refine ⟨{ d1 with data := s1.data ++ d1.data.drop s1.data.length, mtime := fs1.clock },
            by rw [hfs2]; simp, hd1dir, by simp [hd1data], ?_, ?_⟩
          · intro k hk
            rw [hfs2]
            simp [Ne.symm hk]
          · intro k hk
            rw [hfs2, isDirAt_tick]
            exact isDirAt_set_same_mono fs1 _ k _ d1 hd1 rfl hk
      obtain ⟨e2, he2, he2dir, he2data, hother, hmono2⟩ := h2
      have hres2 : resolve fs2 targetPath = some tf.key := by
        refine resolve_mono fs fs2 (fun k hk => hmono2 k (hmono1 k hk)) ?_ _ _ hres
        rcases hcr with ⟨e, _, _, hfs1⟩ | ⟨n, d, pe, _, _, _, _, hfs1⟩ <;>
          rcases hcopy with ⟨_, hfs2⟩ | ⟨_, hfs2⟩ <;> rw [hfs2, hfs1] <;>
          exact ⟨rfl, rfl, rfl, rfl, rfl⟩
      refine ⟨fs1, tf, s1, ?_⟩
      rw [← h]
      rcases mirror_lookup fs2 targetPath sourceInfo tf.key with hm | ⟨e, m1, m2, _, he, hm⟩
      · refine ⟨e2, rfl, hres, hs1, by rw [hm, he2], he2dir, he2data, ?_⟩
        intro hne
        have hF1 : s1 = F := by
          rcases hcr with ⟨e, _, _, hfs1⟩ | ⟨n, d, pe, hk, _, hp, hpd, hfs1⟩
          · rw [hfs1] at hs1
            simp only [lookup_tick, lookup_set, hne, if_false] at hs1
            rw [hF] at hs1
            exact (Option.some.inj hs1).symm
          · rw [hfs1, lookup_addEntry, ← hk] at hs1
            simp only [hne, if_false] at hs1
            by_cases hds : d = sourceFile.key
            · rw [hds, hF] at hp
              rw [← Option.some.inj hp, hreg] at hpd
              exact absurd hpd (by simp)
            · simp only [hds, if_false] at hs1
              rw [hF] at hs1
              exact (Option.some.inj hs1).symm
        refine ⟨hF1, ?_⟩
        rcases mirror_lookup fs2 targetPath sourceInfo sourceFile.key with
          hm' | ⟨_, _, _, hr', _, _⟩
        · rw [hm', hother _ (Ne.symm hne), hs1, hF1]
        · rw [hres2] at hr'
          exact absurd (Option.some.inj hr') hne
      · rw [he2] at he
        have hee : e = e2 := (Option.some.inj he).symm
        subst hee
        refine ⟨_, rfl, hres, hs1, hm, he2dir, he2data, ?_⟩
        intro hne
        have hF1 : s1 = F := by
          rcases hcr with ⟨e, _, _, hfs1⟩ | ⟨n, d, pe, hk, _, hp, hpd, hfs1⟩
          · rw [hfs1] at hs1
            simp only [lookup_tick, lookup_set, hne, if_false] at hs1
            rw [hF] at hs1
            exact (Option.some.inj hs1).symm
          · rw [hfs1, lookup_addEntry, ← hk] at hs1
            simp only [hne, if_false] at hs1
            by_cases hds : d = sourceFile.key
            · rw [hds, hF] at hp
              rw [← Option.some.inj hp, hreg] at hpd
              exact absurd hpd (by simp)
            · simp only [hds, if_false] at hs1
              rw [hF] at hs1
              exact (Option.some.inj hs1).symm
        refine ⟨hF1, ?_⟩
        rcases mirror_lookup fs2 targetPath sourceInfo sourceFile.key with
          hm' | ⟨_, _, _, hr', _, _⟩
        · rw [hm', hother _ (Ne.symm hne), hs1, hF1]
        · rw [hres2] at hr'
          exact absurd (Option.some.inj hr') hne

/-- Witness of C6: `/proj/a.txt` copied over the existing file `/old.txt`. -/
theorem C6_file_content_witness :
    ∃ fs1 targetFile F1 e', osCreate exFs "/old.txt".toList = some (fs1, targetFile) ∧
      resolve exFs "/old.txt".toList = some targetFile.key ∧
      fs1.lookup ["a.txt".toList, "proj".toList] = some F1 ∧
      ((processFile exFs "/proj/a.txt".toList
          ⟨"/proj/a.txt".toList, ["a.txt".toList, "proj".toList]⟩ ⟨false, 5, 0o644⟩
          "/old.txt".toList).get exFs).lookup targetFile.key = some e' ∧
      e'.isDir = false ∧ e'.data = F1.data ∧
      (targetFile.key ≠ ["a.txt".toList, "proj".toList] →
        F1 = ⟨false, [104, 101, 108, 108, 111], 5, 0o644, true⟩ ∧
        ((processFile exFs "/proj/a.txt".toList
          ⟨"/proj/a.txt".toList, ["a.txt".toList, "proj".toList]⟩ ⟨false, 5, 0o644⟩
          "/old.txt".toList).get exFs).lookup ["a.txt".toList, "proj".toList] =
          some ⟨false, [104, 101, 108, 108, 111], 5, 0o644, true⟩) :=
  C6_file_content exFs _ "/proj/a.txt".toList "/old.txt".toList
    ⟨"/proj/a.txt".toList, ["a.txt".toList, "proj".toList]⟩ ⟨false, 5, 0o644⟩
    ⟨false, [104, 101, 108, 108, 111], 5, 0o644, true⟩ (by decide) (by decide) (by decide)

/-- A failure of `os.Create` makes `processFile` panic, with the filesystem as it was. -/
theorem processFile_create_fails (fs : FS) (sourcePath targetPath : Str) (sourceFile : File)
    (sourceInfo : FileInfo) (h : osCreate fs targetPath = none) :
    processFile fs sourcePath sourceFile sourceInfo targetPath = .panic fs .cannotCreate := by
  unfold processFile
  rw [h]

/-- C8 fails on the code for directories.  For the user name `Ops/Backup`, `SaveFile` on the
empty directory `/empty` computes the target `//empty.bak_20240307090500_Ops/Backup`, whose
parent does not exist: `os.Mkdir` fails on it, and `SaveFile` returns normally with the
filesystem as it was, no target entry created.  Likewise `processEntry` returns normally
from `/empty` to the target `/old.txt`, which exists and on which `os.Mkdir` fails. -/
theorem C8_mkdir_failure_ignored :
    Abs exFs "/empty".toList = some "/empty".toList ∧
    computeTopLevelTargetPath exEnvSlash none "/empty".toList =
      .ok ("//empty.bak_20240307090500_Ops/Backup".toList,
        some ⟨"20240307090500".toList, "Ops/Backup".toList⟩) ∧
    osMkdir exFs "//empty.bak_20240307090500_Ops/Backup".toList 0o777 = none ∧
    SaveFile exEnvSlash 1 ⟨exFs, none⟩ "/empty".toList =
      .ok ⟨exFs, some ⟨"20240307090500".toList, "Ops/Backup".toList⟩⟩ ∧
    osMkdir exFs "/old.txt".toList 0o777 = none ∧
    (processEntry 1 exFs "/empty".toList "/old.txt".toList).isOk = true := by
  refine ⟨by decide, by rfl, by decide, by decide, by decide, by decide⟩

/-- C9 (amended): when the absolute form of the path, as computed by `filepath.Abs`,
designates no entry that can be opened, `SaveFile` panics and the filesystem is as it
was before the call. -/
theorem C9_missing_source (env : Env) (fuel : Nat) (w : World) (path : Str)
    (h : (Abs w.fs path).bind (osOpen w.fs) = none) :
    ∃ e w', SaveFile env (fuel + 1) w path = .panic w' e ∧ w'.fs = w.fs := by
  unfold SaveFile
  cases ha : Abs w.fs path with
  | none => exact ⟨_, _, rfl, rfl⟩
  | some a =>
    rw [ha] at h
    simp only [Option.bind] at h
    simp only
    cases hc : computeTopLevelTargetPath env w.contextSingleton a with
    | error e => exact ⟨_, _, rfl, rfl⟩
    | ok r =>
      obtain ⟨t, st⟩ := r
      simp only [processEntry, h]
      exact ⟨_, _, rfl, rfl⟩

/-- Witness of C9 (amended): the path `nothere` in the example tree. -/
theorem C9_missing_source_witness :
    ∃ e w', SaveFile exEnv (2 + 1) ⟨exFs, none⟩ "nothere".toList = .panic w' e ∧
      w'.fs = exFs :=
  C9_missing_source exEnv 2 ⟨exFs, none⟩ "nothere".toList (by decide)

/-- C9 as stated fails: the path `/missing/../proj/a.txt` does not exist in the example
tree (it cannot be opened, `/missing` is not there), yet `SaveFile` returns normally and has
created the backup of `/proj/a.txt`. -/
theorem C9_counterexample :
    osOpen exFs "/missing/../proj/a.txt".toList = none ∧
    resolve exFs "/missing/../proj/a.txt".toList = none ∧
    (SaveFile exEnv 1 ⟨exFs, none⟩ "/missing/../proj/a.txt".toList).isOk = true ∧
    exFs.lookup ["a.bak_20240307090500_Jo Doe.txt".toList, "proj".toList] = none ∧
    (((SaveFile exEnv 1 ⟨exFs, none⟩ "/missing/../proj/a.txt".toList).get ⟨exFs, none⟩).fs.lookup
      ["a.bak_20240307090500_Jo Doe.txt".toList, "proj".toList]).isSome = true := by
  refine ⟨by decide, by decide, by decide, by decide, by decide⟩

/-! ## The recursive copy -/

theorem not_suffix_child (s t : Key) (c : Str) (h : ¬ s <:+ t) : ¬ (c :: s) <:+ (c :: t) := by
  intro hs
  rcases List.suffix_cons_iff.1 hs with h1 | h1
  · injection h1 with _ h2
    exact h (h2 ▸ List.suffix_refl _)
  · exact h ((List.suffix_cons c s).trans h1)

theorem not_suffix_sibling (t : Key) (c c' : Str) (r : List Str) (h : c ≠ c') :
    ¬ (c :: t) <:+ (r ++ c' :: t) := by
  intro hs
  have h2 : (c' :: t) <:+ (r ++ c' :: t) := List.suffix_append _ _
  have h3 := List.suffix_of_suffix_length_le hs h2 (by simp)
  have h4 := h3.eq_of_length (by simp)
  injection h4 with h5 _
  exact h h5

theorem not_suffix_below (s t : Key) (r : List Str) (hst : ¬ s <:+ t) (hts : ¬ t <:+ s) :
    ¬ t <:+ (r ++ s) := by
  intro h
  rcases List.suffix_or_suffix_of_suffix h (List.suffix_append r s) with h1 | h1
  · exact hts h1
  · exact hst h1

theorem append_cons_ne (t : Key) (c : Str) (r : List Str) : r ++ c :: t ≠ t := by
  intro h
  have := congrArg List.length h
  simp only [List.length_append, List.length_cons] at this
  omega

theorem below_ne_tail (s t : Key) (r : List Str) (hst : ¬ s <:+ t) : r ++ s ≠ t.tail := by
  intro h
  apply hst
  have h1 : s <:+ t.tail := by rw [← h]; exact List.suffix_append r s
  exact h1.trans (List.tail_suffix t)

theorem keptEntries_refl (fs : FS) : KeptEntries fs fs := fun _ e h => ⟨e, h, rfl, rfl⟩

theorem keptEntries_trans {a b c : FS} (h1 : KeptEntries a b) (h2 : KeptEntries b c) :
    KeptEntries a c := by
  intro k e he
  obtain ⟨e1, he1, hd1, ho1⟩ := h1 k e he
  obtain ⟨e2, he2, hd2, ho2⟩ := h2 k e1 he1
  exact ⟨e2, he2, hd2.trans hd1, ho2.trans ho1⟩

theorem KeptEntries.isDirAt_mono {fs fs' : FS} (h : KeptEntries fs fs') (k : Key)
    (hk : fs.isDirAt k = true) : fs'.isDirAt k = true := by
  obtain ⟨e, he, hed⟩ := (isDirAt_true_iff fs k).1 hk
  obtain ⟨e', he', hd', _⟩ := h k e he
  exact (isDirAt_true_iff fs' k).2 ⟨e', he', hd'.trans hed⟩

theorem keptEntries_set_same (fs : FS) (k : Key) (e e0 : Entry) (h0 : fs.lookup k = some e0)
    (hd : e.isDir = e0.isDir) (ho : e.owned = e0.owned) : KeptEntries fs (fs.set k e) := by
  intro k' e' he'
  rw [lookup_set]
  by_cases h : k = k'
  · subst h
    rw [h0] at he'
    cases he'
    exact ⟨e, by simp, hd, ho⟩
  · exact ⟨e', by simp [h, he'], rfl, rfl⟩

theorem keptEntries_tick (fs : FS) : KeptEntries fs fs.tick := fun _ e h => ⟨e, h, rfl, rfl⟩

theorem keptEntries_addEntry (fs : FS) (n : Str) (d : Key) (pe e : Entry)
    (hn : fs.lookup (n :: d) = none) (hp : fs.lookup d = some pe) :
    KeptEntries fs (addEntry fs n d pe e) := by
  intro k e' he'
  rw [lookup_addEntry]
  by_cases h1 : n :: d = k
  · subst h1
    rw [hn] at he'
    exact absurd he' (by simp)
  · by_cases h2 : d = k
    · subst h2
      rw [hp] at he'
      cases he'
      exact ⟨{ pe with mtime := fs.clock }, by simp [h1], rfl, rfl⟩
    · exact ⟨e', by simp [h1, h2, he'], rfl, rfl⟩

theorem resolve_kept (fs fs' : FS) (hk : KeptEntries fs fs') (he : SameEnv fs fs') (p : Str)
    (k : Key) (h : resolve fs p = some k) : resolve fs' p = some k :=
  resolve_mono fs fs' hk.isDirAt_mono he p k h

theorem fits_env (fs fs' : FS) (he : SameEnv fs fs') (p : Str) (r : List Str) :
    fits fs' p r = fits fs p r := by
  induction r with
  | nil => rfl
  | cons c r ih => simp only [fits, ih, he.2.2.1, he.2.2.2.1]

theorem childPath_append (p : Str) (r : List Str) (c : Str) :
    childPath p (r ++ [c]) = childPath (p ++ pathSeparator :: c) r := by
  simp [childPath, List.foldr_append]

theorem fits_append (fs : FS) (p : Str) (r : List Str) (c : Str) :
    fits fs p (r ++ [c]) =
      (decide (c.length ≤ fs.nameMax) &&
        decide ((p ++ pathSeparator :: c).length ≤ fs.pathMax) &&
        fits fs (p ++ pathSeparator :: c) r) := by
  induction r with
  | nil => simp [fits, childPath]
  | cons x r ih =>
    rw [List.cons_append, fits, ih, ← List.cons_append, childPath_append, fits]
    cases decide (c.length ≤ fs.nameMax) <;>
      cases decide ((p ++ pathSeparator :: c).length ≤ fs.pathMax) <;> simp

/-- The names on the way from a location to an entry below it are valid names. -/
theorem valid_names_below (fs : FS) (hwf : fs.wf = true) (t : Key) (r : List Str) (e : Entry)
    (h : fs.lookup (r ++ t) = some e) : ∀ c ∈ r, validName c = true := by
  induction r generalizing e with
  | nil => simp
  | cons x r ih =>
    intro c hc
    have hp := wf_parent fs hwf x (r ++ t) e h
    rcases List.mem_cons.1 hc with h1 | h1
    · rw [h1]; exact hp.1
    · obtain ⟨e', he', _⟩ := (isDirAt_true_iff fs _).1 hp.2
      exact ih e' he' c h1

/-- An entry below a location stands in a directory at that location. -/
theorem isDirAt_above (fs : FS) (hwf : fs.wf = true) (t : Key) (r : List Str) (e : Entry)
    (hr : r ≠ []) (h : fs.lookup (r ++ t) = some e) : fs.isDirAt t = true := by
  by_contra hd
  have := lookup_below_none fs hwf t (by simpa using hd) r hr
  rw [this] at h
  exact absurd h (by simp)

theorem touches_refl (fs : FS) (hwf : fs.wf = true) (t : Key) : Touches fs fs t :=
  ⟨hwf, sameEnv_refl fs, keptEntries_refl fs, fun _ _ _ => rfl⟩

theorem Touches.andThen {a b c : FS} {t : Key} (h1 : Touches a b t) (h2 : Touches b c t) :
    Touches a c t :=
  ⟨h2.wf, sameEnv_trans h1.env h2.env, keptEntries_trans h1.kept h2.kept,
    fun k hk1 hk2 => (h2.frame k hk1 hk2).trans (h1.frame k hk1 hk2)⟩

theorem touches_set_same (fs : FS) (t : Key) (e e0 : Entry) (hwf : fs.wf = true)
    (h0 : fs.lookup t = some e0) (hd : e.isDir = e0.isDir) (ho : e.owned = e0.owned) :
    Touches fs (fs.set t e) t :=
  ⟨wf_set_same fs t e e0 hwf h0 hd, sameEnv_set fs t e, keptEntries_set_same fs t e e0 h0 hd ho,
    fun k hk _ => by simp [Ne.symm hk]⟩

theorem touches_tick (fs : FS) (hwf : fs.wf = true) (t : Key) : Touches fs fs.tick t :=
  ⟨by rw [wf_tick]; exact hwf, sameEnv_tick fs, keptEntries_tick fs, fun _ _ _ => rfl⟩

theorem touches_addEntry (fs : FS) (n : Str) (d : Key) (pe e : Entry) (hwf : fs.wf = true)
    (hn : fs.lookup (n :: d) = none) (hp : fs.lookup d = some pe) (hd : pe.isDir = true)
    (hv : validName n = true) : Touches fs (addEntry fs n d pe e) (n :: d) := by
  refine ⟨wf_addEntry fs n d pe e hwf hn hp hd hv, sameEnv_addEntry fs n d pe e,
    keptEntries_addEntry fs n d pe e hn hp, ?_⟩
  intro k hk1 hk2
  rw [lookup_addEntry]
  simp only [List.tail_cons] at hk2
  simp [Ne.symm hk1, Ne.symm hk2]

/-- The call `os.Mkdir` whose result is not looked at: whether it fails or not, only the
target location and its parent can have changed. -/
theorem touches_mkdir (fs : FS) (tgt : Str) (t : Key) (perm : Nat) (hwf : fs.wf = true)
    (htgt : resolve fs tgt = some t) :
    Touches fs (match osMkdir fs tgt perm with
      | some fs' => fs'
      | none => fs) t := by
  cases h : osMkdir fs tgt perm with
  | none => exact touches_refl fs hwf t
  | some fs1 =>
    obtain ⟨n, d, pe, hr, hn, hp, hd, hfs1⟩ := osMkdir_spec fs fs1 tgt perm h
    rw [htgt] at hr
    cases hr
    obtain ⟨n', d', hk, _, hv⟩ := resolve_target fs hwf tgt (n :: d) htgt hn
    cases hk
    simp only
    rw [hfs1]
    exact touches_addEntry fs n d pe _ hwf hn hp hd hv

theorem osChtimes_eq (fs : FS) (p : Str) (m : Nat) (t : Key) (e : Entry)
    (hr : resolve fs p = some t) (he : fs.lookup t = some e) :
    osChtimes fs p m = if e.owned = true then some (fs.set t { e with mtime := m }) else none := by
  rw [osChtimes, hr]
  simp only [he]

theorem osChmod_eq (fs : FS) (p : Str) (m : Nat) (t : Key) (e : Entry)
    (hr : resolve fs p = some t) (he : fs.lookup t = some e) :
    osChmod fs p m = if e.owned = true then some (fs.set t { e with mode := m }) else none := by
  rw [osChmod, hr]
  simp only [he]

/-- The function `mirrorMtimeAndMode` changes nothing when its path designates no entry,
or one whose attributes the user may not change. -/
theorem mirror_id (fs : FS) (p : Str) (info : FileInfo)
    (h : ∀ t e, resolve fs p = some t → fs.lookup t = some e → e.owned = false) :
    mirrorMtimeAndMode fs p info = fs := by
  have h1 : ∀ m, osChtimes fs p m = none := by
    intro m
    cases hr : resolve fs p with
    | none => rw [osChtimes, hr]
    | some t =>
      cases he : fs.lookup t with
      | none => rw [osChtimes, hr]; simp only [he]
      | some e => rw [osChtimes_eq fs p m t e hr he, h t e hr he]; rfl
  have h2 : ∀ m, osChmod fs p m = none := by
    intro m
    cases hr : resolve fs p with
    | none => rw [osChmod, hr]
    | some t =>
      cases he : fs.lookup t with
      | none => rw [osChmod, hr]; simp only [he]
      | some e => rw [osChmod_eq fs p m t e hr he, h t e hr he]; rfl
  rw [mirrorMtimeAndMode, h1]
  simp only [h2]

/-- The function `mirrorMtimeAndMode`: only the entry its path designates can change, and
when the user may change its attributes it gets the modification time and the mode
given. -/
theorem touches_mirror (fs : FS) (p : Str) (info : FileInfo) (t : Key) (hwf : fs.wf = true)
    (hr : resolve fs p = some t) :
    Touches fs (mirrorMtimeAndMode fs p info) t ∧
    (∀ k, k ≠ t → (mirrorMtimeAndMode fs p info).lookup k = fs.lookup k) ∧
    (∀ e', (mirrorMtimeAndMode fs p info).lookup t = some e' → e'.owned = true →
      e'.mtime = info.modTime ∧ e'.mode = info.mode) := by
  cases he : fs.lookup t with
  | none =>
    rw [mirror_id fs p info (fun t' e' hr' he' => by
      rw [hr] at hr'; cases hr'; rw [he] at he'; exact absurd he' (by simp))]
    refine ⟨touches_refl fs hwf t, fun _ _ => rfl, ?_⟩
    intro e' he'
    rw [he] at he'
    exact absurd he' (by simp)
  | some e =>
    by_cases ho : e.owned = true
    · rw [mirror_owned fs p info t e hr he ho]
      have t1 := touches_set_same fs t { e with mtime := info.modTime } e hwf he rfl rfl
      have t2 := touches_set_same (fs.set t { e with mtime := info.modTime }) t
        { e with mtime := info.modTime, mode := info.mode } { e with mtime := info.modTime }
        t1.wf (by simp) rfl rfl
      refine ⟨t1.andThen t2, ?_, ?_⟩
      · intro k hk
        simp [Ne.symm hk]
      · intro e' he' _
        simp only [lookup_set, if_true, Option.some.injEq] at he'
        rw [← he']
        exact ⟨rfl, rfl⟩
    · have ho' : e.owned = false := by simpa using ho
      rw [mirror_id fs p info (fun t' e' hr' he' => by
        rw [hr] at hr'; cases hr'; rw [he] at he'; cases he'; exact ho')]
      refine ⟨touches_refl fs hwf t, fun _ _ => rfl, ?_⟩
      intro e' he' ho2
      rw [he] at he'
      cases he'
      exact absurd ho2 ho

/-- A successful `os.Create` writes at the location its path designates. -/
theorem touches_create (fs fs1 : FS) (p : Str) (f : File) (t : Key) (hwf : fs.wf = true)
    (hr : resolve fs p = some t) (h : osCreate fs p = some (fs1, f)) :
    f.key = t ∧ Touches fs fs1 t ∧ ∃ e1, fs1.lookup t = some e1 ∧ e1.isDir = false := by
  obtain ⟨_, hres, hcr⟩ := osCreate_spec fs fs1 p f h
  rw [hr] at hres
  have hk : f.key = t := (Option.some.inj hres).symm
  rw [hk] at hcr
  refine ⟨hk, ?_⟩
  rcases hcr with ⟨e, he, hed, hfs1⟩ | ⟨n, d, pe, hkey, hn, hp, hd, hfs1⟩
  · rw [hfs1]
    have t1 := touches_set_same fs t { e with data := [], mtime := fs.clock } e hwf he rfl rfl
    exact ⟨t1.andThen (touches_tick _ t1.wf t), { e with data := [], mtime := fs.clock },
      by simp, hed⟩
  · obtain ⟨n', d', hk', _, hv⟩ := resolve_target fs hwf p t hr (by rw [hkey]; exact hn)
    rw [hkey] at hk'
    cases hk'
    rw [hfs1, hkey]
    exact ⟨touches_addEntry fs n d pe _ hwf hn hp hd hv,
      ⟨false, [], fs.clock, applyUmask 0o666 fs.umask, true⟩, by rw [lookup_addEntry]; simp,
      rfl⟩

/-- A successful `io.Copy` writes at the location of the target file. -/
theorem touches_copy (fs fs2 : FS) (dst src : File) (hwf : fs.wf = true)
    (h : ioCopy fs dst src = some fs2) : Touches fs fs2 dst.key := by
  obtain ⟨s, d, _, hd, _, _, hc⟩ := ioCopy_spec fs fs2 dst src h
  rcases hc with ⟨_, hfs2⟩ | ⟨_, hfs2⟩
  · rw [hfs2]; exact touches_refl fs hwf _
  · rw [hfs2]
    have t1 := touches_set_same fs dst.key
      { d with data := s.data ++ d.data.drop s.data.length, mtime := fs.clock } d hwf hd rfl rfl
    exact t1.andThen (touches_tick _ t1.wf _)

/-- The copy of a regular file. -/
theorem processFile_inv (fs fs' : FS) (src tgt : Str) (sf : File) (info : FileInfo)
    (s t : Key) (e : Entry) (hwf : fs.wf = true) (htgt : resolve fs tgt = some t)
    (he : fs.lookup s = some e) (hedir : e.isDir = false)
    (hinfo : info = ⟨e.isDir, e.mtime, e.mode⟩)
    (h : processFile fs src sf info tgt = .ok fs') : CopyInv fs fs' tgt s t := by
  unfold processFile at h
  cases hc : osCreate fs tgt with
  | none => rw [hc] at h; simp at h
  | some r =>
    obtain ⟨fs1, tf⟩ := r
    rw [hc] at h
    simp only at h
    cases hio : ioCopy fs1 tf sf with
    | none => rw [hio] at h; simp at h
    | some fs2 =>
      rw [hio] at h
      simp only [Outcome.ok.injEq] at h
      obtain ⟨hkey, t1, _⟩ := touches_create fs fs1 tgt tf t hwf htgt hc
      have t2 := touches_copy fs1 fs2 tf sf t1.wf hio
      rw [hkey] at t2
      have t12 := t1.andThen t2
      have htgt2 := resolve_kept fs fs2 t12.kept t12.env tgt t htgt
      obtain ⟨t3, _, hm⟩ := touches_mirror fs2 tgt info t t12.wf htgt2
      rw [h] at t3 hm
      have t123 := t12.andThen t3
      refine ⟨t123.wf, t123.env, t123.kept, ?_, ?_⟩
      · intro k hk1 hk2
        exact t123.frame k (fun h1 => hk1 (h1 ▸ List.suffix_refl _)) hk2
      · intro r e0 e' hs _ ht ho
        rcases List.eq_nil_or_concat r with hr | ⟨r', c, hr⟩
        · subst hr
          simp only [List.nil_append] at hs ht
          rw [he] at hs
          cases hs
          have := hm e' ht ho
          rw [hinfo] at this
          exact this
        · subst hr
          have hsd : fs.isDirAt s = true :=
            isDirAt_above fs hwf s (r'.concat c) e0 (by simp) hs
          simp [Savefile.isDirAt_eq, he, hedir] at hsd

theorem osOpen_spec (fs : FS) (p : Str) (f : File) (h : osOpen fs p = some f) :
    ∃ e, f.name = p ∧ resolve fs p = some f.key ∧ fs.lookup f.key = some e := by
  unfold osOpen at h
  cases hr : resolve fs p with
  | none => rw [hr] at h; simp at h
  | some k =>
    rw [hr] at h
    simp only at h
    cases he : fs.lookup k with
    | none => rw [he] at h; simp at h
    | some e =>
      rw [he] at h
      simp only [Option.isSome_some, if_true, Option.some.injEq] at h
      rw [← h]
      exact ⟨e, rfl, rfl, he⟩

/-- A call of `processEntry` that returns has found an entry at its source path. -/
theorem processEntry_ok_source (fuel : Nat) (fs : FS) (src tgt : Str) (fs' : FS)
    (h : processEntry fuel fs src tgt = .ok fs') :
    ∃ k e, resolve fs src = some k ∧ fs.lookup k = some e := by
  cases fuel with
  | zero => simp [processEntry] at h
  | succ fuel =>
    rw [processEntry] at h
    cases ho : osOpen fs src with
    | none => rw [ho] at h; simp at h
    | some sf =>
      obtain ⟨e, _, hr, he⟩ := osOpen_spec fs src sf ho
      exact ⟨sf.key, e, hr, he⟩

theorem fileReadDir_spec (fs : FS) (f : File) (childs : List Str) (hwf : fs.wf = true)
    (h : fileReadDir fs f = some childs) :
    fs.isDirAt f.key = true ∧ childs = childNames fs.entries f.key ∧
      ∀ c ∈ childs, validName c = true ∧ ∃ ec, fs.lookup (c :: f.key) = some ec := by
  unfold fileReadDir at h
  by_cases hd : fs.isDirAt f.key = true
  · rw [if_pos hd] at h
    have hc : childs = childNames fs.entries f.key := (Option.some.inj h).symm
    refine ⟨hd, hc, ?_⟩
    intro c hcm
    rw [hc, mem_childNames, mem_keys_iff] at hcm
    obtain ⟨ec, hec⟩ := Option.isSome_iff_exists.1 hcm
    exact ⟨(wf_parent fs hwf c f.key ec hec).1, ec, hec⟩
  · rw [if_neg hd] at h
    exact absurd h (by simp)

theorem final_ok {σ : Type} (o : Outcome σ) (s : σ) (h : o = .ok s) : o.final = some s := by
  rw [h]; rfl

/-- The loop of `diveDirectory` when the target path designates nothing: nothing is
written, however the loop ends. -/
theorem diveLoop_no_target (pe : FS → Str → Str → Outcome FS) (src tgt : Str) (fs : FS)
    (IH : ∀ (src' tgt' : Str) (fs' : FS), tgt' ≠ [] → resolve fs tgt' = none →
      (pe fs src' tgt').final = some fs' → fs' = fs)
    (hne : tgt ≠ []) (htgt : resolve fs tgt = none) (childs : List Str)
    (hv : ∀ c ∈ childs, validName c = true) (fs2 : FS)
    (h : (diveLoop pe src tgt childs fs).final = some fs2) : fs2 = fs := by
  induction childs with
  | nil =>
    simp only [diveLoop, Outcome.final, Option.some.injEq] at h
    exact h.symm
  | cons c rest ih =>
    rw [diveLoop] at h
    have hc := IH (src ++ pathSeparator :: c) (tgt ++ pathSeparator :: c)
    cases hpe : pe fs (src ++ pathSeparator :: c) (tgt ++ pathSeparator :: c) with
    | panic fs1 e =>
      rw [hpe] at h hc
      simp only [Outcome.final, Option.some.injEq] at h
      rw [← h]
      exact hc fs1 (by simp) (resolve_child_none fs tgt c hne htgt (hv c (by simp))) rfl
    | fuelOut => rw [hpe] at h; simp [Outcome.final] at h
    | ok fs1 =>
      rw [hpe] at h hc
      simp only at h
      have h1 : fs1 = fs := hc fs1 (by simp)
        (resolve_child_none fs tgt c hne htgt (hv c (by simp))) rfl
      rw [h1] at h
      exact ih (fun c' hc' => hv c' (List.mem_cons_of_mem _ hc')) h

theorem osMkdir_none (fs : FS) (p : Str) (perm : Nat) (h : resolve fs p = none) :
    osMkdir fs p perm = none := by
  rw [osMkdir, h]

theorem osCreate_none (fs : FS) (p : Str) (h : resolve fs p = none) : osCreate fs p = none := by
  rw [osCreate, h]

/-- A call of `processEntry` whose target path designates nothing writes nothing, however
it ends. -/
theorem processEntry_no_target : ∀ (fuel : Nat) (fs : FS) (src tgt : Str) (fs' : FS),
    fs.wf = true → tgt ≠ [] → resolve fs tgt = none →
    (processEntry fuel fs src tgt).final = some fs' → fs' = fs := by
  intro fuel
  induction fuel with
  | zero =>
    intro fs src tgt fs' _ _ _ h
    simp [processEntry, Outcome.final] at h
  | succ fuel ih =>
    intro fs src tgt fs' hwf hne htgt h
    rw [processEntry] at h
    cases ho : osOpen fs src with
    | none =>
      rw [ho] at h
      simp only [Outcome.final, Option.some.injEq] at h
      exact h.symm
    | some sf =>
      rw [ho] at h
      simp only at h
      cases hst : fileStat fs sf with
      | none =>
        rw [hst] at h
        simp only [Outcome.final, Option.some.injEq] at h
        exact h.symm
      | some info =>
        rw [hst] at h
        simp only at h
        have hmir : ∀ fs0 : FS, fs0 = fs → mirrorMtimeAndMode fs0 tgt info = fs := by
          intro fs0 h0
          rw [h0]
          exact mirror_id fs tgt info (fun t e hr _ => by rw [htgt] at hr; exact absurd hr (by simp))
        by_cases hd : info.isDir = true
        · rw [if_pos hd] at h
          unfold processDirectory at h
          rw [osMkdir_none fs tgt _ htgt] at h
          simp only at h
          unfold diveDirectory at h
          cases hrd : fileReadDir fs sf with
          | none =>
            rw [hrd] at h
            simp only [Outcome.final, Option.some.injEq] at h
            rw [← h]
            exact hmir fs rfl
          | some childs =>
            rw [hrd] at h
            simp only at h
            obtain ⟨_, _, hv⟩ := fileReadDir_spec fs sf childs hwf hrd
            have hloop := diveLoop_no_target (processEntry fuel) sf.name tgt fs
                (fun src' tgt' fs' h1 h2 h3 => ih fs src' tgt' fs' hwf h1 h2 h3)
                hne htgt childs (fun c hc => (hv c hc).1)
            cases hl : diveLoop (processEntry fuel) sf.name tgt childs fs with
            | panic fs2 e =>
              rw [hl] at h hloop
              simp only [Outcome.final, Option.some.injEq] at h
              rw [← h]
              exact hmir fs2 (hloop fs2 rfl)
            | fuelOut => rw [hl] at h; simp [Outcome.final] at h
            | ok fs2 =>
              rw [hl] at h hloop
              simp only [Outcome.final, Option.some.injEq] at h
              rw [← h]
              exact hmir fs2 (hloop fs2 rfl)
        · rw [if_neg hd] at h
          unfold processFile at h
          rw [osCreate_none fs tgt htgt] at h
          simp only [Outcome.final, Option.some.injEq] at h
          exact h.symm

/-- One more child processed: the invariant of the loop is kept. -/
theorem diveInv_step (fuel : Nat)
    (IH : ∀ (fs : FS) (src tgt : Str) (s t : Key) (fs' : FS), fs.wf = true →
      resolve fs src = some s → resolve fs tgt = some t → ¬ s <:+ t → ¬ t <:+ s →
      processEntry fuel fs src tgt = .ok fs' → CopyInv fs fs' tgt s t)
    (fs1 fsi fs2 : FS) (src tgt : Str) (s t : Key) (done : List Str) (c : Str)
    (hsrc : resolve fs1 src = some s) (htgt : resolve fs1 tgt = some t)
    (hst : ¬ s <:+ t) (hts : ¬ t <:+ s) (inv : DiveInv fs1 fsi tgt s t done)
    (hc : validName c = true)
    (hpe : processEntry fuel fsi (src ++ pathSeparator :: c) (tgt ++ pathSeparator :: c) =
      .ok fs2) :
    DiveInv fs1 fs2 tgt s t (done ++ [c]) := by
  have hsrci := resolve_kept fs1 fsi inv.kept inv.env src s hsrc
  have htgti := resolve_kept fs1 fsi inv.kept inv.env tgt t htgt
  -- the source path of the child designates the child
  have hsrcc : resolve fsi (src ++ pathSeparator :: c) = some (c :: s) := by
    obtain ⟨k, ek, hk, _⟩ := processEntry_ok_source fuel fsi _ _ fs2 hpe
    rw [resolve_child_eq fsi src s c hsrci hc] at hk ⊢
    split at hk
    · rename_i hcond
      rw [if_pos hcond]
    · exact absurd hk (by simp)
  have htc := resolve_child_eq fsi tgt t c htgti hc
  by_cases hcond : (tgt ++ pathSeparator :: c).length ≤ fsi.pathMax ∧ fsi.isDirAt t = true ∧
      c.length ≤ fsi.nameMax
  · rw [if_pos hcond] at htc
    have hci := IH fsi _ _ (c :: s) (c :: t) fs2 inv.wf hsrcc htc (not_suffix_child s t c hst)
      (not_suffix_child t s c hts) hpe
    have hframe : ∀ k, ¬ (c :: t) <:+ k → k ≠ t → fs2.lookup k = fsi.lookup k :=
      fun k h1 h2 => hci.frame k h1 h2
    refine ⟨hci.wf, sameEnv_trans inv.env hci.env, keptEntries_trans inv.kept hci.kept, ?_, ?_⟩
    · intro k hk
      rw [hframe k (fun h1 => hk ((List.suffix_cons c t).trans h1))
        (fun h2 => hk (h2 ▸ List.suffix_refl _))]
      exact inv.outside k hk
    · intro c' hc' r e e' hs hfit ht ho
      by_cases hcc : c' = c
      · subst hcc
        have hs' : fsi.lookup (r ++ c' :: s) = some e := by
          rw [inv.outside (r ++ c' :: s) (by
            have := not_suffix_below s t (r ++ [c']) hst hts
            simpa using this)]
          exact hs
        have hfit' : fits fsi (tgt ++ pathSeparator :: c') r = true := by
          rw [fits_append] at hfit
          simp only [Bool.and_eq_true] at hfit
          rw [fits_env fs1 fsi inv.env]
          exact hfit.2
        exact hci.mirrored r e e' hs' hfit' ht ho
      · have hdone : c' ∈ done := by
          rcases List.mem_append.1 hc' with h1 | h1
          · exact h1
          · exact absurd (List.mem_singleton.1 h1) hcc
        rw [hframe _ (not_suffix_sibling t c c' r (Ne.symm hcc)) (append_cons_ne t c' r)] at ht
        exact inv.mirrored c' hdone r e e' hs hfit ht ho
  · rw [if_neg hcond] at htc
    have h2 : fs2 = fsi := processEntry_no_target fuel fsi _ _ fs2 inv.wf (by simp) htc
      (final_ok _ _ hpe)
    rw [h2]
    refine ⟨inv.wf, inv.env, inv.kept, inv.outside, ?_⟩
    intro c' hc' r e e' hs hfit ht ho
    rcases List.mem_append.1 hc' with h1 | h1
    · exact inv.mirrored c' h1 r e e' hs hfit ht ho
    · have hcc : c' = c := List.mem_singleton.1 h1
      subst hcc
      rw [fits_append] at hfit
      simp only [Bool.and_eq_true, decide_eq_true_eq] at hfit
      have hnd : fsi.isDirAt t = false := by
        by_contra hd
        apply hcond
        refine ⟨?_, by simpa using hd, ?_⟩
        · rw [inv.env.2.2.2.1]; exact hfit.1.2
        · rw [inv.env.2.2.1]; exact hfit.1.1
      have := lookup_below_none fsi inv.wf t hnd (r ++ [c']) (by simp)
      rw [List.append_assoc, List.singleton_append] at this
      rw [this] at ht
      exact absurd ht (by simp)

/-- The loop of `diveDirectory`, given what the recursive calls do. -/
theorem diveLoop_inv (fuel : Nat)
    (IH : ∀ (fs : FS) (src tgt : Str) (s t : Key) (fs' : FS), fs.wf = true →
      resolve fs src = some s → resolve fs tgt = some t → ¬ s <:+ t → ¬ t <:+ s →
      processEntry fuel fs src tgt = .ok fs' → CopyInv fs fs' tgt s t)
    (fs1 : FS) (src tgt : Str) (s t : Key)
    (hsrc : resolve fs1 src = some s) (htgt : resolve fs1 tgt = some t)
    (hst : ¬ s <:+ t) (hts : ¬ t <:+ s) (rest : List Str) :
    ∀ (done : List Str) (fsi fsn : FS), DiveInv fs1 fsi tgt s t done →
      (∀ c ∈ rest, validName c = true) →
      diveLoop (processEntry fuel) src tgt rest fsi = .ok fsn →
      DiveInv fs1 fsn tgt s t (done ++ rest) := by
  induction rest with
  | nil =>
    intro done fsi fsn inv _ h
    simp only [diveLoop, Outcome.ok.injEq] at h
    subst h
    simpa using inv
  | cons c rest ihl =>
    intro done fsi fsn inv hvalid h
    rw [diveLoop] at h
    cases hpe : processEntry fuel fsi (src ++ pathSeparator :: c) (tgt ++ pathSeparator :: c) with
    | panic fs2 e => rw [hpe] at h; simp at h
    | fuelOut => rw [hpe] at h; simp at h
    | ok fs2 =>
      rw [hpe] at h
      simp only at h
      have inv2 := diveInv_step fuel IH fs1 fsi fs2 src tgt s t done c hsrc htgt hst hts inv
        (hvalid c (by simp)) hpe
      have := ihl (done ++ [c]) fs2 fsn inv2
        (fun c' hc' => hvalid c' (List.mem_cons_of_mem _ hc')) h
      simpa using this

theorem fileStat_spec (fs : FS) (f : File) (e : Entry) (info : FileInfo)
    (he : fs.lookup f.key = some e) (h : fileStat fs f = some info) :
    info = ⟨e.isDir, e.mtime, e.mode⟩ := by
  unfold fileStat at h
  rw [he] at h
  exact (Option.some.inj h).symm

/-- The copy of a directory. -/
theorem processDirectory_inv (fuel : Nat)
    (IH : ∀ (fs : FS) (src tgt : Str) (s t : Key) (fs' : FS), fs.wf = true →
      resolve fs src = some s → resolve fs tgt = some t → ¬ s <:+ t → ¬ t <:+ s →
      processEntry fuel fs src tgt = .ok fs' → CopyInv fs fs' tgt s t)
    (fs fs' : FS) (src tgt : Str) (s t : Key) (e : Entry)
    (hwf : fs.wf = true) (hsrc : resolve fs src = some s) (htgt : resolve fs tgt = some t)
    (hst : ¬ s <:+ t) (hts : ¬ t <:+ s) (he : fs.lookup s = some e)
    (h : processDirectory (processEntry fuel) fs src ⟨src, s⟩ ⟨e.isDir, e.mtime, e.mode⟩ tgt =
      .ok fs') :
    CopyInv fs fs' tgt s t := by
  unfold processDirectory at h
  have T1 := touches_mkdir fs tgt t 0o777 hwf htgt
  generalize (match osMkdir fs tgt 0o777 with
    | some fs' => fs'
    | none => fs) = fs1 at h T1
  simp only at h
  unfold diveDirectory at h
  cases hrd : fileReadDir fs1 ⟨src, s⟩ with
  | none => rw [hrd] at h; simp at h
  | some childs =>
    rw [hrd] at h
    simp only at h
    obtain ⟨_, hchilds, hv⟩ := fileReadDir_spec fs1 ⟨src, s⟩ childs T1.wf hrd
    simp only at hchilds hv
    cases hloop : diveLoop (processEntry fuel) src tgt childs fs1 with
    | panic fs2 e2 => rw [hloop] at h; simp at h
    | fuelOut => rw [hloop] at h; simp at h
    | ok fs2 =>
      rw [hloop] at h
      simp only [Outcome.ok.injEq] at h
      have hsrc1 := resolve_kept fs fs1 T1.kept T1.env src s hsrc
      have htgt1 := resolve_kept fs fs1 T1.kept T1.env tgt t htgt
      have inv0 : DiveInv fs1 fs1 tgt s t [] :=
        ⟨T1.wf, sameEnv_refl fs1, keptEntries_refl fs1, fun _ _ => rfl, by simp⟩
      have inv := diveLoop_inv fuel IH fs1 src tgt s t hsrc1 htgt1 hst hts childs [] fs1 fs2
        inv0 (fun c hc => (hv c hc).1) hloop
      simp only [List.nil_append] at inv
      have htgt2 := resolve_kept fs1 fs2 inv.kept inv.env tgt t htgt1
      obtain ⟨T3, hother, hm⟩ := touches_mirror fs2 tgt ⟨e.isDir, e.mtime, e.mode⟩ t inv.wf htgt2
      rw [h] at T3 hother hm
      refine ⟨T3.wf, sameEnv_trans (sameEnv_trans T1.env inv.env) T3.env,
        keptEntries_trans (keptEntries_trans T1.kept inv.kept) T3.kept, ?_, ?_⟩
      · intro k hk1 hk2
        have hk3 : k ≠ t := fun h3 => hk1 (h3 ▸ List.suffix_refl _)
        rw [hother k hk3, inv.outside k hk1, T1.frame k hk3 hk2]
      · intro r e0 e' hs hfit ht ho
        rcases List.eq_nil_or_concat r with hr | ⟨r', c, hr⟩
        · subst hr
          simp only [List.nil_append] at hs ht
          rw [he] at hs
          cases hs
          exact hm e' ht ho
        · subst hr
          simp only [List.concat_eq_append, List.append_assoc, List.singleton_append] at hs ht
          rw [List.concat_eq_append] at hfit
          rw [hother _ (append_cons_ne t c r')] at ht
          have hs1 : fs1.lookup (r' ++ c :: s) = some e0 := by
            rw [T1.frame]
            · exact hs
            · intro h1
              apply hst
              rw [← h1]
              have : s <:+ (r' ++ [c]) ++ s := List.suffix_append _ _
              simpa using this
            · have := below_ne_tail s t (r' ++ [c]) hst
              simpa using this
          have hcs : ∃ ec, fs1.lookup (c :: s) = some ec := by
            by_cases hr' : r' = []
            · subst hr'
              exact ⟨e0, hs1⟩
            · have := isDirAt_above fs1 T1.wf (c :: s) r' e0 hr' hs1
              obtain ⟨ec, hec, _⟩ := (isDirAt_true_iff fs1 _).1 this
              exact ⟨ec, hec⟩
          have hc : c ∈ childs := by
            rw [hchilds, mem_childNames, mem_keys_iff]
            obtain ⟨ec, hec⟩ := hcs
            exact Option.isSome_iff_exists.2 ⟨ec, hec⟩
          have hfit1 : fits fs1 tgt (r' ++ [c]) = true := by
            rw [fits_env fs fs1 T1.env]; exact hfit
          exact inv.mirrored c hc r' e0 e' hs1 hfit1 ht ho

/-- What a call of `processEntry` that returns normally has done, for a source and a target
that designate locations of which neither lies under the other. -/
theorem processEntry_inv : ∀ (fuel : Nat) (fs : FS) (src tgt : Str) (s t : Key) (fs' : FS),
    fs.wf = true → resolve fs src = some s → resolve fs tgt = some t → ¬ s <:+ t →
    ¬ t <:+ s → processEntry fuel fs src tgt = .ok fs' → CopyInv fs fs' tgt s t := by
  intro fuel
  induction fuel with
  | zero =>
    intro fs src tgt s t fs' _ _ _ _ _ h
    simp [processEntry] at h
  | succ fuel ih =>
    intro fs src tgt s t fs' hwf hsrc htgt hst hts h
    rw [processEntry] at h
    cases ho : osOpen fs src with
    | none => rw [ho] at h; simp at h
    | some sf =>
      rw [ho] at h
      simp only at h
      obtain ⟨e, hname, hr, he⟩ := osOpen_spec fs src sf ho
      rw [hsrc] at hr
      have hkey : sf.key = s := (Option.some.inj hr).symm
      have hsf : sf = ⟨src, s⟩ := by
        cases sf
        simp only at hname hkey
        rw [hname, hkey]
      rw [hkey] at he
      subst hsf
      cases hstat : fileStat fs ⟨src, s⟩ with
      | none => rw [hstat] at h; simp at h
      | some info =>
        rw [hstat] at h
        simp only at h
        have hinfo := fileStat_spec fs ⟨src, s⟩ e info he hstat
        by_cases hd : info.isDir = true
        · rw [if_pos hd] at h
          rw [hinfo] at h
          exact processDirectory_inv fuel ih fs fs' src tgt s t e hwf hsrc htgt hst hts he h
        · rw [if_neg hd] at h
          have hedir : e.isDir = false := by
            rw [hinfo] at hd
            simpa using hd
          exact processFile_inv fs fs' src tgt ⟨src, s⟩ info s t e hwf htgt he hedir hinfo h

theorem childPath_ne_nil (p : Str) (r : List Str) (hp : p ≠ []) : childPath p r ≠ [] := by
  cases r with
  | nil => exact hp
  | cons c r => simp [childPath]

theorem childPath_length_le (p : Str) (c : Str) (r : List Str) :
    (childPath p r).length ≤ (childPath p (c :: r)).length := by
  simp [childPath]

/-- A path `p/r` that designates a location is within the limits of length. -/
theorem fits_of_resolve (fs : FS) (p : Str) (hp : p ≠ []) (r : List Str)
    (hv : ∀ c ∈ r, validName c = true) :
    ∀ k, resolve fs (childPath p r) = some k → fits fs p r = true := by
  induction r with
  | nil => intro _ _; rfl
  | cons c r ih =>
    intro k hk
    have hc : validName c = true := hv c (by simp)
    have hX := childPath_ne_nil p r hp
    have hcp : childPath p (c :: r) = childPath p r ++ pathSeparator :: c := rfl
    obtain ⟨_, hlen, d, hd, hw⟩ := (resolve_iff fs _ k).1 hk
    rw [hcp, startKey_append fs _ _ hX] at hd
    rw [hcp, splitSep_child _ c hc, walk_append] at hw
    cases hw1 : walk fs d (splitSep (childPath p r)) with
    | none => rw [hw1] at hw; simp at hw
    | some k1 =>
      rw [hw1] at hw
      simp only [Option.some_bind] at hw
      rw [walk_name fs k1 c hc] at hw
      have hn : c.length ≤ fs.nameMax := by
        by_contra hn
        rw [if_neg (fun h => hn h.2)] at hw
        exact absurd hw (by simp)
      have hres : resolve fs (childPath p r) = some k1 := by
        rw [resolve_iff]
        refine ⟨hX, ?_, d, hd, hw1⟩
        have := childPath_length_le p c r
        omega
      have := ih (fun c' hc' => hv c' (List.mem_cons_of_mem _ hc')) k1 hres
      simp only [fits, this, Bool.true_and, Bool.and_eq_true, decide_eq_true_eq]
      exact ⟨hn, hlen⟩

/-- The copy of a regular file, whatever the target location is: the target is the source
itself or a location that is not above the source. -/
theorem processEntry_file (fuel : Nat) (fs fs' : FS) (src tgt : Str) (s t : Key) (e : Entry)
    (hwf : fs.wf = true) (hsrc : resolve fs src = some s) (htgt : resolve fs tgt = some t)
    (he : fs.lookup s = some e) (hedir : e.isDir = false)
    (h : processEntry fuel fs src tgt = .ok fs') :
    CopyInv fs fs' tgt s t ∧ (s = t ∨ (¬ t <:+ s ∧ s ≠ t.tail)) := by
  cases fuel with
  | zero => simp [processEntry] at h
  | succ fuel =>
    rw [processEntry] at h
    cases ho : osOpen fs src with
    | none => rw [ho] at h; simp at h
    | some sf =>
      rw [ho] at h
      simp only at h
      obtain ⟨e0, _, hr, he0⟩ := osOpen_spec fs src sf ho
      rw [hsrc] at hr
      have hkey : sf.key = s := (Option.some.inj hr).symm
      rw [hkey, he] at he0
      cases hstat : fileStat fs sf with
      | none => rw [hstat] at h; simp at h
      | some info =>
        rw [hstat] at h
        simp only at h
        have hinfo := fileStat_spec fs sf e info (by rw [hkey]; exact he) hstat
        have hd : ¬ info.isDir = true := by rw [hinfo]; simp [hedir]
        rw [if_neg hd] at h
        refine ⟨processFile_inv fs fs' src tgt sf info s t e hwf htgt he hedir hinfo h, ?_⟩
        by_cases hst : s = t
        · exact Or.inl hst
        · right
          -- the target is a regular file after `os.Create`, so it was no directory before
          have htfile : fs.isDirAt t = false := by
            unfold processFile at h
            cases hc : osCreate fs tgt with
            | none => rw [hc] at h; simp at h
            | some r =>
              obtain ⟨fs1, tf⟩ := r
              obtain ⟨_, t1, e1, he1, he1d⟩ := touches_create fs fs1 tgt tf t hwf htgt hc
              by_contra hdir
              have hdir' : fs1.isDirAt t = true := t1.kept.isDirAt_mono t (by simpa using hdir)
              simp [isDirAt_eq, he1, he1d] at hdir'
          constructor
          · rintro ⟨r, hr⟩
            have hrne : r ≠ [] := by
              intro h0; rw [h0] at hr; exact hst hr.symm
            have := isDirAt_above fs hwf t r e hrne (by rw [hr]; exact he)
            rw [htfile] at this
            exact absurd this (by simp)
          · intro hs
            unfold processFile at h
            cases hc : osCreate fs tgt with
            | none => rw [hc] at h; simp at h
            | some r =>
              obtain ⟨fs1, tf⟩ := r
              obtain ⟨_, t1, e1, he1, _⟩ := touches_create fs fs1 tgt tf t hwf htgt hc
              cases t with
              | nil => exact hst hs
              | cons x d =>
                simp only [List.tail_cons] at hs
                have hp := (wf_parent fs1 t1.wf x d e1 he1).2
                obtain ⟨e2, he2, he2d, _⟩ := t1.kept s e he
                simp [← hs, isDirAt_eq, he2, he2d, hedir] at hp

/-- C7 (amended): in a well-formed filesystem, for a source that is a regular file, or a
directory such that neither it nor the target location lies under the other, after
`processEntry` has returned normally every entry under the target, at every depth, file or
directory, that stands where the source has an entry, that the target path followed by the
names of that entry designates, and on which `os.Chtimes` and `os.Chmod` succeed (`owned`),
has the modification time and the mode of that source entry, which are after the run what
they were before it. -/
theorem C7_metadata_mirrored (fuel : Nat) (fs fs' : FS) (src tgt : Str) (s t : Key)
    (hwf : fs.wf = true) (hsrc : resolve fs src = some s) (htgt : resolve fs tgt = some t)
    (hdis : fs.isDirAt s = true → ¬ s <:+ t ∧ ¬ t <:+ s)
    (h : processEntry fuel fs src tgt = .ok fs') :
    ∀ (r : List Str) (e e' : Entry), fs.lookup (r ++ s) = some e →
      resolve fs' (childPath tgt r) = some (r ++ t) → fs'.lookup (r ++ t) = some e' →
      e'.owned = true →
      e'.mtime = e.mtime ∧ e'.mode = e.mode ∧
        ∃ e2, fs'.lookup (r ++ s) = some e2 ∧ e2.mtime = e.mtime ∧ e2.mode = e.mode := by
  intro r e e' hs hres ht ho
  by_cases hd : fs.isDirAt s = true
  · obtain ⟨hst, hts⟩ := hdis hd
    have inv := processEntry_inv fuel fs src tgt s t fs' hwf hsrc htgt hst hts h
    have hfit' := fits_of_resolve fs' tgt (resolve_ne_nil fs tgt t htgt) r
      (valid_names_below fs hwf s r e hs) _ hres
    have hfit : fits fs tgt r = true := by
      rw [← fits_env fs fs' inv.env]; exact hfit'
    obtain ⟨h1, h2⟩ := inv.mirrored r e e' hs hfit ht ho
    refine ⟨h1, h2, e, ?_, rfl, rfl⟩
    rw [inv.frame (r ++ s) (not_suffix_below s t r hst hts) (below_ne_tail s t r hst)]
    exact hs
  · have hr : r = [] := by
      by_contra hr
      exact hd (isDirAt_above fs hwf s r e hr hs)
    subst hr
    simp only [List.nil_append] at hs ht ⊢
    have hedir : e.isDir = false := by
      simpa [isDirAt_eq, hs] using hd
    obtain ⟨inv, hcase⟩ := processEntry_file fuel fs fs' src tgt s t e hwf hsrc htgt hs hedir h
    obtain ⟨h1, h2⟩ := inv.mirrored [] e e' hs rfl ht ho
    refine ⟨h1, h2, ?_⟩
    rcases hcase with hst | ⟨hts, hne⟩
    · rw [hst]
      exact ⟨e', ht, h1, h2⟩
    · rw [inv.frame s hts hne]
      exact ⟨e, hs, rfl, rfl⟩

/-- Witness of C7 (amended): the tree `/proj` copied to the absent `/backup`; the directory
`/backup/sub` has the modification time 7 and the mode `0700` of `/proj/sub`. -/
theorem C7_metadata_mirrored_witness :
    exFs.wf = true ∧
    processEntry 3 exFs "/proj".toList "/backup".toList = .ok exBackup ∧
    exFs.lookup (["sub".toList] ++ ["proj".toList]) = some ⟨true, [], 7, 0o700, true⟩ ∧
    exBackup.lookup (["sub".toList] ++ ["backup".toList]) = some ⟨true, [], 7, 0o700, true⟩ ∧
    ((⟨true, [], 7, 0o700, true⟩ : Entry).mtime = (⟨true, [], 7, 0o700, true⟩ : Entry).mtime ∧
      (⟨true, [], 7, 0o700, true⟩ : Entry).mode = (⟨true, [], 7, 0o700, true⟩ : Entry).mode ∧
      ∃ e2, exBackup.lookup (["sub".toList] ++ ["proj".toList]) = some e2 ∧
        e2.mtime = (⟨true, [], 7, 0o700, true⟩ : Entry).mtime ∧
        e2.mode = (⟨true, [], 7, 0o700, true⟩ : Entry).mode) :=
  ⟨by decide, by decide, by decide, by decide,
    C7_metadata_mirrored 3 exFs exBackup "/proj".toList "/backup".toList
      ["proj".toList] ["backup".toList] (by decide) (by decide) (by decide)
      (fun _ => ⟨by decide, by decide⟩) (by decide) ["sub".toList] ⟨true, [], 7, 0o700, true⟩
      ⟨true, [], 7, 0o700, true⟩ (by decide) (by decide) (by decide) rfl⟩

/-- C7 as stated fails: `/proj/a.txt` (modification time 5, mode `0644`) is copied over
`/old.txt`, a file of another user: `os.Chtimes` and `os.Chmod` fail, the run goes on and
`processEntry` returns normally; the target is left with the time of the copy, 101, and its
old mode `0666`. -/
theorem C7_counterexample :
    processEntry 1 exFs "/proj/a.txt".toList "/old.txt".toList = .ok exOverwritten ∧
    resolve exFs "/proj/a.txt".toList = some ["a.txt".toList, "proj".toList] ∧
    resolve exFs "/old.txt".toList = some ["old.txt".toList] ∧
    exFs.lookup ["old.txt".toList] = some ⟨false, [111, 108, 100], 2, 0o666, false⟩ ∧
    exOverwritten.lookup ["a.txt".toList, "proj".toList] =
      some ⟨false, [104, 101, 108, 108, 111], 5, 0o644, true⟩ ∧
    exOverwritten.lookup ["old.txt".toList] =
      some ⟨false, [104, 101, 108, 108, 111], 101, 0o666, false⟩ := by
  refine ⟨by decide, by decide, by decide, by decide, by decide, by decide⟩

/-- Runs that return normally only because the result of `os.Mkdir` is not looked at, and
leave target entries that do not mirror their source.  First, `/t/s` is copied to `/t`,
above it: `os.Mkdir` fails on the existing `/t` and `/t/s`; the target `/t` gets the time
21 and the mode `0700` that `/t/s` had, and `/t/s`, which is also the target of its own
child, ends with 22 and `0711`.  Second, `/empty` is copied to `/empty/x`, inside it, on a
system where `os.Mkdir` refuses the path of the fourth level: the target `/empty/x` gets
the time 8 of `/empty`, which the creation of the target has stamped with 100.  Third,
`/a` is copied to `/bb` where `/bb/longname` exists and its path is longer than the system
accepts: `os.Mkdir` and the mirroring fail on it, and the entry keeps its time 31 and mode
`0755` while `/a/longname` has 21 and `0700`. -/
theorem unchecked_mkdir_examples :
    (processEntry 2 exInside "/t/s".toList "/t".toList = .ok exInsideAfter ∧
      exInsideAfter.lookup ["t".toList] = some ⟨true, [], 21, 0o700, true⟩ ∧
      exInsideAfter.lookup ["s".toList, "t".toList] = some ⟨true, [], 22, 0o711, true⟩) ∧
    (processEntry 3 exNested "/empty".toList "/empty/x".toList = .ok exNestedAfter ∧
      exNestedAfter.lookup ["x".toList, "empty".toList] = some ⟨true, [], 8, 0o711, true⟩ ∧
      exNestedAfter.lookup ["empty".toList] = some ⟨true, [], 100, 0o711, true⟩) ∧
    (processEntry 2 exLong "/a".toList "/bb".toList = .ok exLongAfter ∧
      exLongAfter.lookup ["longname".toList, "a".toList] = some ⟨true, [], 21, 0o700, true⟩ ∧
      exLongAfter.lookup ["longname".toList, "bb".toList] =
        some ⟨true, [], 31, 0o755, true⟩) := by
  refine ⟨⟨by decide, by decide, by decide⟩, ⟨by decide, by decide, by decide⟩,
    ⟨by decide, by decide, by decide⟩⟩

/-- C5 fails on the code.  The directory `/empty` is saved while a directory with the name
of its backup exists and holds `stale.txt`: `os.Mkdir` fails, its result is not looked at,
`SaveFile` returns normally, and the target holds the relative path `stale.txt`, which the
source does not hold.  The same directory is saved when the root directory takes no new
entry: `os.Mkdir` fails on the absent target, `SaveFile` returns normally and there is no
target at all.  And `/empty` copied to the existing directory `/proj` leaves `a.txt` and
`sub/b.log` under the target. -/
theorem C5_mkdir_result_dropped :
    (SaveFile exEnv 1 ⟨exStale, none⟩ "/empty".toList = .ok exStaleSaved ∧
      resolve exStale "/empty.bak_20240307090500_Jo Doe".toList =
        some ["empty.bak_20240307090500_Jo Doe".toList] ∧
      (exStaleSaved.fs.lookup
        (["stale.txt".toList] ++ ["empty.bak_20240307090500_Jo Doe".toList])).isSome = true ∧
      (exStaleSaved.fs.lookup (["stale.txt".toList] ++ ["empty".toList])).isSome = false) ∧
    (SaveFile exEnv 1 ⟨exSealed, none⟩ "/empty".toList =
        .ok ⟨exSealed, some ⟨"20240307090500".toList, "Jo Doe".toList⟩⟩ ∧
      exSealed.lookup ["empty.bak_20240307090500_Jo Doe".toList] = none ∧
      (exSealed.lookup ["empty".toList]).isSome = true) ∧
    (processEntry 1 exFs "/empty".toList "/proj".toList = .ok exMerged ∧
      (exMerged.lookup (["a.txt".toList] ++ ["proj".toList])).isSome = true ∧
      (exMerged.lookup (["a.txt".toList] ++ ["empty".toList])).isSome = false ∧
      (exMerged.lookup (["b.log".toList, "sub".toList] ++ ["proj".toList])).isSome = true ∧
      (exMerged.lookup (["b.log".toList, "sub".toList] ++ ["empty".toList])).isSome =
        false) := by
  refine ⟨⟨by decide, by decide, by decide, by decide⟩, ⟨by decide, by decide, by decide⟩,
    ⟨by decide, by decide, by decide, by decide, by decide⟩⟩

/-! ## Clean absolute paths and their targets -/

theorem joinSep_append_singleton (a : List Str) (x : Str) (ha : a ≠ []) :
    joinSep (a ++ [x]) = joinSep a ++ pathSeparator :: x := by
  induction a with
  | nil => exact absurd rfl ha
  | cons y r ih =>
    cases r with
    | nil => simp [joinSep]
    | cons z r =>
      have := ih (by simp)
      simp only [List.cons_append] at this ⊢
      rw [joinSep, this, joinSep]
      simp

/-- A clean absolute path is the separator followed by valid names joined with the
separator. -/
theorem clean_abs_shape (p : Str) (habs : IsAbs p = true) (hclean : Clean p = p) :
    ∃ out : List Str, (∀ x ∈ out, validName x = true) ∧
      p = pathSeparator :: joinSep out.reverse := by
  have hp : p ≠ [] := by
    intro h; rw [h] at habs; exact absurd habs (by decide)
  have hn : NormOut (IsAbs p) ((splitSep p).foldl (cleanStep (IsAbs p)) []) :=
    normOut_foldl _ _ _ (not_mem_of_mem_splitSep p) ⟨[], 0, rfl, by simp, fun _ => rfl⟩
  rw [habs] at hn
  obtain ⟨names, k, hout, hv, hk⟩ := hn
  have hk0 : k = 0 := hk rfl
  subst hk0
  simp only [List.replicate_zero, List.append_nil] at hout
  refine ⟨names, hv, ?_⟩
  have : Clean p = pathSeparator :: joinSep names.reverse := by
    unfold Clean
    simp only [hp, if_false, habs, if_true, hout, List.singleton_append]
    simp
  rw [← this, hclean]

/-- A clean absolute path other than the root is its directory, the separator and its base
name, which is a valid name. -/
theorem clean_abs_split (p : Str) (habs : IsAbs p = true) (hclean : Clean p = p)
    (hroot : p ≠ [pathSeparator]) :
    validName (Base p) = true ∧
    ((Dir p = [pathSeparator] ∧ p = pathSeparator :: Base p) ∨
      p = Dir p ++ pathSeparator :: Base p) := by
  obtain ⟨out, hv, hp⟩ := clean_abs_shape p habs hclean
  cases out with
  | nil => exact absurd hp hroot
  | cons last rest =>
    have hlast : validName last = true := hv last (by simp)
    have hl := (validName_iff last).1 hlast
    by_cases hrest : rest = []
    · subst hrest
      have hp' : p = [] ++ pathSeparator :: last := by rw [hp]; rfl
      have hb : Base p = last := by rw [hp']; exact Base_append_name [] last hl.2.1 hl.1
      have hd : Dir p = [pathSeparator] := by
        rw [hp', Dir_append_name [] last hl.2.1]; rfl
      rw [hb]
      exact ⟨hlast, Or.inl ⟨hd, by rw [hp]; rfl⟩⟩
    · have hj : joinSep (last :: rest).reverse =
          joinSep rest.reverse ++ pathSeparator :: last := by
        rw [List.reverse_cons]
        exact joinSep_append_singleton _ _ (by simpa using hrest)
      have hp' : p = (pathSeparator :: joinSep rest.reverse) ++ pathSeparator :: last := by
        rw [hp, hj]; rfl
      have hb : Base p = last := by rw [hp']; exact Base_append_name _ last hl.2.1 hl.1
      have hX : Clean (pathSeparator :: joinSep rest.reverse) =
          pathSeparator :: joinSep rest.reverse := by
        have := Clean_of_normOut true rest
          ⟨rest, 0, by simp, fun x hx => hv x (List.mem_cons_of_mem _ hx), fun _ => rfl⟩
        simpa using this
      have hd : Dir p = pathSeparator :: joinSep rest.reverse := by
        rw [hp', Dir_append_name _ last hl.2.1, Clean_append_sep _ (by simp), hX]
      rw [hb, hd]
      exact ⟨hlast, Or.inr hp'⟩

/-- What the path `X/c` designates is the child `c` of what `X` designates. -/
theorem resolve_child_inv (fs : FS) (X c : Str) (hX : X ≠ []) (hc : validName c = true)
    (k : Key) (h : resolve fs (X ++ pathSeparator :: c) = some k) :
    ∃ d, resolve fs X = some d ∧ k = c :: d := by
  obtain ⟨_, hlen, d0, hd, hw⟩ := (resolve_iff fs _ k).1 h
  rw [startKey_append fs _ _ hX] at hd
  rw [splitSep_child _ c hc, walk_append] at hw
  cases hw1 : walk fs d0 (splitSep X) with
  | none => rw [hw1] at hw; simp at hw
  | some k1 =>
    rw [hw1] at hw
    simp only [Option.some_bind] at hw
    rw [walk_name fs k1 c hc] at hw
    split at hw
    · refine ⟨k1, ?_, (Option.some.inj hw).symm⟩
      rw [resolve_iff]
      refine ⟨hX, ?_, d0, hd, hw1⟩
      simp only [List.length_append, List.length_cons] at hlen
      omega
    · exact absurd hw (by simp)

theorem resolve_root (fs : FS) (k : Key) (h : resolve fs [pathSeparator] = some k) : k = [] := by
  obtain ⟨_, _, d, hd, hw⟩ := (resolve_iff fs _ k).1 h
  have hd' : d = [] := by
    have : startKey fs [pathSeparator] = some [] := rfl
    rw [this] at hd
    exact (Option.some.inj hd).symm
  subst hd'
  have hs : splitSep [pathSeparator] = [[], []] := rfl
  rw [hs, walk_cons] at hw
  split at hw
  · exact absurd hw (by simp)
  · rw [if_pos (Or.inl rfl), walk_cons] at hw
    split at hw
    · exact absurd hw (by simp)
    · rw [if_pos (Or.inl rfl)] at hw
      exact (Option.some.inj hw).symm

theorem resolve_root_child (fs : FS) (c : Str) (hc : validName c = true) (k : Key)
    (h : resolve fs (pathSeparator :: c) = some k) : k = [c] := by
  obtain ⟨_, _, d, hd, hw⟩ := (resolve_iff fs _ k).1 h
  have hd' : d = [] := by
    have : startKey fs (pathSeparator :: c) = some [] := by simp [startKey, IsAbs]
    rw [this] at hd
    exact (Option.some.inj hd).symm
  subst hd'
  have hs : splitSep (pathSeparator :: c) = [[], c] := by
    have := splitSep_append_sep [] c
    rw [splitSep_of_not_mem c ((validName_iff c).1 hc).2.1] at this
    exact this
  rw [hs, walk_cons] at hw
  split at hw
  · exact absurd hw (by simp)
  · rw [if_pos (Or.inl rfl), walk_name fs [] c hc] at hw
    split at hw
    · exact (Option.some.inj hw).symm
    · exact absurd hw (by simp)

theorem isAbs_Clean (x : Str) (h : IsAbs x = true) : IsAbs (Clean x) = true := by
  have hx : x ≠ [] := by
    intro h0; rw [h0] at h; exact absurd h (by decide)
  unfold Clean
  simp only [hx, if_false, h, if_true, List.singleton_append]
  simp [IsAbs]

theorem lastElement_append_name (X b : Str) (hb : pathSeparator ∉ b) :
    lastElement (X ++ pathSeparator :: b) = b := by
  unfold lastElement
  have hrev : (X ++ pathSeparator :: b).reverse = b.reverse ++ pathSeparator :: X.reverse := by
    simp
  rw [hrev, takeWhile_append_of_all _ _ _ _ (by
    intro x hx
    have : x ≠ pathSeparator := fun e => hb (by rw [← e]; exact List.mem_reverse.1 hx)
    simpa using this) (by simp)]
  simp

/-- A path that holds a separator is what stands before its last separator, the separator,
and its last element. -/
theorem split_lastElement (p : Str) (h : pathSeparator ∈ p) :
    ∃ X, p = X ++ pathSeparator :: lastElement p ∧ pathSeparator ∉ lastElement p := by
  have hnot : pathSeparator ∉ lastElement p := by
    unfold lastElement
    intro hm
    rw [List.mem_reverse] at hm
    have := List.mem_takeWhile_imp hm
    simp at this
  have hsplit := List.takeWhile_append_dropWhile (fun c => decide (c ≠ pathSeparator)) p.reverse
  cases hd : p.reverse.dropWhile (fun c => decide (c ≠ pathSeparator)) with
  | nil =>
    rw [hd, List.append_nil] at hsplit
    exfalso
    have hm : pathSeparator ∈ p.reverse.takeWhile (fun c => decide (c ≠ pathSeparator)) := by
      rw [hsplit]; exact List.mem_reverse.2 h
    have := List.mem_takeWhile_imp hm
    simp at this
  | cons c rest =>
    have hc : c = pathSeparator := by
      have := List.head_dropWhile_not (fun c => decide (c ≠ pathSeparator)) p.reverse
        (by rw [hd]; simp)
      simp only [hd, List.head_cons] at this
      simpa using this
    rw [hd, hc] at hsplit
    refine ⟨rest.reverse, ?_, hnot⟩
    have := congrArg List.reverse hsplit
    rw [List.reverse_reverse] at this
    conv_lhs => rw [← this]
    simp [lastElement]

/-- The location that an absolute path designates is the one computed from its elements
as `filepath.Clean` does. -/
theorem walk_eq_fold (fs : FS) (els : List Str) :
    ∀ (cur k : Key), (∀ el ∈ els, pathSeparator ∉ el) → (∀ x ∈ cur, validName x = true) →
      walk fs cur els = some k → k = els.foldl (cleanStep true) cur := by
  induction els with
  | nil =>
    intro cur k _ _ h
    simp only [walk, Option.some.injEq] at h
    exact h.symm
  | cons el rest ih =>
    intro cur k hels hcur h
    have hrest : ∀ x ∈ rest, pathSeparator ∉ x := fun x hx => hels x (List.mem_cons_of_mem _ hx)
    rw [walk_cons] at h
    rw [List.foldl_cons]
    by_cases hd : fs.isDirAt cur = false
    · rw [if_pos hd] at h; exact absurd h (by simp)
    · rw [if_neg hd] at h
      by_cases h1 : el = [] ∨ el = ['.']
      · rw [if_pos h1] at h
        have : cleanStep true cur el = cur := by simp [cleanStep, h1]
        rw [this]
        exact ih cur k hrest hcur h
      · rw [if_neg h1] at h
        by_cases h2 : el = ['.', '.']
        · rw [if_pos h2] at h
          have : cleanStep true cur el = cur.tail := by
            cases cur with
            | nil => simp [cleanStep, h2]
            | cons top r =>
              have htop : top ≠ ['.', '.'] := ((validName_iff top).1 (hcur top (by simp))).2.2.2
              simp [cleanStep, h2, htop]
          rw [this]
          exact ih cur.tail k hrest (fun x hx => hcur x (List.mem_of_mem_tail hx)) h
        · rw [if_neg h2] at h
          by_cases h3 : fs.nameMax < el.length
          · rw [if_pos h3] at h; exact absurd h (by simp)
          · rw [if_neg h3] at h
            have : cleanStep true cur el = el :: cur := by simp [cleanStep, h1, h2]
            rw [this]
            refine ih (el :: cur) k hrest ?_ h
            intro x hx
            rcases List.mem_cons.1 hx with hx | hx
            · rw [hx, validName_iff]
              push_neg at h1
              exact ⟨h1.1, hels el (by simp), h1.2, h2⟩
            · exact hcur x hx

theorem resolve_abs_eq_fold (fs : FS) (q : Str) (k : Key) (habs : IsAbs q = true)
    (h : resolve fs q = some k) : k = (splitSep q).foldl (cleanStep true) [] := by
  obtain ⟨_, _, d, hd, hw⟩ := (resolve_iff fs q k).1 h
  have hd' : d = [] := by
    unfold startKey at hd
    rw [habs] at hd
    exact (Option.some.inj hd).symm
  subst hd'
  exact walk_eq_fold fs _ [] k (not_mem_of_mem_splitSep q) (by simp) hw

/-- Cleaning an absolute path does not change the location computed from its elements. -/
theorem fold_Clean (Y : Str) (habs : IsAbs Y = true) :
    (splitSep (Clean Y)).foldl (cleanStep true) [] = (splitSep Y).foldl (cleanStep true) [] := by
  have hY : Y ≠ [] := by
    intro h; rw [h] at habs; exact absurd habs (by decide)
  have hn : NormOut (IsAbs Y) ((splitSep Y).foldl (cleanStep (IsAbs Y)) []) :=
    normOut_foldl _ _ _ (not_mem_of_mem_splitSep Y) ⟨[], 0, rfl, by simp, fun _ => rfl⟩
  rw [habs] at hn
  generalize hout : (splitSep Y).foldl (cleanStep true) [] = out at hn
  have hC : Clean Y = pathSeparator :: joinSep out.reverse := by
    unfold Clean
    simp only [hY, if_false, habs, if_true, hout, List.singleton_append]
    simp
  have hsplit : splitSep (pathSeparator :: joinSep out.reverse) =
      [] :: splitSep (joinSep out.reverse) := by
    rw [splitSep]; simp
  rw [hC, hsplit, List.foldl_cons]
  have h0 : cleanStep true [] [] = [] := rfl
  rw [h0]
  by_cases ho : out.reverse = []
  · have : out = [] := by simpa using ho
    subst this
    rfl
  · rw [splitSep_joinSep _ ho (fun x hx => (normOut_not_mem true out hn x
      (List.mem_reverse.1 hx)).1)]
    exact foldl_cleanStep_normOut true out hn

theorem mem_sep_of_isAbs (p : Str) (habs : IsAbs p = true) : pathSeparator ∈ p := by
  cases p with
  | nil => exact absurd habs (by decide)
  | cons c r =>
    have : c = pathSeparator := by simpa [IsAbs] using habs
    rw [this]; simp

/-- The base name of an absolute path whose last element is a name is that element. -/
theorem Base_eq_lastElement (p : Str) (habs : IsAbs p = true)
    (hlast : validName (lastElement p) = true) : Base p = lastElement p := by
  obtain ⟨X, hp, hnot⟩ := split_lastElement p (mem_sep_of_isAbs p habs)
  have hb := (validName_iff _).1 hlast
  conv_lhs => rw [hp]
  exact Base_append_name X _ hnot hb.1

/-- The last element of a clean absolute path other than the root is a name. -/
theorem clean_abs_lastElement (p : Str) (habs : IsAbs p = true) (hclean : Clean p = p)
    (hroot : p ≠ [pathSeparator]) : validName (lastElement p) = true := by
  obtain ⟨hb, hsplit⟩ := clean_abs_split p habs hclean hroot
  have hnot := ((validName_iff _).1 hb).2.1
  have : lastElement p = Base p := by
    rcases hsplit with ⟨_, hp⟩ | hp
    · conv_lhs => rw [hp]
      exact lastElement_append_name [] _ hnot
    · conv_lhs => rw [hp]
      exact lastElement_append_name _ _ hnot
  rw [this]; exact hb

/-- For an absolute path `p` whose last element is a name, and a valid name `n`, the
locations that `p` and `Dir p/n` designate lie in the same directory. -/
theorem resolve_siblings (fs : FS) (p n : Str) (habs : IsAbs p = true)
    (hlast : validName (lastElement p) = true) (hn : validName n = true) (ks kt : Key)
    (hs : resolve fs p = some ks) (ht : resolve fs (Dir p ++ pathSeparator :: n) = some kt) :
    Base p = lastElement p ∧ ∃ d, ks = Base p :: d ∧ kt = n :: d := by
  obtain ⟨X, hp, hnot⟩ := split_lastElement p (mem_sep_of_isAbs p habs)
  generalize lastElement p = b at hp hnot hlast
  have hb := (validName_iff b).1 hlast
  have hbase : Base p = b := by rw [hp]; exact Base_append_name X b hnot hb.1
  have hdir : Dir p = Clean (X ++ [pathSeparator]) := by
    rw [hp]; exact Dir_append_name X b hnot
  have hYabs : IsAbs (X ++ [pathSeparator]) = true := by
    cases X with
    | nil => rfl
    | cons c r =>
      rw [hp] at habs
      exact habs
  -- the source
  have h1 := resolve_abs_eq_fold fs p ks habs hs
  rw [hp, splitSep_child X b hlast, List.foldl_append, List.foldl_cons, List.foldl_nil,
    cleanStep_validName true _ b hlast] at h1
  -- the target
  have htabs : IsAbs (Dir p ++ pathSeparator :: n) = true := by
    rw [isAbs_append _ _ (Dir_ne_nil p), hdir]
    exact isAbs_Clean _ hYabs
  have h2 := resolve_abs_eq_fold fs _ kt htabs ht
  rw [splitSep_child _ n hn, List.foldl_append, List.foldl_cons, List.foldl_nil,
    cleanStep_validName true _ n hn, hdir, fold_Clean _ hYabs, splitSep_append_sep,
    List.foldl_append] at h2
  have h0 : ∀ out, (splitSep []).foldl (cleanStep true) out = out := by
    intro out
    have : splitSep [] = [[]] := rfl
    rw [this]
    simp [cleanStep]
  rw [h0] at h2
  rw [hbase]
  exact ⟨rfl, _, h1, h2⟩

/-- The path computed for a source whose base name is a name: the directory of the source,
the separator, and a valid name that differs from the base name of the source. -/
theorem target_name (env : Env) (c : tContext) (p : Str)
    (hts : pathSeparator ∉ c.sNow) (hu : pathSeparator ∉ c.sMe)
    (hb : pathSeparator ∉ Base p) :
    ∃ n, computeTopLevelTargetPath env (some c) p = .ok (Dir p ++ pathSeparator :: n, some c) ∧
      validName n = true ∧ n ≠ Base p ∧ Base (Dir p ++ pathSeparator :: n) = n := by
  have happ := splitStemExt_append (Base p)
  have hstem : pathSeparator ∉ (splitStemExt (Base p)).1 := by
    intro h; apply hb; rw [← happ]; exact List.mem_append_left _ h
  have hext : pathSeparator ∉ (splitStemExt (Base p)).2 := by
    intro h; apply hb; rw [← happ]; exact List.mem_append_right _ h
  have hR : pathSeparator ∉ (splitStemExt (Base p)).1 ++
      (".bak_".toList ++ c.sNow ++ "_".toList ++ c.sMe) ++ (splitStemExt (Base p)).2 := by
    simp only [List.mem_append, not_or]
    exact ⟨⟨hstem, ⟨⟨by decide, hts⟩, by decide⟩, hu⟩, hext⟩
  have hlen : 6 ≤ ((splitStemExt (Base p)).1 ++
      (".bak_".toList ++ c.sNow ++ "_".toList ++ c.sMe) ++ (splitStemExt (Base p)).2).length := by
    have h5 : (".bak_".toList).length = 5 := rfl
    have h1 : ("_".toList).length = 1 := rfl
    simp only [List.length_append, h5, h1]
    omega
  refine ⟨(splitStemExt (Base p)).1 ++ (".bak_".toList ++ c.sNow ++ "_".toList ++ c.sMe) ++
    (splitStemExt (Base p)).2, ?_, ?_, ?_, ?_⟩
  · rw [computeTopLevelTargetPath_some]
    simp
  · rw [validName_iff]
    refine ⟨?_, hR, ?_, ?_⟩
    · intro h; rw [h] at hlen; simp at hlen
    · intro h; rw [h] at hlen; simp at hlen
    · intro h; rw [h] at hlen; simp at hlen
  · intro h
    have h2 := congrArg List.length h
    have h3 := congrArg List.length happ
    have h5 : (".bak_".toList).length = 5 := rfl
    have h1 : ("_".toList).length = 1 := rfl
    simp only [List.length_append, h5, h1] at h2 h3
    omega
  · exact Base_append_name _ _ hR (by intro h; rw [h] at hlen; simp at hlen)

/-! ## Where a run writes -/

theorem Touches.writesUnder {fs fs' : FS} {t : Key} (h : Touches fs fs' t) :
    WritesUnder fs fs' t :=
  ⟨h.wf, h.env, h.kept,
    fun k hk1 hk2 => h.frame k (fun h3 => hk1 (h3 ▸ List.suffix_refl _)) hk2⟩

theorem writesUnder_refl (fs : FS) (hwf : fs.wf = true) (t : Key) : WritesUnder fs fs t :=
  ⟨hwf, sameEnv_refl fs, keptEntries_refl fs, fun _ _ _ => rfl⟩

theorem WritesUnder.followedBy {a b c : FS} {t : Key} (h1 : WritesUnder a b t)
    (h2 : WritesUnder b c t) : WritesUnder a c t :=
  ⟨h2.wf, sameEnv_trans h1.env h2.env, keptEntries_trans h1.kept h2.kept,
    fun k hk1 hk2 => (h2.frame k hk1 hk2).trans (h1.frame k hk1 hk2)⟩

/-- What is written for a child of the target is written under the target. -/
theorem WritesUnder.of_child {a b : FS} {t : Key} {c : Str} (h : WritesUnder a b (c :: t)) :
    WritesUnder a b t :=
  ⟨h.wf, h.env, h.kept, fun k hk1 _ =>
    h.frame k (fun h1 => hk1 ((List.suffix_cons c t).trans h1))
      (fun h2 => hk1 (h2 ▸ List.suffix_refl _))⟩

/-- The loop of `diveDirectory` writes under the target only, however it ends. -/
theorem diveLoop_writes (pe : FS → Str → Str → Outcome FS) (src tgt : Str) (t : Key)
    (IH : ∀ (fs : FS) (src' tgt' : Str) (t' : Key) (fs' : FS), fs.wf = true →
      resolve fs tgt' = some t' → (pe fs src' tgt').final = some fs' → WritesUnder fs fs' t')
    (IH0 : ∀ (fs : FS) (src' tgt' : Str) (fs' : FS), fs.wf = true → tgt' ≠ [] →
      resolve fs tgt' = none → (pe fs src' tgt').final = some fs' → fs' = fs)
    (fs1 : FS) (htgt : resolve fs1 tgt = some t) (childs : List Str) :
    ∀ (fsi fsn : FS), WritesUnder fs1 fsi t → (∀ c ∈ childs, validName c = true) →
      (diveLoop pe src tgt childs fsi).final = some fsn → WritesUnder fs1 fsn t := by
  induction childs with
  | nil =>
    intro fsi fsn inv _ h
    simp only [diveLoop, Outcome.final, Option.some.injEq] at h
    rw [← h]; exact inv
  | cons c rest ihl =>
    intro fsi fsn inv hv h
    rw [diveLoop] at h
    have hc : validName c = true := hv c (by simp)
    have htgti := resolve_kept fs1 fsi inv.kept inv.env tgt t htgt
    have htc := resolve_child_eq fsi tgt t c htgti hc
    have hstep : ∀ fs2, (pe fsi (src ++ pathSeparator :: c) (tgt ++ pathSeparator :: c)).final =
        some fs2 → WritesUnder fs1 fs2 t := by
      intro fs2 hf
      by_cases hcond : (tgt ++ pathSeparator :: c).length ≤ fsi.pathMax ∧
          fsi.isDirAt t = true ∧ c.length ≤ fsi.nameMax
      · rw [if_pos hcond] at htc
        exact inv.followedBy (IH fsi _ _ (c :: t) fs2 inv.wf htc hf).of_child
      · rw [if_neg hcond] at htc
        rw [IH0 fsi _ _ fs2 inv.wf (by simp) htc hf]
        exact inv
    cases hpe : pe fsi (src ++ pathSeparator :: c) (tgt ++ pathSeparator :: c) with
    | panic fs2 e =>
      rw [hpe] at h hstep
      simp only [Outcome.final, Option.some.injEq] at h
      rw [← h]
      exact hstep fs2 rfl
    | fuelOut => rw [hpe] at h; simp [Outcome.final] at h
    | ok fs2 =>
      rw [hpe] at h hstep
      simp only at h
      exact ihl fs2 fsn (hstep fs2 rfl) (fun c' hc' => hv c' (List.mem_cons_of_mem _ hc')) h

/-- The function `processFile` writes at the target only, however it ends. -/
theorem processFile_writes (fs fs' : FS) (src tgt : Str) (sf : File) (info : FileInfo)
    (t : Key) (hwf : fs.wf = true) (htgt : resolve fs tgt = some t)
    (h : (processFile fs src sf info tgt).final = some fs') : WritesUnder fs fs' t := by
  unfold processFile at h
  cases hc : osCreate fs tgt with
  | none =>
    rw [hc] at h
    simp only [Outcome.final, Option.some.injEq] at h
    rw [← h]
    exact writesUnder_refl fs hwf t
  | some r =>
    obtain ⟨fs1, tf⟩ := r
    rw [hc] at h
    simp only at h
    obtain ⟨hkey, t1, _⟩ := touches_create fs fs1 tgt tf t hwf htgt hc
    have htgt1 := resolve_kept fs fs1 t1.kept t1.env tgt t htgt
    cases hio : ioCopy fs1 tf sf with
    | none =>
      rw [hio] at h
      simp only [Outcome.final, Option.some.injEq] at h
      obtain ⟨t3, _, _⟩ := touches_mirror fs1 tgt info t t1.wf htgt1
      rw [h] at t3
      exact (t1.andThen t3).writesUnder
    | some fs2 =>
      rw [hio] at h
      simp only [Outcome.final, Option.some.injEq] at h
      have t2 := touches_copy fs1 fs2 tf sf t1.wf hio
      rw [hkey] at t2
      have t12 := t1.andThen t2
      have htgt2 := resolve_kept fs fs2 t12.kept t12.env tgt t htgt
      obtain ⟨t3, _, _⟩ := touches_mirror fs2 tgt info t t12.wf htgt2
      rw [h] at t3
      exact (t12.andThen t3).writesUnder

/-- A call of `processEntry` writes under the location its target path designates, and at
the parent of that location, only; this holds for a call that returns and for a call that
panics. -/
theorem processEntry_writes : ∀ (fuel : Nat) (fs : FS) (src tgt : Str) (t : Key) (fs' : FS),
    fs.wf = true → resolve fs tgt = some t →
    (processEntry fuel fs src tgt).final = some fs' → WritesUnder fs fs' t := by
  intro fuel
  induction fuel with
  | zero =>
    intro fs src tgt t fs' _ _ h
    simp [processEntry, Outcome.final] at h
  | succ fuel ih =>
    intro fs src tgt t fs' hwf htgt h
    rw [processEntry] at h
    cases ho : osOpen fs src with
    | none =>
      rw [ho] at h
      simp only [Outcome.final, Option.some.injEq] at h
      rw [← h]; exact writesUnder_refl fs hwf t
    | some sf =>
      rw [ho] at h
      simp only at h
      cases hst : fileStat fs sf with
      | none =>
        rw [hst] at h
        simp only [Outcome.final, Option.some.injEq] at h
        rw [← h]; exact writesUnder_refl fs hwf t
      | some info =>
        rw [hst] at h
        simp only at h
        by_cases hd : info.isDir = true
        · rw [if_pos hd] at h
          unfold processDirectory at h
          have T1 := touches_mkdir fs tgt t 0o777 hwf htgt
          generalize (match osMkdir fs tgt 0o777 with
            | some fs' => fs'
            | none => fs) = fs1 at h T1
          simp only at h
          have htgt1 := resolve_kept fs fs1 T1.kept T1.env tgt t htgt
          have hfin : ∀ fs2, WritesUnder fs1 fs2 t →
              WritesUnder fs (mirrorMtimeAndMode fs2 tgt info) t := by
            intro fs2 w2
            have htgt2 := resolve_kept fs1 fs2 w2.kept w2.env tgt t htgt1
            obtain ⟨t3, _, _⟩ := touches_mirror fs2 tgt info t w2.wf htgt2
            exact (T1.writesUnder.followedBy w2).followedBy t3.writesUnder
          unfold diveDirectory at h
          cases hrd : fileReadDir fs1 sf with
          | none =>
            rw [hrd] at h
            simp only [Outcome.final, Option.some.injEq] at h
            rw [← h]
            exact hfin fs1 (writesUnder_refl fs1 T1.wf t)
          | some childs =>
            rw [hrd] at h
            simp only at h
            obtain ⟨_, _, hv⟩ := fileReadDir_spec fs1 sf childs T1.wf hrd
            have hloop := diveLoop_writes (processEntry fuel) sf.name tgt t
              (fun fs0 src' tgt' t' fs0' h1 h2 h3 => ih fs0 src' tgt' t' fs0' h1 h2 h3)
              (fun fs0 src' tgt' fs0' h1 h2 h3 h4 =>
                processEntry_no_target fuel fs0 src' tgt' fs0' h1 h2 h3 h4)
              fs1 htgt1 childs fs1
            cases hl : diveLoop (processEntry fuel) sf.name tgt childs fs1 with
            | panic fs2 e =>
              rw [hl] at h hloop
              simp only [Outcome.final, Option.some.injEq] at h
              rw [← h]
              exact hfin fs2 (hloop fs2 (writesUnder_refl fs1 T1.wf t)
                (fun c hc => (hv c hc).1) rfl)
            | fuelOut => rw [hl] at h; simp [Outcome.final] at h
            | ok fs2 =>
              rw [hl] at h hloop
              simp only [Outcome.final, Option.some.injEq] at h
              rw [← h]
              exact hfin fs2 (hloop fs2 (writesUnder_refl fs1 T1.wf t)
                (fun c hc => (hv c hc).1) rfl)
        · rw [if_neg hd] at h
          exact processFile_writes fs fs' src tgt sf info t hwf htgt h

/-- The path that `SaveFile` gets from `filepath.Abs` is absolute and clean. -/
theorem Abs_clean (fs : FS) (path p : Str) (h : Abs fs path = some p) :
    IsAbs p = true ∧ Clean p = p := by
  unfold Abs at h
  split at h
  · rename_i habs
    rw [← Option.some.inj h]
    exact ⟨isAbs_Clean path habs, Clean_Clean path⟩
  · cases hwd : osGetwd fs with
    | none => rw [hwd] at h; simp at h
    | some wd =>
      rw [hwd] at h
      simp only [Option.some.injEq] at h
      rw [← h]
      refine ⟨isAbs_Clean _ ?_, Clean_Clean _⟩
      unfold osGetwd at hwd
      cases hc : fs.cwd with
      | none => rw [hc] at hwd; simp at hwd
      | some d =>
        rw [hc] at hwd
        simp only [Option.some.injEq] at hwd
        rw [← hwd]
        simp [IsAbs]

/-- The path that `SaveFile` gets from `filepath.Abs`, unless it is the root, is an
absolute path whose last element is a name. -/
theorem Abs_lastElement (fs : FS) (path p : Str) (h : Abs fs path = some p)
    (hroot : p ≠ [pathSeparator]) : IsAbs p = true ∧ validName (lastElement p) = true := by
  obtain ⟨h1, h2⟩ := Abs_clean fs path p h
  exact ⟨h1, clean_abs_lastElement p h1 h2 hroot⟩

/-- C3 (amended): for an absolute source path `p` whose last element is a name (not empty,
so that `p` is not the root and has no trailing separator, and neither `.` nor `..`), and
for a naming context that holds a timestamp built by `getContextSingleton` and a user name
without path separator, the target computed for `p` is a sibling of `p`: its parent directory is the parent directory of `p`, its base
name holds `.bak_`, the timestamp, `_` and the user name in that order, and it differs
from `p`.  In every filesystem the locations that `p` and the target designate are two
different names in one directory, so that no location at or under the target is a location
at or under the source; and a run of `processEntry` from `p` to the target, whether it
returns or panics, leaves every entry at or under the source as it was: writing the backup
never writes to the original entry. -/
theorem C3_sibling_target (env : Env) (now : Time) (u : Str) (p : Str)
    (hu : pathSeparator ∉ u) (habs : IsAbs p = true)
    (hlast : validName (lastElement p) = true) :
    ∃ t, computeTopLevelTargetPath env (some ⟨formatNow now, u⟩) p =
        .ok (t, some ⟨formatNow now, u⟩) ∧
      Dir t = Dir p ∧
      (".bak_".toList ++ formatNow now ++ "_".toList ++ u) <:+: Base t ∧ t ≠ p ∧
      (∀ (fs : FS) (ks kt : Key), resolve fs p = some ks → resolve fs t = some kt →
        ∃ d, ks = Base p :: d ∧ kt = Base t :: d ∧ Base t ≠ Base p ∧
          ∀ r r' : List Str, r ++ kt ≠ r' ++ ks) ∧
      (∀ (fuel : Nat) (fs fs' : FS) (ks : Key), fs.wf = true → resolve fs p = some ks →
        (processEntry fuel fs p t).final = some fs' →
        ∀ r : List Str, fs'.lookup (r ++ ks) = fs.lookup (r ++ ks)) := by
  have hb : pathSeparator ∉ Base p := by
    rw [Base_eq_lastElement p habs hlast]
    exact ((validName_iff _).1 hlast).2.1
  obtain ⟨n, hcomp, hn, hne, hbase⟩ := target_name env ⟨formatNow now, u⟩ p
    (formatNow_not_sep now) hu hb
  obtain ⟨t', ht', hdir, hinfix, htp⟩ := sibling_target env ⟨formatNow now, u⟩ p
    (formatNow_not_sep now) hu
  have htt : t' = Dir p ++ pathSeparator :: n := by
    rw [hcomp] at ht'
    simp only [Except.ok.injEq, Prod.mk.injEq] at ht'
    exact ht'.1.symm
  subst htt
  have hsib : ∀ (fs : FS) (ks kt : Key), resolve fs p = some ks →
      resolve fs (Dir p ++ pathSeparator :: n) = some kt →
      ∃ d, ks = Base p :: d ∧ kt = n :: d :=
    fun fs ks kt hs ht => (resolve_siblings fs p n habs hlast hn ks kt hs ht).2
  refine ⟨_, hcomp, hdir, hinfix, htp, ?_, ?_⟩
  · intro fs ks kt hs ht
    obtain ⟨d, h1, h2⟩ := hsib fs ks kt hs ht
    rw [hbase]
    refine ⟨d, h1, h2, hne, ?_⟩
    intro r r' heq
    rw [h1, h2] at heq
    apply not_suffix_sibling d n (Base p) r' hne
    rw [← heq]
    exact List.suffix_append _ _
  · intro fuel fs fs' ks hwf hs hrun r
    cases hrt : resolve fs (Dir p ++ pathSeparator :: n) with
    | none =>
      rw [processEntry_no_target fuel fs p _ fs' hwf (by simp) hrt hrun]
    | some kt =>
      obtain ⟨d, h1, h2⟩ := hsib fs ks kt hs hrt
      have hw := processEntry_writes fuel fs p _ kt fs' hwf hrt hrun
      rw [h1]
      apply hw.frame
      · rw [h2]
        exact not_suffix_sibling d n (Base p) r hne
      · rw [h2]
        exact append_cons_ne d (Base p) r

/-- Witness of C3 (amended) for `/home/jo/report.txt`. -/
theorem C3_sibling_target_witness :
    pathSeparator ∉ "Jo Doe".toList ∧ IsAbs "/home/jo/report.txt".toList = true ∧
    validName (lastElement "/home/jo/report.txt".toList) = true ∧
    ∃ t, computeTopLevelTargetPath ⟨⟨2024, 3, 7, 9, 5, 1⟩, none⟩
        (some ⟨formatNow ⟨2024, 3, 7, 9, 5, 0⟩, "Jo Doe".toList⟩) "/home/jo/report.txt".toList =
        .ok (t, some ⟨formatNow ⟨2024, 3, 7, 9, 5, 0⟩, "Jo Doe".toList⟩) ∧
      Dir t = Dir "/home/jo/report.txt".toList ∧
      (".bak_".toList ++ formatNow ⟨2024, 3, 7, 9, 5, 0⟩ ++ "_".toList ++ "Jo Doe".toList)
        <:+: Base t ∧
      t ≠ "/home/jo/report.txt".toList ∧
      (∀ (fs : FS) (ks kt : Key), resolve fs "/home/jo/report.txt".toList = some ks →
        resolve fs t = some kt →
        ∃ d, ks = Base "/home/jo/report.txt".toList :: d ∧ kt = Base t :: d ∧
          Base t ≠ Base "/home/jo/report.txt".toList ∧
          ∀ r r' : List Str, r ++ kt ≠ r' ++ ks) ∧
      (∀ (fuel : Nat) (fs fs' : FS) (ks : Key), fs.wf = true →
        resolve fs "/home/jo/report.txt".toList = some ks →
        (processEntry fuel fs "/home/jo/report.txt".toList t).final = some fs' →
        ∀ r : List Str, fs'.lookup (r ++ ks) = fs.lookup (r ++ ks)) :=
  ⟨by decide, by decide, by decide,
    C3_sibling_target ⟨⟨2024, 3, 7, 9, 5, 1⟩, none⟩ ⟨2024, 3, 7, 9, 5, 0⟩
      "Jo Doe".toList "/home/jo/report.txt".toList (by decide) (by decide) (by decide)⟩

/-- C3 as stated fails.  For the user name `Ops/Backup` the target computed for the
absolute path `/home/jo/report.txt` lies in the directory
`/home/jo/report.bak_20240307090500_Ops`, not in `/home/jo`.  For the root `/` the target
`///.bak_20240307090500_Jo Doe` designates a child of the source: `SaveFile` on the root
returns normally and has stamped the root, whose modification time was 1, with 100, and
put a new entry into it.  For the absolute path `/proj/` the target
`/proj/proj.bak_20240307090500_Jo Doe` designates a child of the source `/proj`, and so
does the target `/proj/..bak_20240307090500_Jo Doe` of the absolute path `/proj/.`; the
target `/proj/sub/..bak_20240307090500_Jo Doe.` of the absolute path `/proj/sub/..`, which
designates `/proj`, lies under `/proj`. -/
theorem C3_counterexample :
    (computeTopLevelTargetPath exEnvSlash none "/home/jo/report.txt".toList =
        .ok ("/home/jo/report.bak_20240307090500_Ops/Backup.txt".toList,
          some ⟨"20240307090500".toList, "Ops/Backup".toList⟩) ∧
      IsAbs "/home/jo/report.txt".toList = true ∧
      Dir "/home/jo/report.bak_20240307090500_Ops/Backup.txt".toList =
        "/home/jo/report.bak_20240307090500_Ops".toList ∧
      Dir "/home/jo/report.txt".toList = "/home/jo".toList) ∧
    (computeTopLevelTargetPath exEnv none "/".toList =
        .ok ("///.bak_20240307090500_Jo Doe".toList,
          some ⟨"20240307090500".toList, "Jo Doe".toList⟩) ∧
      IsAbs "/".toList = true ∧ lastElement "/".toList = [] ∧
      Abs exRoot "/".toList = some "/".toList ∧
      resolve exRoot "/".toList = some [] ∧
      resolve exRoot "///.bak_20240307090500_Jo Doe".toList =
        some [".bak_20240307090500_Jo Doe".toList] ∧
      SaveFile exEnv 2 ⟨exRoot, none⟩ "/".toList = .ok exRootSaved ∧
      exRoot.lookup [] = some ⟨true, [], 1, 0o755, false⟩ ∧
      exRootSaved.fs.lookup [] = some ⟨true, [], 100, 0o755, false⟩ ∧
      (exRootSaved.fs.lookup [".bak_20240307090500_Jo Doe".toList]).isSome = true) ∧
    (computeTopLevelTargetPath exEnv none "/proj/".toList =
        .ok ("/proj/proj.bak_20240307090500_Jo Doe".toList,
          some ⟨"20240307090500".toList, "Jo Doe".toList⟩) ∧
      IsAbs "/proj/".toList = true ∧ lastElement "/proj/".toList = [] ∧
      resolve exFs "/proj/".toList = some ["proj".toList] ∧
      resolve exFs "/proj/proj.bak_20240307090500_Jo Doe".toList =
        some ["proj.bak_20240307090500_Jo Doe".toList, "proj".toList]) ∧
    (computeTopLevelTargetPath exEnv none "/proj/.".toList =
        .ok ("/proj/..bak_20240307090500_Jo Doe".toList,
          some ⟨"20240307090500".toList, "Jo Doe".toList⟩) ∧
      IsAbs "/proj/.".toList = true ∧ lastElement "/proj/.".toList = ".".toList ∧
      resolve exFs "/proj/.".toList = some ["proj".toList] ∧
      resolve exFs "/proj/..bak_20240307090500_Jo Doe".toList =
        some ["..bak_20240307090500_Jo Doe".toList, "proj".toList]) ∧
    (computeTopLevelTargetPath exEnv none "/proj/sub/..".toList =
        .ok ("/proj/sub/..bak_20240307090500_Jo Doe.".toList,
          some ⟨"20240307090500".toList, "Jo Doe".toList⟩) ∧
      IsAbs "/proj/sub/..".toList = true ∧ lastElement "/proj/sub/..".toList = "..".toList ∧
      resolve exFs "/proj/sub/..".toList = some ["proj".toList] ∧
      resolve exFs "/proj/sub/..bak_20240307090500_Jo Doe.".toList =
        some ["..bak_20240307090500_Jo Doe.".toList, "sub".toList, "proj".toList]) := by
  refine ⟨⟨rfl, by decide, by decide, by decide⟩,
    ⟨rfl, by decide, by decide, by decide, by decide, by decide, by decide, by decide,
      by decide, by decide⟩,
    ⟨rfl, by decide, by decide, by decide, by decide⟩,
    ⟨rfl, by decide, by decide, by decide, by decide⟩,
    ⟨rfl, by decide, by decide, by decide, by decide⟩⟩

/-! ## The outcome does not depend on the fuel -/

theorem diveLoop_ext (f g : FS → Str → Str → Outcome FS)
    (hfg : ∀ fs a b, f fs a b ≠ .fuelOut → g fs a b = f fs a b) (dirName target : Str)
    (childs : List Str) :
    ∀ fs, diveLoop f dirName target childs fs ≠ .fuelOut →
      diveLoop g dirName target childs fs = diveLoop f dirName target childs fs := by
  induction childs with
  | nil => intro fs _; rfl
  | cons c rest ih =>
    intro fs h
    rw [diveLoop] at h ⊢
    rw [diveLoop]
    cases hf : f fs (dirName ++ pathSeparator :: c) (target ++ pathSeparator :: c) with
    | fuelOut => rw [hf] at h; exact absurd rfl h
    | panic fs2 e =>
      rw [hfg fs _ _ (by rw [hf]; simp), hf]
    | ok fs2 =>
      rw [hf] at h
      simp only at h
      rw [hfg fs _ _ (by rw [hf]; simp), hf]
      exact ih fs2 h

theorem processDirectory_ext (f g : FS → Str → Str → Outcome FS)
    (hfg : ∀ fs a b, f fs a b ≠ .fuelOut → g fs a b = f fs a b) (fs : FS) (sourcePath : Str)
    (sourceFile : File) (sourceInfo : FileInfo) (targetPath : Str)
    (h : processDirectory f fs sourcePath sourceFile sourceInfo targetPath ≠ .fuelOut) :
    processDirectory g fs sourcePath sourceFile sourceInfo targetPath =
      processDirectory f fs sourcePath sourceFile sourceInfo targetPath := by
  unfold processDirectory at h ⊢
  simp only at h ⊢
  generalize (match osMkdir fs targetPath 0o777 with
    | some fs' => fs'
    | none => fs) = fs1 at h ⊢
  have hd : diveDirectory f fs1 sourceFile targetPath ≠ .fuelOut := by
    intro h0
    rw [h0] at h
    exact h rfl
  have : diveDirectory g fs1 sourceFile targetPath =
      diveDirectory f fs1 sourceFile targetPath := by
    unfold diveDirectory at hd ⊢
    cases hr : fileReadDir fs1 sourceFile with
    | none => rfl
    | some childs =>
      rw [hr] at hd
      exact diveLoop_ext f g hfg _ _ childs fs1 hd
  rw [this]

/-- A run that has ended within some fuel ends in the same way with more. -/
theorem processEntry_fuel_succ (fuel : Nat) :
    ∀ (fs : FS) (src tgt : Str), processEntry fuel fs src tgt ≠ .fuelOut →
      processEntry (fuel + 1) fs src tgt = processEntry fuel fs src tgt := by
  induction fuel with
  | zero => intro fs src tgt h; exact absurd rfl h
  | succ fuel ih =>
    intro fs src tgt h
    rw [processEntry] at h
    rw [processEntry]
    conv_rhs => rw [processEntry]
    cases ho : osOpen fs src with
    | none => rfl
    | some sf =>
      rw [ho] at h
      simp only at h ⊢
      cases hs : fileStat fs sf with
      | none => rfl
      | some info =>
        rw [hs] at h
        simp only at h ⊢
        by_cases hdir : info.isDir = true
        · rw [if_pos hdir] at h ⊢
          rw [if_pos hdir]
          exact processDirectory_ext (processEntry fuel) (processEntry (fuel + 1)) ih _ _ _ _ _ h
        · rw [if_neg hdir, if_neg hdir]

theorem processEntry_fuel_mono (fuel k : Nat) (fs : FS) (src tgt : Str)
    (h : processEntry fuel fs src tgt ≠ .fuelOut) :
    processEntry (fuel + k) fs src tgt = processEntry fuel fs src tgt := by
  induction k with
  | zero => rfl
  | succ k ih =>
    rw [← Nat.add_assoc, processEntry_fuel_succ (fuel + k) fs src tgt (by rw [ih]; exact h), ih]

end Savefile
